import Mathlib

/-!
# myMem.c: a best-fit free-list allocator over `sbrk`

Shallow embedding of `src/myMem.c` for an LP64 platform:

* `size_t`, `intptr_t` and pointers are 64 bits wide; `size_t` values are
  natural numbers below `WORD = 2^64` and every `size_t` operation of the
  source is followed by `% WORD`;
* `sizeof(header_t) = 24`: the struct arm of the union is
  `size_t` (8) + `unsigned` (4, padded to 8) + pointer (8), the `ALIGN`
  arm is a `char[16]` of alignment 1, so the union has size 24;
* `__INT_MAX__ = 2^31 - 1`;
* a pointer that may be `NULL` is an `Option Nat` (`none` is `NULL`), and
  so is the result of `sbrk` (`none` is `(void *)-1`);
* the headers live in `mem`, the payload bytes in `data`;
* the kernel is the function `sbrk` below: it keeps the program break
  between the break the process started with (`start`) and
  `ADDR_LIMIT = 2^63`, and whether it grants a growth request is an input
  (`grant`) of the call that makes the request;
* the kernel maps the heap in pages of `PAGE = 4096` bytes and unmaps the
  pages above the break when the break is lowered; `mem` is total, and the
  one read of a header that the source makes after it has returned the
  header to the kernel (lines 132-133 of `free`) is checked against the
  pages that are still mapped (`readable`);
* every loop takes a `fuel` bound on its number of iterations and a
  function returns `none` when the call does not return: a loop runs out of
  fuel (the C loop does not terminate), the non-recursive mutex is locked
  while already held, or a read of unmapped memory kills the process.

The file has two parts.  The definitions are the embedding of the source,
the block list a heap represents (`Chain`), the layout invariant (`WF`),
the heaps reachable from the empty heap (`Reachable`) and a few concrete call
sequences.  The theorems relate the pointer-level functions to their reading
on the block list, show that every reachable heap is well formed, and end
with the statements about `get_free_block`, `malloc`, `calloc` and `free`.
-/

namespace MyMem

/-- Number of values of a `size_t` (and of a pointer) on LP64. -/
def WORD : Nat := 2 ^ 64

/-- The value of `sizeof(header_t)` on LP64. -/
def HDR : Nat := 24

/-- The value of `__INT_MAX__`. -/
def INT_MAX : Nat := 2 ^ 31 - 1

/-- Exclusive upper bound of the addresses the kernel hands out as program
break: the non-negative range of `intptr_t`. -/
def ADDR_LIMIT : Nat := 2 ^ 63

/-- Size of a page of memory: the kernel maps and unmaps the heap in pages. -/
def PAGE : Nat := 4096

/-- The struct `s` of `union header`. -/
structure header_t where
  size : Nat
  is_free : Bool
  next : Option Nat
deriving DecidableEq, Repr

/-- The globals of `myMem.c` together with the memory they point into and
the program break kept by the kernel; `start` is the break the process
started with, below which the kernel never moves the break. -/
structure Heap where
  mem : Nat → header_t
  data : Nat → Nat
  head : Option Nat
  tail : Option Nat
  brk : Nat
  start : Nat
  total_allocated : Nat
  total_freed : Nat
  current_usage : Nat
  allocation_count : Nat
  locked : Bool

/-- The state of a process that has not called the allocator yet: the
globals are zero-initialised and the program break is `b0`. -/
def Heap.empty (b0 : Nat) : Heap :=
  { mem := fun _ => { size := 0, is_free := false, next := none }
    data := fun _ => 0
    head := none
    tail := none
    brk := b0
    start := b0
    total_allocated := 0
    total_freed := 0
    current_usage := 0
    allocation_count := 0
    locked := false }

/-- Store `h` as the header at address `a`. -/
def Heap.store (s : Heap) (a : Nat) (h : header_t) : Heap :=
  { s with mem := fun x => if x = a then h else s.mem x }

/-- `pthread_mutex_lock(&global_malloc_lock)`: the mutex is a default
(non-recursive) mutex, so locking it while it is held never returns. -/
def pthread_mutex_lock (s : Heap) : Option Heap :=
  if s.locked then none else some { s with locked := true }

/-- `pthread_mutex_unlock(&global_malloc_lock)`. -/
def pthread_mutex_unlock (s : Heap) : Heap :=
  { s with locked := false }

/-- `sbrk(increment)`, where `increment` is the `size_t` word the source
passes and the callee reads as an `intptr_t`.  A word below `2^63` is a
growth request: a zero request reports the break, a positive one succeeds
when the kernel grants it (`grant`) and the new break stays below
`ADDR_LIMIT`.  A word from `2^63` on is the negative increment
`increment - 2^64`: the call fails when the new break would fall below
address zero; otherwise the kernel lowers the break when the new break is not
below `start`, and leaves it where it is when it is, and the call reports
success in both cases.  On success the result is the previous break; `none`
is the failure value `(void *)-1` and leaves the break where it was. -/
def sbrk (s : Heap) (increment : Nat) (grant : Bool) : Option Nat × Heap :=
  if increment < 2 ^ 63 then
    if increment = 0 then (some s.brk, s)
    else if grant = true ∧ s.brk + increment < ADDR_LIMIT then
      (some s.brk, { s with brk := s.brk + increment })
    else (none, s)
  else
    if WORD - increment ≤ s.brk then
      if s.start ≤ s.brk - (WORD - increment) then
        (some s.brk, { s with brk := s.brk - (WORD - increment) })
      else (some s.brk, s)
    else (none, s)

/-- End of the last page of the heap: the kernel keeps the pages below the
break mapped, up to the end of the page the last byte below the break lies
in, and unmaps the pages from there on when the break is lowered. -/
def page_end (brk : Nat) : Nat :=
  (brk + PAGE - 1) / PAGE * PAGE

/-- The `size` field of a header at address `a`, a word of 8 bytes, lies in
mapped memory: a read of it returns.  A read of a word that reaches into an
unmapped page kills the process. -/
def readable (s : Heap) (a : Nat) : Bool :=
  decide (a + 8 ≤ page_end s.brk)

/-- First loop of `get_free_block` (lines 38-45): the running minimum
`tempSize` over the free blocks of size at least `size`. -/
def min_pass (mem : Nat → header_t) (size : Nat) :
    Nat → Option Nat → Nat → Option Nat
  | _, none, tempSize => some tempSize
  | 0, some _, _ => none
  | fuel + 1, some curr, tempSize =>
    min_pass mem size fuel (mem curr).next
      (if (mem curr).is_free = true ∧ (mem curr).size ≥ size then
        (if tempSize > (mem curr).size then (mem curr).size else tempSize)
       else tempSize)

/-- Second loop of `get_free_block` (lines 47-51): the first free block
whose size is `tempSize`. -/
def find_pass (mem : Nat → header_t) (tempSize : Nat) :
    Nat → Option Nat → Option (Option Nat)
  | _, none => some none
  | 0, some _ => none
  | fuel + 1, some curr1 =>
    if (mem curr1).is_free = true ∧ (mem curr1).size = tempSize then
      some (some curr1)
    else find_pass mem tempSize fuel (mem curr1).next

/-- `get_free_block(size)` (lines 35-53). -/
def get_free_block (fuel : Nat) (s : Heap) (size : Nat) : Option (Option Nat) :=
  match min_pass s.mem size fuel s.head INT_MAX with
  | none => none
  | some tempSize => find_pass s.mem tempSize fuel s.head

/-- `malloc(size)` (lines 56-91).  `grant` says whether the kernel grants
the growth request of line 72, if one is made.  The result is the returned
pointer and the state after the call. -/
def malloc (fuel : Nat) (s : Heap) (size : Nat) (grant : Bool) :
    Option (Option Nat × Heap) :=
  if size = 0 then some (none, s)
  else
    match pthread_mutex_lock s with
    | none => none
    | some s1 =>
      match get_free_block fuel s1 size with
      | none => none
      | some (some header) =>
        let s2 := s1.store header { s1.mem header with is_free := false }
        let s3 := pthread_mutex_unlock s2
        some (some ((header + HDR) % WORD),
          { s3 with
            current_usage := (s3.current_usage + size) % WORD
            allocation_count := (s3.allocation_count + 1) % WORD })
      | some none =>
        let total_size := (HDR + size) % WORD
        match sbrk s1 total_size grant with
        | (none, s2) => some (none, pthread_mutex_unlock s2)
        | (some block, s2) =>
          let header := block
          let s3 := s2.store header { size := size, is_free := false, next := none }
          let s4 := if s3.head = none then { s3 with head := some header } else s3
          let s5 :=
            match s4.tail with
            | some t => s4.store t { s4.mem t with next := some header }
            | none => s4
          let s6 := { s5 with tail := some header }
          let s7 := pthread_mutex_unlock s6
          some (some ((header + HDR) % WORD),
            { s7 with
              total_allocated := (s7.total_allocated + size) % WORD
              current_usage := (s7.current_usage + size) % WORD
              allocation_count := (s7.allocation_count + 1) % WORD })

/-- The loop of `coalesce_free_blocks` (lines 96-105), entered with
`curr`. -/
def coalesce_loop : Nat → Heap → Option Nat → Option Heap
  | _, s, none => some s
  | 0, _, some _ => none
  | fuel + 1, s, some curr =>
    match (s.mem curr).next with
    | none => some s
    | some nxt =>
      if (s.mem curr).is_free = true ∧ (s.mem nxt).is_free = true then
        let s1 := s.store curr
          { s.mem curr with size := ((s.mem curr).size + (HDR + (s.mem nxt).size) % WORD) % WORD }
        let s2 := s1.store curr { s1.mem curr with next := (s1.mem nxt).next }
        let s3 := if (s2.mem curr).next = none then { s2 with tail := some curr } else s2
        coalesce_loop fuel s3 (some curr)
      else coalesce_loop fuel s (some nxt)

/-- `coalesce_free_blocks()` (lines 94-106). -/
def coalesce_free_blocks (fuel : Nat) (s : Heap) : Option Heap :=
  coalesce_loop fuel s s.head

/-- The loop of `free` that unlinks the tail (lines 121-128), entered with
`tmp`. -/
def unlink_loop : Nat → Heap → Option Nat → Option Heap
  | _, s, none => some s
  | 0, _, some _ => none
  | fuel + 1, s, some tmp =>
    let s1 :=
      if (s.mem tmp).next = s.tail then
        { s.store tmp { s.mem tmp with next := none } with tail := some tmp }
      else s
    unlink_loop fuel s1 (s1.mem tmp).next

/-- `free(block)` (lines 109-141).  On the path that returns the block to
the kernel, lines 132-133 read `header->s.size` after `sbrk` has lowered the
break to `header` (line 130): the call does not return when that word is no
longer mapped. -/
def free (fuel : Nat) (s : Heap) (block : Option Nat) : Option Heap :=
  match block with
  | none => some s
  | some block =>
    match pthread_mutex_lock s with
    | none => none
    | some s1 =>
      let header := (block + WORD - HDR) % WORD
      let (programbreak, s2) := sbrk s1 0 true
      if some ((block + (s2.mem header).size) % WORD) = programbreak then
        let unlinked :=
          if s2.head = s2.tail then some { s2 with head := none, tail := none }
          else unlink_loop fuel s2 s2.head
        match unlinked with
        | none => none
        | some s3 =>
          let s4 := (sbrk s3 ((WORD + WORD - HDR - (s3.mem header).size) % WORD) true).2
          let s5 := pthread_mutex_unlock s4
          if readable s5 header = true then
            let s6 := { s5 with total_freed := (s5.total_freed + (s5.mem header).size) % WORD }
            some { s6 with
              current_usage := (s6.current_usage + WORD - (s6.mem header).size) % WORD }
          else none
      else
        let s3 := s2.store header { s2.mem header with is_free := true }
        match coalesce_free_blocks fuel s3 with
        | none => none
        | some s4 =>
          let s5 := { s4 with total_freed := (s4.total_freed + (s4.mem header).size) % WORD }
          let s6 := { s5 with
            current_usage := (s5.current_usage + WORD - (s5.mem header).size) % WORD }
          some (pthread_mutex_unlock s6)

/-- `memset(block, 0, size)` on the payload bytes. -/
def memset_zero (s : Heap) (block size : Nat) : Heap :=
  { s with data := fun a => if block ≤ a ∧ a < block + size then 0 else s.data a }

/-- `calloc(num, nsize)` (lines 144-157). -/
def calloc (fuel : Nat) (s : Heap) (num nsize : Nat) (grant : Bool) :
    Option (Option Nat × Heap) :=
  if num = 0 ∨ nsize = 0 then some (none, s)
  else
    let size := (num * nsize) % WORD
    if nsize ≠ size / num then some (none, s)
    else
      match malloc fuel s size grant with
      | none => none
      | some (none, s1) => some (none, s1)
      | some (some block, s1) => some (some block, memset_zero s1 block size)

/-- `memcpy(dest, src, n)` on the payload bytes. -/
def memcpy (s : Heap) (dest src n : Nat) : Heap :=
  { s with data := fun a => if dest ≤ a ∧ a < dest + n then s.data (src + (a - dest)) else s.data a }

/-- `realloc(block, size)` (lines 160-178); `memcpy` copies
`header->s.size` payload bytes. -/
def realloc (fuel : Nat) (s : Heap) (block : Option Nat) (size : Nat) (grant : Bool) :
    Option (Option Nat × Heap) :=
  match block with
  | none => malloc fuel s size grant
  | some block =>
    if size = 0 then (free fuel s (some block)).map fun s1 => (none, s1)
    else
      let header := (block + WORD - HDR) % WORD
      if (s.mem header).size ≥ size then some (some block, s)
      else
        match malloc fuel s size grant with
        | none => none
        | some (none, s1) => some (none, s1)
        | some (some ret, s1) =>
          let s2 := memcpy s1 ret block (s1.mem header).size
          (free fuel s2 (some block)).map fun s3 => (some ret, s3)

/-! ## The block list seen from `head` -/

/-- A block of the list: the address of its header, its recorded size and
its `is_free` flag. -/
structure Blk where
  addr : Nat
  size : Nat
  free : Bool
deriving DecidableEq, Repr

/-- Following the `next` links from `p` visits the headers of `bl`, in this
order and with these sizes and flags, and then reaches `NULL`. -/
def Chain (mem : Nat → header_t) : Option Nat → List Blk → Prop
  | p, [] => p = none
  | p, b :: bl =>
    p = some b.addr ∧ (mem b.addr).size = b.size ∧ (mem b.addr).is_free = b.free ∧
      Chain mem (mem b.addr).next bl

instance Chain.instDecidable (mem : Nat → header_t) :
    (p : Option Nat) → (bl : List Blk) → Decidable (Chain mem p bl)
  | p, [] => inferInstanceAs (Decidable (p = none))
  | p, b :: bl =>
    have := Chain.instDecidable mem (mem b.addr).next bl
    inferInstanceAs (Decidable (p = some b.addr ∧ (mem b.addr).size = b.size ∧
      (mem b.addr).is_free = b.free ∧ Chain mem (mem b.addr).next bl))

/-- The first loop of `get_free_block` read on the block list. -/
def minL (size : Nat) : List Blk → Nat → Nat
  | [], tempSize => tempSize
  | b :: bl, tempSize =>
    minL size bl
      (if b.free = true ∧ b.size ≥ size then (if tempSize > b.size then b.size else tempSize)
       else tempSize)

/-- The second loop of `get_free_block` read on the block list. -/
def findL (tempSize : Nat) : List Blk → Option Nat
  | [] => none
  | b :: bl => if b.free = true ∧ b.size = tempSize then some b.addr else findL tempSize bl

/-- The function `get_free_block` read on the block list. -/
def gfbL (size : Nat) (bl : List Blk) : Option Nat :=
  findL (minL size bl INT_MAX) bl

/-! ## Well-formed heaps -/

/-- The blocks of `bl` tile the addresses from `a` to `e`: the first header
is at `a`, every payload ends where the next header starts, and the last
payload ends at `e`. -/
def Tiles : Nat → List Blk → Nat → Prop
  | a, [], e => a = e
  | a, b :: bl, e => b.addr = a ∧ Tiles (a + HDR + b.size) bl e

/-- No two neighbours of the list are both free. -/
def NoAdjFree : List Blk → Prop
  | [] => True
  | [_] => True
  | b :: c :: bl => ¬ (b.free = true ∧ c.free = true) ∧ NoAdjFree (c :: bl)

/-- Address of the last block of the list, `NULL` for the empty list. -/
def lastAddr (bl : List Blk) : Option Nat :=
  bl.getLast?.map Blk.addr

/-- Address of the first block of the list, `NULL` for the empty list. -/
def firstAddr (bl : List Blk) : Option Nat :=
  bl.head?.map Blk.addr

/-- The heap `s` is well formed with block list `bl`: the `next` links from
`head` run through `bl` and end at `tail`, the blocks tile the memory up to
the program break, which lies below `ADDR_LIMIT`, every recorded size is
positive, no two neighbours are both free, the guard is free, and neither the
break nor a block lies below the start of the heap. -/
structure WF (s : Heap) (bl : List Blk) : Prop where
  chain : Chain s.mem s.head bl
  tail_eq : s.tail = lastAddr bl
  tiles : ∃ a, Tiles a bl s.brk
  brk_lt : s.brk < ADDR_LIMIT
  size_pos : ∀ b ∈ bl, 0 < b.size
  no_adj_free : NoAdjFree bl
  unlocked : s.locked = false
  start_le_brk : s.start ≤ s.brk
  start_le : ∀ b ∈ bl, s.start ≤ b.addr

/-! ## The calls read on the block list -/

/-- The block list after the flag of the block at address `a` has been set
to `f`. -/
def setFlag (a : Nat) (f : Bool) : List Blk → List Blk
  | [] => []
  | b :: bl => if b.addr = a then { b with free := f } :: bl else b :: setFlag a f bl

/-- The loop of `coalesce_free_blocks` read on the block list, with current
block `b` and the blocks `bl` after it. -/
def mergeL : Blk → List Blk → List Blk
  | b, [] => [b]
  | b, c :: bl =>
    if b.free = true ∧ c.free = true then
      mergeL { b with size := b.size + (HDR + c.size) } bl
    else b :: mergeL c bl

/-- The function `coalesce_free_blocks` read on the block list. -/
def coalesceL : List Blk → List Blk
  | [] => []
  | b :: bl => mergeL b bl

/-! ## The states the calls leave on a well-formed heap -/

/-- The state `malloc(size)` leaves when it reuses the block at `a`
(lines 65-68). -/
def reuse_state (s : Heap) (a size : Nat) : Heap :=
  { s.store a { s.mem a with is_free := false } with
    current_usage := (s.current_usage + size) % WORD
    allocation_count := (s.allocation_count + 1) % WORD }

/-- The headers after `malloc(size)` has grown the heap (lines 77-84): the
new header is written at the old break and the old tail, if there is one, is
linked to it. -/
def grow_mem (s : Heap) (size : Nat) : Nat → header_t :=
  let s3 := s.store s.brk { size := size, is_free := false, next := none }
  match s.tail with
  | some t => (s3.store t { s3.mem t with next := some s.brk }).mem
  | none => s3.mem

/-- The state `malloc(size)` leaves when it grows the heap by
`HDR + size` bytes (lines 77-89). -/
def grow_state (s : Heap) (size : Nat) : Heap :=
  { s with
    mem := grow_mem s size
    brk := s.brk + (HDR + size)
    head := if s.head = none then some s.brk else s.head
    tail := some s.brk
    total_allocated := (s.total_allocated + size) % WORD
    current_usage := (s.current_usage + size) % WORD
    allocation_count := (s.allocation_count + 1) % WORD }

/-- The state `free` leaves when it returns the last block, whose header is
at `a`, to the kernel (lines 118-133); `l` is the address of the block
before it, `NULL` when there is none. -/
def shrink_state (s : Heap) (a : Nat) (l : Option Nat) : Heap :=
  { s with
    mem :=
      match l with
      | some l => (s.store l { s.mem l with next := none }).mem
      | none => s.mem
    head := if l = none then none else s.head
    tail := l
    brk := a
    total_freed := (s.total_freed + (s.mem a).size) % WORD
    current_usage := (s.current_usage + WORD - (s.mem a).size) % WORD }

/-! ## Reachable heaps -/

/-- The heaps reached from an empty heap by calls of `malloc` whose size
`n > 0` keeps `sizeof(header_t) + n` in the positive range of `intptr_t`,
and by calls of `free` on the payload pointer of a block of the list that is
in use. -/
inductive Reachable : Heap → Prop
  | empty (b0 : Nat) (h : b0 < ADDR_LIMIT) : Reachable (Heap.empty b0)
  | alloc {s : Heap} (fuel size : Nat) (grant : Bool) (r : Option Nat × Heap) :
      Reachable s → 0 < size → HDR + size < 2 ^ 63 →
      malloc fuel s size grant = some r → Reachable r.2
  | release {s : Heap} (fuel : Nat) (bl : List Blk) (b : Blk) (s' : Heap) :
      Reachable s → Chain s.mem s.head bl → b ∈ bl → b.free = false →
      free fuel s (some (b.addr + HDR)) = some s' → Reachable s'

/-! ## Call sequences used as concrete inputs -/

/-- The calls `a = malloc(n1); malloc(n2); free(a)` made one after the other
on the empty heap whose break is 4096, the kernel granting both growth
requests. -/
def free_first_of_two (n1 n2 : Nat) : Option Heap :=
  (malloc 8 (Heap.empty 4096) n1 true).bind fun r1 =>
    (malloc 8 r1.2 n2 true).bind fun r2 => free 8 r2.2 r1.1

/-- The calls `a = malloc(n1); malloc(n2); c = malloc(n3); free(a)` made one
after the other on the empty heap whose break is 4096, the kernel granting
every growth request. -/
def free_first_of_three (n1 n2 n3 : Nat) : Option Heap :=
  (malloc 8 (Heap.empty 4096) n1 true).bind fun r1 =>
    (malloc 8 r1.2 n2 true).bind fun r2 =>
      (malloc 8 r2.2 n3 true).bind fun r3 => free 8 r3.2 r1.1

/-- The calls `a = malloc(100); malloc(8); b = malloc(50); c = malloc(8);
free(a); free(b); free(c)` made one after the other on the empty heap whose
break is 4096, the kernel granting every growth request: the list is then a
free block of 100 bytes, a block in use, and a free block of 50 bytes that
ends at the break. -/
def free_tail_trace : Option Heap :=
  (malloc 8 (Heap.empty 4096) 100 true).bind fun r1 =>
    (malloc 8 r1.2 8 true).bind fun r2 =>
      (malloc 8 r2.2 50 true).bind fun r3 =>
        (malloc 8 r3.2 8 true).bind fun r4 =>
          (free 8 r4.2 r1.1).bind fun s5 =>
            (free 8 s5 r3.1).bind fun s6 => free 8 s6 r4.1

/-- Four calls of `malloc` made one after the other on the empty heap whose
break is 4096, the kernel granting every growth request: the four returned
pointers and the heap after the calls. -/
def four_blocks (n1 n2 n3 n4 : Nat) :
    Option (Option Nat × Option Nat × Option Nat × Option Nat × Heap) :=
  (malloc 8 (Heap.empty 4096) n1 true).bind fun r1 =>
    (malloc 8 r1.2 n2 true).bind fun r2 =>
      (malloc 8 r2.2 n3 true).bind fun r3 =>
        (malloc 8 r3.2 n4 true).map fun r4 => (r1.1, r2.1, r3.1, r4.1, r4.2)

/-- The calls `free(p); free(q)`. -/
def free_two (s : Heap) (p q : Option Nat) : Option Heap :=
  (free 8 s p).bind fun s1 => free 8 s1 q

/-! ## Reference definition of the best fit -/

/-- The free blocks of `bl` whose recorded size is at least `size`. -/
def qualifying (size : Nat) (bl : List Blk) : List Blk :=
  bl.filter fun b => b.free && decide (size ≤ b.size)

/-- The least number of a list, `none` for the empty list. -/
def least : List Nat → Option Nat
  | [] => none
  | x :: xs => some (xs.foldl min x)

/-- Best fit after the words of the specification: the first block in list
order among the free blocks of minimal size among those with size at least
`size`, or `NULL` if there is none. -/
def best_fit (size : Nat) (bl : List Blk) : Option Nat :=
  match least ((qualifying size bl).map Blk.size) with
  | none => none
  | some m => ((bl.filter fun b => b.free && decide (b.size = m)).head?).map Blk.addr

/-- A heap with two blocks, a free one of 64 bytes at 4096 and one of 128
bytes in use at 4184: the layout that `A = malloc(64); malloc(128); free(A)`
leaves on the empty heap with break 4096. -/
def two_blocks_first_free : Heap :=
  (grow_state (grow_state (Heap.empty 4096) 64) 128).store 4096
    { size := 64, is_free := true, next := some 4184 }

/-- The calls `malloc(8); malloc(2^64 - 24); malloc(8)` made one after the
other on the empty heap whose break is 4096, the kernel granting every
growth request. -/
def wrapped_size_trace : Option Heap :=
  (malloc 8 (Heap.empty 4096) 8 true).bind fun r1 =>
    (malloc 8 r1.2 18446744073709551592 true).bind fun r2 =>
      (malloc 8 r2.2 8 true).map fun r3 => r3.2

/-! ## The order of the effects of `malloc` and `free` -/

/-- The effects of a call on the shared state, by kind: taking and releasing
`global_malloc_lock`, a store to a field of a header, a store to `head` or
`tail`, an update of one of the four counters, a call of `sbrk`, and the
read of an unmapped word, which ends the run. -/
inductive Event
  | lock
  | unlock
  | header_write
  | list_write
  | counter_update
  | sbrk_call
  | fault
deriving DecidableEq, Repr

/-- The effects of `malloc(size)` in program order (lines 56-91), on the path
that `malloc fuel s size grant` takes. -/
def malloc_events (fuel : Nat) (s : Heap) (size : Nat) (grant : Bool) :
    Option (List Event) :=
  if size = 0 then some []
  else
    match pthread_mutex_lock s with
    | none => none
    | some s1 =>
      match get_free_block fuel s1 size with
      | none => none
      | some (some _) =>
        some [Event.lock, Event.header_write, Event.unlock,
          Event.counter_update, Event.counter_update]
      | some none =>
        match sbrk s1 ((HDR + size) % WORD) grant with
        | (none, _) => some [Event.lock, Event.sbrk_call, Event.unlock]
        | (some _, s2) =>
          some ([Event.lock, Event.sbrk_call,
              Event.header_write, Event.header_write, Event.header_write]
            ++ (if s2.head = none then [Event.list_write] else [])
            ++ (if s2.tail = none then [] else [Event.header_write])
            ++ [Event.list_write, Event.unlock,
              Event.counter_update, Event.counter_update, Event.counter_update])

/-- The effects of the loop of `coalesce_free_blocks` (lines 96-105) in
program order, entered with `curr`. -/
def coalesce_events : Nat → Heap → Option Nat → Option (List Event)
  | _, _, none => some []
  | 0, _, some _ => none
  | fuel + 1, s, some curr =>
    match (s.mem curr).next with
    | none => some []
    | some nxt =>
      if (s.mem curr).is_free = true ∧ (s.mem nxt).is_free = true then
        let s1 := s.store curr
          { s.mem curr with size := ((s.mem curr).size + (HDR + (s.mem nxt).size) % WORD) % WORD }
        let s2 := s1.store curr { s1.mem curr with next := (s1.mem nxt).next }
        let s3 := if (s2.mem curr).next = none then { s2 with tail := some curr } else s2
        (coalesce_events fuel s3 (some curr)).map fun es =>
          [Event.header_write, Event.header_write]
            ++ (if (s2.mem curr).next = none then [Event.list_write] else []) ++ es
      else coalesce_events fuel s (some nxt)

/-- The effects of the loop of `free` that unlinks the tail (lines 121-128)
in program order, entered with `tmp`. -/
def unlink_events : Nat → Heap → Option Nat → Option (List Event)
  | _, _, none => some []
  | 0, _, some _ => none
  | fuel + 1, s, some tmp =>
    let s1 :=
      if (s.mem tmp).next = s.tail then
        { s.store tmp { s.mem tmp with next := none } with tail := some tmp }
      else s
    (unlink_events fuel s1 (s1.mem tmp).next).map fun es =>
      (if (s.mem tmp).next = s.tail then [Event.header_write, Event.list_write] else []) ++ es

/-- The effects of `free(block)` in program order (lines 109-141), on the
path that `free fuel s block` takes.  On the path that shrinks the heap the
first counter update reads `header->s.size` (line 132): the trace ends there
with `fault` when that word is no longer mapped. -/
def free_events (fuel : Nat) (s : Heap) (block : Option Nat) : Option (List Event) :=
  match block with
  | none => some []
  | some block =>
    match pthread_mutex_lock s with
    | none => none
    | some s1 =>
      let header := (block + WORD - HDR) % WORD
      let (programbreak, s2) := sbrk s1 0 true
      if some ((block + (s2.mem header).size) % WORD) = programbreak then
        let unlinked :=
          if s2.head = s2.tail then some { s2 with head := none, tail := none }
          else unlink_loop fuel s2 s2.head
        let unlinking :=
          if s2.head = s2.tail then some [Event.list_write, Event.list_write]
          else unlink_events fuel s2 s2.head
        match unlinked, unlinking with
        | some s3, some es =>
          let s4 := (sbrk s3 ((WORD + WORD - HDR - (s3.mem header).size) % WORD) true).2
          some ([Event.lock, Event.sbrk_call] ++ es ++ [Event.sbrk_call, Event.unlock]
            ++ (if readable s4 header = true then [Event.counter_update, Event.counter_update]
                else [Event.fault]))
        | _, _ => none
      else
        let s3 := s2.store header { s2.mem header with is_free := true }
        (coalesce_events fuel s3 s3.head).map fun es =>
          [Event.lock, Event.sbrk_call, Event.header_write] ++ es
            ++ [Event.counter_update, Event.counter_update, Event.unlock]

/-- Every header write and every counter update of the trace happens while
the guard is held; `held` says whether it is held before the trace. -/
def guarded : Bool → List Event → Bool
  | _, [] => true
  | _, Event.lock :: es => guarded true es
  | _, Event.unlock :: es => guarded false es
  | held, Event.header_write :: es => held && guarded held es
  | held, Event.counter_update :: es => held && guarded held es
  | held, Event.list_write :: es => guarded held es
  | held, Event.sbrk_call :: es => guarded held es
  | held, Event.fault :: es => guarded held es

/-- The loop of `coalesce_free_blocks` read on the block list of any chain,
the sizes being added as `size_t` values. -/
def mergeW : Blk → List Blk → List Blk
  | b, [] => [b]
  | b, c :: bl =>
    if b.free = true ∧ c.free = true then
      mergeW { b with size := (b.size + (HDR + c.size) % WORD) % WORD } bl
    else b :: mergeW c bl

/-- The function `coalesce_free_blocks` read on the block list of any
chain. -/
def coalesceW : List Blk → List Blk
  | [] => []
  | b :: bl => mergeW b bl

/-- Headers of three consecutive free blocks of 16 bytes at 4096, 4136 and
4176 followed by a block of 16 bytes in use at 4216. -/
def three_free_mem (a : Nat) : header_t :=
  if a = 4096 then { size := 16, is_free := true, next := some 4136 }
  else if a = 4136 then { size := 16, is_free := true, next := some 4176 }
  else if a = 4176 then { size := 16, is_free := true, next := some 4216 }
  else { size := 16, is_free := false, next := none }

/-- A heap whose list starts with three consecutive free blocks. -/
def three_free_blocks : Heap :=
  { Heap.empty 4256 with mem := three_free_mem, head := some 4096, tail := some 4216 }

/-- The bytes the blocks of a list span: the sum of `sizeof(header_t) + size`
over the blocks. -/
def span (bl : List Blk) : Nat :=
  (bl.map fun b => HDR + b.size).sum

/-- The blocks of a list that are in use, in list order. -/
def in_use (bl : List Blk) : List Blk :=
  bl.filter fun b => !b.free

/-- The free block that takes the place of the consecutive blocks `run` when
they are merged into the first of them: it starts at the first header and its
payload reaches to the end of the last of them. -/
def fuse : List Blk → Blk
  | [] => ⟨0, 0, true⟩
  | r :: rs => ⟨r.addr, r.size + span rs, true⟩

/-! # Theorems -/

/-! ## Simple facts about the primitives -/

theorem get_free_block_locked (fuel : Nat) (s : Heap) (size : Nat) (b : Bool) :
    get_free_block fuel { s with locked := b } size = get_free_block fuel s size := rfl

theorem sbrk_fst_locked (s : Heap) (incr : Nat) (grant b : Bool) :
    (sbrk { s with locked := b } incr grant).1 = (sbrk s incr grant).1 := by
  unfold sbrk
  split_ifs <;> rfl

theorem sbrk_fail (s : Heap) (incr : Nat) (grant : Bool)
    (h : (sbrk s incr grant).1 = none) : sbrk s incr grant = (none, s) := by
  unfold sbrk at h ⊢
  split_ifs at h ⊢ <;> simp_all

/-! ## The block list -/

@[simp] theorem store_mem (s : Heap) (a : Nat) (h : header_t) (x : Nat) :
    (s.store a h).mem x = if x = a then h else s.mem x := rfl

@[simp] theorem store_mem_self (s : Heap) (a : Nat) (h : header_t) :
    (s.store a h).mem a = h := by simp

theorem Chain.congr {mem1 mem2 : Nat → header_t} :
    ∀ {bl : List Blk} {p : Option Nat}, (∀ b ∈ bl, mem2 b.addr = mem1 b.addr) →
      Chain mem1 p bl → Chain mem2 p bl
  | [], _, _, h => h
  | b :: bl, p, hm, h => by
    obtain ⟨hp, hs, hf, hn⟩ := h
    have hb : mem2 b.addr = mem1 b.addr := hm b (List.mem_cons_self _ _)
    refine ⟨hp, by rw [hb]; exact hs, by rw [hb]; exact hf, ?_⟩
    rw [hb]
    exact Chain.congr (fun c hc => hm c (List.mem_cons_of_mem _ hc)) hn

theorem Chain.head_eq {mem : Nat → header_t} {p : Option Nat} {bl : List Blk}
    (h : Chain mem p bl) : p = firstAddr bl := by
  cases bl with
  | nil => exact h
  | cons b bl => exact h.1

theorem Chain.unique {mem : Nat → header_t} :
    ∀ {bl1 bl2 : List Blk} {p : Option Nat}, Chain mem p bl1 → Chain mem p bl2 → bl1 = bl2
  | [], [], _, _, _ => rfl
  | [], c :: _, p, h1, h2 => by
    have h1p : p = none := h1
    have h2p : p = some c.addr := h2.1
    rw [h1p] at h2p
    cases h2p
  | b :: _, [], p, h1, h2 => by
    have h1p : p = some b.addr := h1.1
    have h2p : p = none := h2
    rw [h1p] at h2p
    cases h2p
  | b :: bl1, c :: bl2, p, h1, h2 => by
    obtain ⟨hp1, hs1, hf1, hn1⟩ := h1
    obtain ⟨hp2, hs2, hf2, hn2⟩ := h2
    have hbc : b.addr = c.addr := by
      rw [hp1] at hp2
      exact Option.some.inj hp2
    rw [← hbc] at hs2 hf2 hn2
    have : b = c := by
      cases b
      cases c
      simp_all
    rw [this, Chain.unique hn1 hn2]

theorem min_pass_chain (mem : Nat → header_t) (size : Nat) :
    ∀ (bl : List Blk) (fuel : Nat) (p : Option Nat) (t : Nat), Chain mem p bl →
      bl.length ≤ fuel → min_pass mem size fuel p t = some (minL size bl t)
  | [], fuel, p, t, h, _ => by
    have hp : p = none := h
    subst hp
    cases fuel <;> rfl
  | b :: bl, 0, _, _, _, hf => by simp at hf
  | b :: bl, fuel + 1, p, t, h, hf => by
    obtain ⟨hp, hs, hfr, hn⟩ := h
    subst hp
    have ih := min_pass_chain mem size bl fuel (mem b.addr).next
    simp only [min_pass, minL, hs, hfr]
    exact ih _ hn (by simpa using hf)

theorem find_pass_chain (mem : Nat → header_t) (t : Nat) :
    ∀ (bl : List Blk) (fuel : Nat) (p : Option Nat), Chain mem p bl →
      bl.length ≤ fuel → find_pass mem t fuel p = some (findL t bl)
  | [], fuel, p, h, _ => by
    have hp : p = none := h
    subst hp
    cases fuel <;> rfl
  | b :: bl, 0, _, _, hf => by simp at hf
  | b :: bl, fuel + 1, p, h, hf => by
    obtain ⟨hp, hs, hfr, hn⟩ := h
    subst hp
    have ih := find_pass_chain mem t bl fuel (mem b.addr).next hn (by simpa using hf)
    simp only [find_pass, findL, hs, hfr]
    split_ifs
    · rfl
    · exact ih

theorem get_free_block_chain {s : Heap} {bl : List Blk} (size : Nat) {fuel : Nat}
    (h : Chain s.mem s.head bl) (hf : bl.length ≤ fuel) :
    get_free_block fuel s size = some (gfbL size bl) := by
  unfold get_free_block
  rw [min_pass_chain s.mem size bl fuel s.head INT_MAX h hf]
  exact find_pass_chain s.mem _ bl fuel s.head h hf

theorem findL_some {t : Nat} :
    ∀ {bl : List Blk} {a : Nat}, findL t bl = some a →
      ∃ b ∈ bl, b.addr = a ∧ b.free = true ∧ b.size = t
  | [], _, h => by simp [findL] at h
  | b :: bl, a, h => by
    unfold findL at h
    split_ifs at h with hb
    · exact ⟨b, List.mem_cons_self _ _, Option.some.inj h, hb.1, hb.2⟩
    · obtain ⟨c, hc, hc2⟩ := findL_some h
      exact ⟨c, List.mem_cons_of_mem _ hc, hc2⟩

theorem findL_none {t : Nat} :
    ∀ {bl : List Blk}, findL t bl = none → ∀ b ∈ bl, ¬ (b.free = true ∧ b.size = t)
  | [], _, b, hb => by simp at hb
  | c :: bl, h, b, hb => by
    unfold findL at h
    split_ifs at h with hc
    rcases List.mem_cons.mp hb with rfl | hb
    · exact hc
    · exact findL_none h b hb

/-! ## The layout -/

theorem Tiles.le : ∀ {bl : List Blk} {a e : Nat}, Tiles a bl e → a ≤ e
  | [], _, _, h => le_of_eq h
  | _ :: _, _, _, h => by
    have := Tiles.le h.2
    omega

theorem Tiles.bounds : ∀ {bl : List Blk} {a e : Nat}, Tiles a bl e →
    ∀ b ∈ bl, a ≤ b.addr ∧ b.addr + HDR + b.size ≤ e
  | [], _, _, _, b, hb => by simp at hb
  | c :: bl, a, e, h, b, hb => by
    obtain ⟨hc, ht⟩ := h
    rcases List.mem_cons.mp hb with rfl | hb
    · have := Tiles.le ht
      omega
    · have := Tiles.bounds ht b hb
      omega

theorem Tiles.append : ∀ {l1 l2 : List Blk} {a e : Nat},
    Tiles a (l1 ++ l2) e ↔ ∃ m, Tiles a l1 m ∧ Tiles m l2 e
  | [], l2, a, e => by
    constructor
    · intro h
      exact ⟨a, rfl, h⟩
    · rintro ⟨m, hm, h⟩
      have : a = m := hm
      subst this
      exact h
  | b :: l1, l2, a, e => by
    constructor
    · rintro ⟨hb, h⟩
      obtain ⟨m, h1, h2⟩ := Tiles.append.mp h
      exact ⟨m, ⟨hb, h1⟩, h2⟩
    · rintro ⟨m, ⟨hb, h1⟩, h2⟩
      exact ⟨hb, Tiles.append.mpr ⟨m, h1, h2⟩⟩

theorem HDR_pos : 0 < HDR := by decide

theorem Tiles.lt_of_mem {b : Blk} {bl : List Blk} {a e : Nat} (h : Tiles a (b :: bl) e) :
    ∀ c ∈ bl, b.addr < c.addr := by
  intro c hc
  have h1 := (Tiles.bounds h.2 c hc).1
  have h2 := h.1
  have := HDR_pos
  omega

theorem Tiles.lt_brk {bl : List Blk} {a e : Nat} (h : Tiles a bl e) :
    ∀ c ∈ bl, c.addr < e := by
  intro c hc
  have h1 := (Tiles.bounds h c hc).2
  have := HDR_pos
  omega

theorem Chain.store_other {mem : Nat → header_t} {p : Option Nat} {bl : List Blk}
    (x : Nat) (hd : header_t) (hx : ∀ b ∈ bl, b.addr ≠ x) (h : Chain mem p bl) :
    Chain (fun y => if y = x then hd else mem y) p bl :=
  Chain.congr (fun b hb => by simp [hx b hb]) h

theorem Chain.chain_setFlag {mem : Nat → header_t} (x : Nat) (f : Bool) :
    ∀ {bl : List Blk} {p : Option Nat} {a e : Nat}, Tiles a bl e → Chain mem p bl →
      Chain (fun y => if y = x then { mem x with is_free := f } else mem y) p (setFlag x f bl)
  | [], _, _, _, _, h => h
  | b :: bl, p, a, e, ht, h => by
    obtain ⟨hp, hs, hf, hn⟩ := h
    unfold MyMem.setFlag
    split_ifs with hb
    · subst hb
      refine ⟨hp, by simpa using hs, by simp, ?_⟩
      simp only [if_true]
      exact Chain.store_other _ _ (fun c hc => (Nat.ne_of_lt (ht.lt_of_mem c hc)).symm) hn
    · refine ⟨hp, by simpa [hb] using hs, by simpa [hb] using hf, ?_⟩
      simp only [if_neg hb]
      exact Chain.chain_setFlag x f ht.2 hn

theorem Tiles.tiles_setFlag (x : Nat) (f : Bool) :
    ∀ {bl : List Blk} {a e : Nat}, Tiles a bl e → Tiles a (setFlag x f bl) e
  | [], _, _, h => h
  | b :: bl, a, e, h => by
    unfold MyMem.setFlag
    split_ifs
    · exact h
    · exact ⟨h.1, Tiles.tiles_setFlag x f h.2⟩

theorem lastAddr_setFlag (x : Nat) (f : Bool) :
    ∀ (bl : List Blk), lastAddr (setFlag x f bl) = lastAddr bl
  | [] => rfl
  | [b] => by
    unfold MyMem.setFlag
    split_ifs <;> rfl
  | b :: c :: bl => by
    have ih := lastAddr_setFlag x f (c :: bl)
    unfold MyMem.setFlag
    split_ifs with hb
    · simp [lastAddr]
    · unfold lastAddr at ih ⊢
      cases hsf : MyMem.setFlag x f (c :: bl) with
      | nil =>
        unfold MyMem.setFlag at hsf
        split_ifs at hsf
      | cons d r =>
        rw [hsf] at ih
        simpa [List.getLast?_cons_cons] using ih

theorem mem_setFlag {x : Nat} {f : Bool} :
    ∀ {bl : List Blk} {c : Blk}, c ∈ setFlag x f bl →
      ∃ b ∈ bl, c.addr = b.addr ∧ c.size = b.size ∧ (c.free = b.free ∨ (b.addr = x ∧ c.free = f))
  | [], _, h => by simp [MyMem.setFlag] at h
  | b :: bl, c, h => by
    unfold MyMem.setFlag at h
    split_ifs at h with hb
    · rcases List.mem_cons.mp h with rfl | hc
      · exact ⟨b, List.mem_cons_self _ _, rfl, rfl, Or.inr ⟨hb, rfl⟩⟩
      · exact ⟨c, List.mem_cons_of_mem _ hc, rfl, rfl, Or.inl rfl⟩
    · rcases List.mem_cons.mp h with rfl | hc
      · exact ⟨c, List.mem_cons_self _ _, rfl, rfl, Or.inl rfl⟩
      · obtain ⟨d, hd, hd2⟩ := mem_setFlag hc
        exact ⟨d, List.mem_cons_of_mem _ hd, hd2⟩

theorem NoAdjFree.setFlag_false (x : Nat) :
    ∀ {bl : List Blk}, NoAdjFree bl → NoAdjFree (setFlag x false bl)
  | [], h => h
  | [b], _ => by
    unfold MyMem.setFlag
    split_ifs <;> trivial
  | b :: c :: bl, h => by
    have ih := NoAdjFree.setFlag_false x h.2
    unfold MyMem.setFlag
    split_ifs with hb
    · exact ⟨by simp, h.2⟩
    · unfold MyMem.setFlag at ih ⊢
      split_ifs at ih ⊢ with hc
      · exact ⟨by simp, ih⟩
      · exact ⟨h.1, ih⟩


/-! ## `malloc` on a well-formed heap -/

theorem WF.addr_lt {s : Heap} {bl : List Blk} (h : WF s bl) {b : Blk} (hb : b ∈ bl) :
    b.addr + HDR + b.size ≤ s.brk := by
  obtain ⟨a, ht⟩ := h.tiles
  exact (ht.bounds b hb).2

theorem ADDR_LIMIT_lt : ADDR_LIMIT < WORD := by decide

theorem malloc_reuse_eq {s : Heap} {bl : List Blk} (hwf : WF s bl) {size a fuel : Nat}
    (grant : Bool) (hsize : 0 < size) (hfuel : bl.length ≤ fuel)
    (hg : gfbL size bl = some a) :
    malloc fuel s size grant = some (some (a + HDR), reuse_state s a size) := by
  obtain ⟨b, hb, hba, -, -⟩ := findL_some hg
  have hlt := hwf.addr_lt hb
  have hbrk := hwf.brk_lt
  have hL := ADDR_LIMIT_lt
  have hmod : (a + HDR) % WORD = a + HDR := Nat.mod_eq_of_lt (by omega)
  have hgfb : get_free_block fuel { s with locked := true } size = some (some a) := by
    rw [get_free_block_locked, get_free_block_chain size hwf.chain hfuel, hg]
  have hl := hwf.unlocked
  have hlock : pthread_mutex_lock s = some { s with locked := true } := by
    simp [pthread_mutex_lock, hl]
  unfold malloc
  rw [if_neg (Nat.pos_iff_ne_zero.mp hsize)]
  simp only [hlock, hgfb, hmod]
  cases s
  simp only at hl
  subst hl
  rfl

theorem sbrk_grow (s : Heap) {incr : Nat} (h0 : incr ≠ 0) (h1 : incr < 2 ^ 63)
    (h2 : s.brk + incr < ADDR_LIMIT) :
    sbrk s incr true = (some s.brk, { s with brk := s.brk + incr }) := by
  unfold sbrk
  rw [if_pos h1, if_neg h0, if_pos ⟨rfl, h2⟩]

theorem malloc_grow_eq {s : Heap} {bl : List Blk} (hwf : WF s bl) {size fuel : Nat}
    (hsize : 0 < size) (hfuel : bl.length ≤ fuel) (hg : gfbL size bl = none)
    (hroom : s.brk + (HDR + size) < ADDR_LIMIT) :
    malloc fuel s size true = some (some (s.brk + HDR), grow_state s size) := by
  have hL := ADDR_LIMIT_lt
  have hA : ADDR_LIMIT = 2 ^ 63 := rfl
  have hH : HDR = 24 := rfl
  have hmod : (s.brk + HDR) % WORD = s.brk + HDR := Nat.mod_eq_of_lt (by omega)
  have hmod2 : (HDR + size) % WORD = HDR + size := Nat.mod_eq_of_lt (by omega)
  have hgfb : get_free_block fuel { s with locked := true } size = some none := by
    rw [get_free_block_locked, get_free_block_chain size hwf.chain hfuel, hg]
  have hl := hwf.unlocked
  have hlock : pthread_mutex_lock s = some { s with locked := true } := by
    simp [pthread_mutex_lock, hl]
  have hsbrk := @sbrk_grow { s with locked := true } (HDR + size) (by omega)
    (by omega) hroom
  unfold malloc
  rw [if_neg (Nat.pos_iff_ne_zero.mp hsize)]
  simp only [hlock, hgfb, hmod2, hsbrk, hmod]
  cases s with
  | mk mem data head tail brk start ta tf cu ac locked =>
    simp only at hl
    subst hl
    cases head <;> cases tail <;> rfl

theorem WF.wf_reuse {s : Heap} {bl : List Blk} (hwf : WF s bl) (a size : Nat) :
    WF (reuse_state s a size) (setFlag a false bl) := by
  obtain ⟨a0, ht⟩ := hwf.tiles
  refine ⟨Chain.chain_setFlag a false ht hwf.chain, ?_, ⟨a0, ht.tiles_setFlag a false⟩, hwf.brk_lt, ?_,
    hwf.no_adj_free.setFlag_false a, hwf.unlocked, hwf.start_le_brk, ?_⟩
  · rw [lastAddr_setFlag]
    exact hwf.tail_eq
  · intro c hc
    obtain ⟨b, hb, -, hsz, -⟩ := mem_setFlag hc
    rw [hsz]
    exact hwf.size_pos b hb
  · intro c hc
    obtain ⟨b, hb, had, -, -⟩ := mem_setFlag hc
    rw [had]
    exact hwf.start_le b hb

theorem lastAddr_mem : ∀ {bl : List Blk} {t : Nat}, lastAddr bl = some t →
    ∃ b ∈ bl, b.addr = t
  | [], _, h => by simp [lastAddr] at h
  | [b], t, h => by
    refine ⟨b, List.mem_cons_self _ _, ?_⟩
    simpa [lastAddr] using h
  | b :: c :: bl, t, h => by
    have h2 : lastAddr (c :: bl) = some t := by
      simpa [lastAddr, List.getLast?_cons_cons] using h
    obtain ⟨d, hd, hd2⟩ := lastAddr_mem h2
    exact ⟨d, List.mem_cons_of_mem _ hd, hd2⟩

theorem lastAddr_append_singleton (bl : List Blk) (b : Blk) :
    lastAddr (bl ++ [b]) = some b.addr := by
  simp [lastAddr]

theorem Chain.snoc (mem : Nat → header_t) (nb t : Nat) (nh : header_t) (hnh : nh.next = none) :
    ∀ (bl : List Blk) (p : Option Nat) (a : Nat), bl ≠ [] → lastAddr bl = some t →
      Tiles a bl nb → Chain mem p bl →
      Chain (fun x => if x = t then
          { (if t = nb then nh else mem t) with next := some nb }
        else if x = nb then nh else mem x) p (bl ++ [⟨nb, nh.size, nh.is_free⟩])
  | [], _, _, h, _, _, _ => absurd rfl h
  | [b], p, a, _, hl, ht, hc => by
    have hbt : b.addr = t := by simpa [lastAddr] using hl
    have hlt : b.addr < nb := ht.lt_brk b (List.mem_cons_self _ _)
    have hne : t ≠ nb := by omega
    have hne2 : nb ≠ t := fun h => hne h.symm
    obtain ⟨hp, hs, hf, -⟩ := hc
    subst hbt
    refine ⟨hp, ?_, ?_, ?_, ?_, ?_, ?_⟩
    · simpa [hne] using hs
    · simpa [hne] using hf
    · simp
    · simp [hne2]
    · simp [hne2]
    · simp only [if_neg hne2, if_true]
      exact hnh
  | b :: c :: bl, p, a, _, hl, ht, hc => by
    have hl2 : lastAddr (c :: bl) = some t := by
      simpa [lastAddr, List.getLast?_cons_cons] using hl
    obtain ⟨d, hd, hdt⟩ := lastAddr_mem hl2
    have hlt : b.addr < t := hdt ▸ ht.lt_of_mem d hd
    have hlt2 : b.addr < nb := ht.lt_brk b (List.mem_cons_self _ _)
    have hne : b.addr ≠ t := by omega
    have hne2 : b.addr ≠ nb := by omega
    obtain ⟨hp, hs, hf, hn⟩ := hc
    have ih := Chain.snoc mem nb t nh hnh (c :: bl) (mem b.addr).next _ (by simp) hl2 ht.2 hn
    refine ⟨hp, ?_, ?_, ?_⟩
    · simpa [hne, hne2] using hs
    · simpa [hne, hne2] using hf
    · simp only [if_neg hne, if_neg hne2]
      exact ih

theorem NoAdjFree.snoc_used : ∀ {bl : List Blk} (b : Blk), b.free = false → NoAdjFree bl →
    NoAdjFree (bl ++ [b])
  | [], _, _, _ => trivial
  | [c], b, hb, _ => ⟨by simp [hb], trivial⟩
  | _ :: d :: bl, b, hb, h => ⟨h.1, @NoAdjFree.snoc_used (d :: bl) b hb h.2⟩

theorem WF.wf_grow {s : Heap} {bl : List Blk} (hwf : WF s bl) {size : Nat}
    (hsize : 0 < size) (hroom : s.brk + (HDR + size) < ADDR_LIMIT) :
    WF (grow_state s size) (bl ++ [⟨s.brk, size, false⟩]) := by
  obtain ⟨a0, ht⟩ := hwf.tiles
  have htl := hwf.tail_eq
  have hch := hwf.chain
  refine ⟨?_, ?_, ⟨a0, Tiles.append.mpr ⟨s.brk, ht, rfl, ?_⟩⟩, hroom, ?_,
    hwf.no_adj_free.snoc_used _ rfl, hwf.unlocked, ?_, ?_⟩
  · cases bl with
    | nil =>
      have hh : s.head = none := hch
      have ht2 : s.tail = none := htl
      simp only [MyMem.grow_state, grow_mem, hh, ht2, List.nil_append]
      exact ⟨by simp, by simp [Heap.store], by simp [Heap.store], by simp [Heap.store, Chain]⟩
    | cons b bl =>
      have hh : s.head = some b.addr := hch.1
      obtain ⟨t, hlast⟩ : ∃ t, lastAddr (b :: bl) = some t := by
        cases h : lastAddr (b :: bl) with
        | none => simp [lastAddr] at h
        | some t => exact ⟨t, rfl⟩
      rw [hlast] at htl
      have := Chain.snoc s.mem s.brk t ⟨size, false, none⟩ rfl (b :: bl) s.head a0 (by simp)
        hlast ht hch
      simp only [MyMem.grow_state, grow_mem, hh, htl]
      rw [hh] at this
      exact this
  · rw [lastAddr_append_singleton]
    rfl
  · show s.brk + HDR + size = s.brk + (HDR + size)
    omega
  · intro c hc
    rcases List.mem_append.mp hc with hc | hc
    · exact hwf.size_pos c hc
    · have : c = ⟨s.brk, size, false⟩ := by simpa using hc
      rw [this]
      exact hsize
  · show s.start ≤ s.brk + (HDR + size)
    exact Nat.le_add_right_of_le hwf.start_le_brk
  · intro c hc
    rcases List.mem_append.mp hc with hc | hc
    · exact hwf.start_le c hc
    · have : c = ⟨s.brk, size, false⟩ := by simpa using hc
      rw [this]
      exact hwf.start_le_brk


/-! ## `free` of the last block -/

theorem unlink_loop_eq (t : Blk) :
    ∀ (pre : List Blk) (c : Blk) (s : Heap) (fuel : Nat) (e : Nat),
      Chain s.mem (some c.addr) (c :: pre ++ [t]) → Tiles c.addr (c :: pre ++ [t]) e →
      s.tail = some t.addr → pre.length + 1 ≤ fuel →
      unlink_loop fuel s (some c.addr) =
        some { s.store (pre.getLastD c).addr
                { s.mem (pre.getLastD c).addr with next := none } with
               tail := some (pre.getLastD c).addr }
  | _, _, _, 0, _, _, _, _, hf => by simp at hf
  | [], c, s, fuel + 1, e, hc, ht, htl, hf => by
    obtain ⟨-, -, -, hn⟩ := hc
    have hnext : (s.mem c.addr).next = some t.addr := hn.1
    simp only [unlink_loop, hnext, htl, if_true, List.getLastD_nil, store_mem_self]
  | d :: pre, c, s, fuel + 1, e, hc, ht, htl, hf => by
    obtain ⟨-, -, -, hn⟩ := hc
    have hnext : (s.mem c.addr).next = some d.addr := hn.1
    have hlt : d.addr < t.addr := by
      have := Tiles.lt_of_mem ht.2 t (by simp)
      exact this
    have hne : ¬ (some d.addr = some t.addr) := by
      intro h
      have := Option.some.inj h
      omega
    have hd : Tiles d.addr (d :: pre ++ [t]) e := by
      have := ht.2
      have h1 : d.addr = c.addr + HDR + c.size := this.1
      rw [h1]
      exact this
    rw [hnext] at hn
    have ih := unlink_loop_eq t pre d s fuel e hn hd htl (by simpa using hf)
    simp only [unlink_loop, hnext, htl, hne, if_false, List.getLastD_cons]
    exact ih

theorem getLastD_mem : ∀ (pre : List Blk) (d : Blk), pre.getLastD d ∈ d :: pre
  | [], d => List.mem_cons_self _ _
  | c :: pre, d => by
    rw [List.getLastD_cons]
    exact List.mem_cons_of_mem _ (getLastD_mem pre c)

theorem Chain.truncate {mem : Nat → header_t} (t : Blk) :
    ∀ (pre : List Blk) (c : Blk) (p : Option Nat) (e : Nat),
      Chain mem p (c :: pre ++ [t]) → Tiles c.addr (c :: pre ++ [t]) e →
      Chain (fun x => if x = (pre.getLastD c).addr then
          { mem (pre.getLastD c).addr with next := none } else mem x) p (c :: pre)
  | [], c, p, e, hc, _ => by
    obtain ⟨hp, hs, hf, -⟩ := hc
    exact ⟨hp, by simpa using hs, by simpa using hf, by simp [Chain]⟩
  | d :: pre, c, p, e, hc, ht => by
    obtain ⟨hp, hs, hf, hn⟩ := hc
    have hd : Tiles d.addr (d :: pre ++ [t]) e := by
      have := ht.2
      have h1 : d.addr = c.addr + HDR + c.size := this.1
      rw [h1]
      exact this
    have hmem : pre.getLastD d ∈ d :: pre ++ [t] :=
      List.mem_append_left _ (getLastD_mem pre d)
    have hlt : c.addr < (pre.getLastD d).addr := Tiles.lt_of_mem ht _ hmem
    have hne : c.addr ≠ (pre.getLastD d).addr := by omega
    have ih := Chain.truncate t pre d (mem c.addr).next e hn hd
    simp only [List.getLastD_cons]
    refine ⟨hp, ?_, ?_, ?_⟩
    · simp only [if_neg hne]
      exact hs
    · simp only [if_neg hne]
      exact hf
    · simp only [if_neg hne]
      exact ih

theorem WORD_eq : WORD = 18446744073709551616 := rfl

theorem ADDR_LIMIT_eq : ADDR_LIMIT = 9223372036854775808 := rfl

theorem HDR_eq : HDR = 24 := rfl

theorem sbrk_zero (s : Heap) (grant : Bool) : sbrk s 0 grant = (some s.brk, s) := by
  simp [sbrk]

theorem sbrk_shrink (s : Heap) (sz : Nat) (h1 : HDR + sz ≤ s.brk)
    (h2 : s.brk < ADDR_LIMIT) (h5 : s.start ≤ s.brk - (HDR + sz)) :
    sbrk s ((WORD + WORD - HDR - sz) % WORD) true =
      (some s.brk, { s with brk := s.brk - (HDR + sz) }) := by
  have hm : (WORD + WORD - HDR - sz) % WORD = WORD - (HDR + sz) := by
    rw [WORD_eq, HDR_eq] at *
    rw [ADDR_LIMIT_eq] at h2
    omega
  have h3 : ¬ (WORD - (HDR + sz) < 2 ^ 63) := by
    rw [WORD_eq, HDR_eq] at *
    rw [ADDR_LIMIT_eq] at h2
    omega
  have h4 : WORD - (WORD - (HDR + sz)) = HDR + sz := by
    rw [WORD_eq, HDR_eq] at *
    rw [ADDR_LIMIT_eq] at h2
    omega
  unfold sbrk
  rw [hm, if_neg h3, h4, if_pos h1, if_pos h5]

theorem Chain.header_of_mem {mem : Nat → header_t} :
    ∀ {bl : List Blk} {p : Option Nat}, Chain mem p bl → ∀ b ∈ bl,
      (mem b.addr).size = b.size ∧ (mem b.addr).is_free = b.free
  | [], _, _, b, hb => by simp at hb
  | c :: bl, p, hc, b, hb => by
    rcases List.mem_cons.mp hb with rfl | hb
    · exact ⟨hc.2.1, hc.2.2.1⟩
    · exact Chain.header_of_mem hc.2.2.2 b hb

theorem lastAddr_cons_getLastD (c : Blk) (pre : List Blk) :
    lastAddr (c :: pre) = some (pre.getLastD c).addr := by
  induction pre generalizing c with
  | nil => rfl
  | cons d pre ih =>
    rw [List.getLastD_cons, ← ih d]
    simp [lastAddr, List.getLast?_cons_cons]

theorem free_shrink_eq {s : Heap} {pre : List Blk} {t : Blk} (hwf : WF s (pre ++ [t]))
    {fuel : Nat} (hfuel : (pre ++ [t]).length ≤ fuel) :
    free fuel s (some (t.addr + HDR)) =
      if t.addr + 8 ≤ page_end t.addr then some (shrink_state s t.addr (lastAddr pre))
      else none := by
  obtain ⟨a0, ht⟩ := hwf.tiles
  have hst : s.start ≤ t.addr := hwf.start_le t (by simp)
  have hbrk := hwf.brk_lt
  have hl := hwf.unlocked
  have hch := hwf.chain
  have htl : s.tail = some t.addr := by rw [hwf.tail_eq, lastAddr_append_singleton]
  obtain ⟨m, -, htm, hte⟩ := Tiles.append.mp ht
  have hte' : t.addr + HDR + t.size = s.brk := by
    have : m + HDR + t.size = s.brk := hte
    omega
  have hsz : (s.mem t.addr).size = t.size := (hch.header_of_mem t (by simp)).1
  have hlock : pthread_mutex_lock s = some { s with locked := true } := by
    simp [pthread_mutex_lock, hl]
  have hhdr : (t.addr + HDR + WORD - HDR) % WORD = t.addr := by
    rw [WORD_eq, HDR_eq] at *
    rw [ADDR_LIMIT_eq] at hbrk
    omega
  have hend : (t.addr + HDR + t.size) % WORD = s.brk := by
    rw [WORD_eq, HDR_eq] at *
    rw [ADDR_LIMIT_eq] at hbrk
    omega
  unfold free
  simp only [hlock, hhdr, sbrk_zero, hsz, hend, if_true]
  cases pre with
  | nil =>
    have hh : s.head = some t.addr := hch.1
    have hb : s.brk - (HDR + t.size) = t.addr := by omega
    have hsb := sbrk_shrink { s with locked := true, head := none, tail := none } t.size
      (by show HDR + t.size ≤ s.brk; omega) hbrk (by show s.start ≤ s.brk - (HDR + t.size); omega)
    simp only [hh, htl, if_true, hsz, hsb]
    cases s
    simp only at hl hb
    subst hl
    simp only [pthread_mutex_unlock, shrink_state, lastAddr, hb, readable, decide_eq_true_eq]
    rfl
  | cons c pre =>
    have hh : s.head = some c.addr := hch.1
    have hca : c.addr = a0 := ht.1
    have ht' : Tiles c.addr (c :: pre ++ [t]) s.brk := hca ▸ ht
    have hlt : ∀ d ∈ c :: pre, d.addr < t.addr := by
      intro d hd
      have ht2 : Tiles c.addr ((c :: pre) ++ [t]) s.brk := ht'
      obtain ⟨m', htp, htt⟩ := Tiles.append.mp ht2
      have h1 := htp.lt_brk d hd
      have h2 : t.addr = m' := htt.1
      omega
    have hne : ¬ (some c.addr = some t.addr) := by
      intro h
      have h1 := Option.some.inj h
      have h2 := hlt c (List.mem_cons_self _ _)
      omega
    have hlne : t.addr ≠ (pre.getLastD c).addr := by
      have := hlt _ (getLastD_mem pre c)
      omega
    have hch' : Chain s.mem (some c.addr) (c :: pre ++ [t]) := hh ▸ hch
    have hun := unlink_loop_eq t pre c { s with locked := true } fuel s.brk hch' ht' htl
      (by simp at hfuel; omega)
    have hsb := sbrk_shrink { Heap.store { s with locked := true } (pre.getLastD c).addr
        { s.mem (pre.getLastD c).addr with next := none } with
        tail := some (pre.getLastD c).addr } t.size
      (by show HDR + t.size ≤ s.brk; omega) hbrk
      (by show s.start ≤ s.brk - (HDR + t.size); omega)
    have hne' : ¬ (s.head = s.tail) := by
      rw [hh, htl]
      exact hne
    rw [← hh] at hun
    simp only [if_neg hne', hun]
    simp only [store_mem, if_neg hlne, hsz, hsb]
    have hb : s.brk - (HDR + t.size) = t.addr := by omega
    rw [lastAddr_cons_getLastD]
    cases s
    simp only at hl hb
    subst hl
    simp only [pthread_mutex_unlock, shrink_state, hb, Heap.store, if_neg hlne, readable,
      decide_eq_true_eq]
    rfl

theorem NoAdjFree.of_append_left : ∀ {l1 l2 : List Blk}, NoAdjFree (l1 ++ l2) → NoAdjFree l1
  | [], _, _ => trivial
  | [_], _, _ => trivial
  | _ :: c :: l1, l2, h => ⟨h.1, @NoAdjFree.of_append_left (c :: l1) l2 h.2⟩

theorem WF.wf_shrink {s : Heap} {pre : List Blk} {t : Blk} (hwf : WF s (pre ++ [t])) :
    WF (shrink_state s t.addr (lastAddr pre)) pre := by
  obtain ⟨a0, ht⟩ := hwf.tiles
  obtain ⟨m, htp, htm, hte⟩ := Tiles.append.mp ht
  have hte' : t.addr + HDR + t.size = s.brk := by
    have : m + HDR + t.size = s.brk := hte
    omega
  have hbrk := hwf.brk_lt
  refine ⟨?_, rfl, ⟨a0, htm ▸ htp⟩, ?_, fun b hb => hwf.size_pos b (List.mem_append_left _ hb),
    hwf.no_adj_free.of_append_left, hwf.unlocked, hwf.start_le t (by simp),
    fun b hb => hwf.start_le b (List.mem_append_left _ hb)⟩
  · cases pre with
    | nil => exact (rfl : (none : Option Nat) = none)
    | cons c pre =>
      have hch := hwf.chain
      have hh : s.head = some c.addr := hch.1
      have hca : c.addr = a0 := ht.1
      have ht' : Tiles c.addr (c :: pre ++ [t]) s.brk := hca ▸ ht
      have := Chain.truncate t pre c s.head s.brk hch ht'
      simp only [MyMem.shrink_state, lastAddr_cons_getLastD]
      exact this
  · show t.addr < ADDR_LIMIT
    omega

/-! ## Coalescing on the block list -/

theorem mergeL_head : ∀ (bl : List Blk) (b : Blk),
    ∃ sz r, mergeL b bl = ⟨b.addr, sz, b.free⟩ :: r
  | [], b => ⟨b.size, [], rfl⟩
  | c :: bl, b => by
    unfold mergeL
    split_ifs
    · exact mergeL_head bl _
    · exact ⟨b.size, mergeL c bl, rfl⟩

theorem mergeL_ne_nil (bl : List Blk) (b : Blk) : mergeL b bl ≠ [] := by
  obtain ⟨sz, r, h⟩ := mergeL_head bl b
  rw [h]
  exact List.cons_ne_nil _ _

theorem mem_mergeL : ∀ {bl : List Blk} {b c : Blk}, c ∈ mergeL b bl →
    ∃ d ∈ b :: bl, c.addr = d.addr ∧ c.free = d.free ∧ d.size ≤ c.size
  | [], b, c, h => by
    have : c = b := by simpa [mergeL] using h
    exact ⟨b, List.mem_cons_self _ _, by rw [this], by rw [this], by rw [this]⟩
  | d :: bl, b, c, h => by
    unfold mergeL at h
    split_ifs at h
    · obtain ⟨x, hx, h1, h2, h3⟩ := mem_mergeL h
      rcases List.mem_cons.mp hx with rfl | hx
      · exact ⟨b, List.mem_cons_self _ _, h1, h2, le_trans (Nat.le_add_right _ _) h3⟩
      · exact ⟨x, List.mem_cons_of_mem _ (List.mem_cons_of_mem _ hx), h1, h2, h3⟩
    · rcases List.mem_cons.mp h with rfl | h
      · exact ⟨c, List.mem_cons_self _ _, rfl, rfl, le_refl _⟩
      · obtain ⟨x, hx, hx2⟩ := mem_mergeL h
        exact ⟨x, List.mem_cons_of_mem _ hx, hx2⟩

theorem Tiles.tiles_mergeL : ∀ {bl : List Blk} {b : Blk} {a e : Nat}, Tiles a (b :: bl) e →
    Tiles a (mergeL b bl) e
  | [], _, _, _, h => h
  | c :: bl, b, a, e, h => by
    unfold MyMem.mergeL
    split_ifs
    · apply Tiles.tiles_mergeL
      obtain ⟨hb, hc, hr⟩ := h
      refine ⟨hb, ?_⟩
      have : a + HDR + (b.size + (HDR + c.size)) = a + HDR + b.size + HDR + c.size := by omega
      show Tiles (a + HDR + (b.size + (HDR + c.size))) bl e
      rw [this]
      exact hr
    · exact ⟨h.1, Tiles.tiles_mergeL h.2⟩

theorem NoAdjFree.noAdj_mergeL : ∀ (bl : List Blk) (b : Blk), NoAdjFree (mergeL b bl)
  | [], _ => trivial
  | c :: bl, b => by
    unfold MyMem.mergeL
    split_ifs with h
    · exact NoAdjFree.noAdj_mergeL bl _
    · obtain ⟨sz, r, hr⟩ := mergeL_head bl c
      have ih := NoAdjFree.noAdj_mergeL bl c
      rw [hr] at ih ⊢
      exact ⟨h, ih⟩

theorem mergeL_of_noAdjFree : ∀ {bl : List Blk} {b : Blk}, NoAdjFree (b :: bl) →
    mergeL b bl = b :: bl
  | [], _, _ => rfl
  | c :: bl, b, h => by
    unfold mergeL
    rw [if_neg h.1, mergeL_of_noAdjFree h.2]

theorem lastAddr_cons_cons (b c : Blk) (bl : List Blk) :
    lastAddr (b :: c :: bl) = lastAddr (c :: bl) := by
  simp [lastAddr, List.getLast?_cons_cons]

theorem lastAddr_cons_of_ne_nil (b : Blk) {bl : List Blk} (h : bl ≠ []) :
    lastAddr (b :: bl) = lastAddr bl := by
  cases bl with
  | nil => exact absurd rfl h
  | cons c bl => exact lastAddr_cons_cons b c bl

/-! ## `coalesce_free_blocks` on a chain -/

theorem coalesce_loop_spec : ∀ (bl : List Blk) (b : Blk) (s : Heap) (fuel e : Nat),
    Chain s.mem (some b.addr) (b :: bl) → Tiles b.addr (b :: bl) e → e < WORD →
    bl.length + 1 ≤ fuel →
    ∃ m' t', coalesce_loop fuel s (some b.addr) = some { s with mem := m', tail := t' } ∧
      Chain m' (some b.addr) (mergeL b bl) ∧
      (∀ x, (∀ c ∈ mergeL b bl, c.addr ≠ x) → m' x = s.mem x) ∧
      (s.tail = lastAddr (b :: bl) → t' = lastAddr (mergeL b bl))
  | _, _, _, 0, _, _, _, _, hf => by simp at hf
  | [], b, s, fuel + 1, e, hc, _, _, _ => by
    have hnext : (s.mem b.addr).next = none := hc.2.2.2
    refine ⟨s.mem, s.tail, ?_, hc, fun _ _ => rfl, fun h => h⟩
    simp only [coalesce_loop, hnext]
  | c :: bl, b, s, fuel + 1, e, hc, ht, he, hf => by
    obtain ⟨-, hbs, hbf, hn⟩ := hc
    have hnext : (s.mem b.addr).next = some c.addr := hn.1
    obtain ⟨hcs, hcf, hcn⟩ := hn.2
    have hlt : ∀ d ∈ c :: bl, b.addr < d.addr := ht.lt_of_mem
    have hcb : c.addr ≠ b.addr := Nat.ne_of_gt (hlt c (List.mem_cons_self _ _))
    have htc : Tiles c.addr (c :: bl) e := by
      have h2 := ht.2
      have h1 : c.addr = b.addr + HDR + b.size := h2.1
      rw [h1]
      exact h2
    have hf' : bl.length + 1 ≤ fuel := by simpa using hf
    by_cases hm : b.free = true ∧ c.free = true
    · -- the two blocks are merged and the loop stays on `b`
      have hce := (htc.bounds c (List.mem_cons_self _ _)).2
      have hbc : c.addr = b.addr + HDR + b.size := ht.2.1
      have hsz : ((s.mem b.addr).size + (HDR + (s.mem c.addr).size) % WORD) % WORD
          = b.size + (HDR + c.size) := by
        have h1 : (HDR + c.size) % WORD = HDR + c.size := Nat.mod_eq_of_lt (by omega)
        rw [hbs, hcs, h1, Nat.mod_eq_of_lt (by omega)]
      have hcond : (s.mem b.addr).is_free = true ∧ (s.mem c.addr).is_free = true := by
        rw [hbf, hcf]
        exact hm
      obtain ⟨m3, t3, hstep, hm3b, hm3o, ht3def⟩ : ∃ (m3 : Nat → header_t) (t3 : Option Nat),
          coalesce_loop (fuel + 1) s (some b.addr) =
            coalesce_loop fuel { s with mem := m3, tail := t3 } (some b.addr) ∧
          m3 b.addr = ⟨b.size + (HDR + c.size), b.free, (s.mem c.addr).next⟩ ∧
          (∀ x, x ≠ b.addr → m3 x = s.mem x) ∧
          t3 = (if (s.mem c.addr).next = none then some b.addr else s.tail) := by
        by_cases hC : (s.mem c.addr).next = none
        · simp only [coalesce_loop, hnext, hcond, and_self, if_true, store_mem, if_neg hcb,
            hsz, hC]
          refine ⟨_, _, rfl, ?_, ?_, rfl⟩
          · simp only [store_mem, if_true]
            rw [← hm.1]
          · intro x hx
            simp only [store_mem, if_neg hx]
        · simp only [coalesce_loop, hnext, hcond, and_self, if_true, store_mem, if_neg hcb,
            hsz, hC, if_false]
          refine ⟨_, _, rfl, ?_, ?_, rfl⟩
          · simp only [store_mem, if_true]
            rw [← hm.1]
          · intro x hx
            simp only [store_mem, if_neg hx]
      have hch3 : Chain m3 (some b.addr) ({ b with size := b.size + (HDR + c.size) } :: bl) := by
        refine ⟨rfl, by rw [hm3b], by rw [hm3b], ?_⟩
        have : (m3 b.addr).next = (s.mem c.addr).next := by rw [hm3b]
        show Chain m3 (m3 b.addr).next bl
        rw [this]
        exact Chain.congr
          (fun d hd => hm3o _ (Nat.ne_of_gt (hlt d (List.mem_cons_of_mem _ hd)))) hcn
      have ht3 : Tiles b.addr ({ b with size := b.size + (HDR + c.size) } :: bl) e := by
        refine ⟨rfl, ?_⟩
        have h2 : Tiles (c.addr + HDR + c.size) bl e := htc.2
        have : b.addr + HDR + (b.size + (HDR + c.size)) = c.addr + HDR + c.size := by omega
        show Tiles (b.addr + HDR + (b.size + (HDR + c.size))) bl e
        rw [this]
        exact h2
      obtain ⟨m', t', hrun, hch', hfr, htl⟩ :=
        coalesce_loop_spec bl { b with size := b.size + (HDR + c.size) }
          { s with mem := m3, tail := t3 } fuel e hch3 ht3 he hf'
      have hmerge : mergeL b (c :: bl) = mergeL { b with size := b.size + (HDR + c.size) } bl := by
        rw [mergeL, if_pos hm]
      refine ⟨m', t', ?_, ?_, ?_, ?_⟩
      · rw [hstep, hrun]
      · rw [hmerge]
        exact hch'
      · intro x hx
        rw [hmerge] at hx
        rw [hfr x hx]
        obtain ⟨sz, r, hr⟩ := mergeL_head bl { b with size := b.size + (HDR + c.size) }
        have hxb : b.addr ≠ x := hx ⟨b.addr, sz, b.free⟩ (by rw [hr]; exact List.mem_cons_self _ _)
        exact hm3o x (Ne.symm hxb)
      · intro hst
        rw [hmerge]
        apply htl
        show t3 = lastAddr ({ b with size := b.size + (HDR + c.size) } :: bl)
        cases bl with
        | nil =>
          have : (s.mem c.addr).next = none := hcn
          rw [ht3def, this, if_pos rfl]
          rfl
        | cons d bl =>
          have : (s.mem c.addr).next = some d.addr := hcn.1
          rw [ht3def, this, if_neg (by simp), hst, lastAddr_cons_cons, lastAddr_cons_cons,
            lastAddr_cons_cons]
    · -- the loop advances to `c`
      have hcond : ¬ ((s.mem b.addr).is_free = true ∧ (s.mem c.addr).is_free = true) := by
        rw [hbf, hcf]
        exact hm
      have hstep : coalesce_loop (fuel + 1) s (some b.addr) =
          coalesce_loop fuel s (some c.addr) := by
        simp only [coalesce_loop, hnext, if_neg hcond]
      obtain ⟨m', t', hrun, hch', hfr, htl⟩ :=
        coalesce_loop_spec bl c s fuel e ⟨rfl, hcs, hcf, hcn⟩ htc he hf'
      have hmerge : mergeL b (c :: bl) = b :: mergeL c bl := by
        rw [mergeL, if_neg hm]
      have hb' : m' b.addr = s.mem b.addr := by
        apply hfr
        intro d hd
        obtain ⟨x, hx, hx1, -⟩ := mem_mergeL hd
        rw [hx1]
        exact Nat.ne_of_gt (hlt x hx)
      refine ⟨m', t', ?_, ?_, ?_, ?_⟩
      · rw [hstep, hrun]
      · rw [hmerge]
        refine ⟨rfl, by rw [hb']; exact hbs, by rw [hb']; exact hbf, ?_⟩
        rw [hb', hnext]
        exact hch'
      · intro x hx
        rw [hmerge] at hx
        exact hfr x (fun d hd => hx d (List.mem_cons_of_mem _ hd))
      · intro hst
        rw [hmerge, lastAddr_cons_of_ne_nil b (mergeL_ne_nil bl c)]
        apply htl
        rw [hst, lastAddr_cons_cons]

/-! ## `free` of a block that is not the last one -/

theorem setFlag_cons_form (a : Nat) (f : Bool) (b : Blk) (bl : List Blk) :
    ∃ b' r, setFlag a f (b :: bl) = b' :: r ∧ b'.addr = b.addr := by
  unfold setFlag
  split_ifs
  · exact ⟨_, _, rfl, rfl⟩
  · exact ⟨_, _, rfl, rfl⟩

theorem length_setFlag (a : Nat) (f : Bool) : ∀ (bl : List Blk),
    (setFlag a f bl).length = bl.length
  | [] => rfl
  | b :: bl => by
    unfold setFlag
    split_ifs
    · rfl
    · simp [length_setFlag a f bl]

theorem free_mark_spec {s : Heap} {bl : List Blk} (hwf : WF s bl) {b : Blk} (hb : b ∈ bl)
    (hnl : b.addr + HDR + b.size ≠ s.brk) {fuel : Nat} (hfuel : bl.length ≤ fuel) :
    ∃ m', free fuel s (some (b.addr + HDR)) =
        some { s with
          mem := m'
          tail := lastAddr (coalesceL (setFlag b.addr true bl))
          total_freed := (s.total_freed + (m' b.addr).size) % WORD
          current_usage := (s.current_usage + WORD - (m' b.addr).size) % WORD } ∧
      Chain m' s.head (coalesceL (setFlag b.addr true bl)) ∧
      (∀ x, (∀ c ∈ coalesceL (setFlag b.addr true bl), c.addr ≠ x) →
        m' x = if x = b.addr then { s.mem b.addr with is_free := true } else s.mem x) := by
  obtain ⟨a0, ht⟩ := hwf.tiles
  have hbrk := hwf.brk_lt
  have hl := hwf.unlocked
  have hch := hwf.chain
  have hle := (ht.bounds b hb).2
  have hsz : (s.mem b.addr).size = b.size := (hch.header_of_mem b hb).1
  have hlock : pthread_mutex_lock s = some { s with locked := true } := by
    simp [pthread_mutex_lock, hl]
  have hhdr : (b.addr + HDR + WORD - HDR) % WORD = b.addr := by
    rw [WORD_eq, HDR_eq] at *
    rw [ADDR_LIMIT_eq] at hbrk
    omega
  have hend : (b.addr + HDR + b.size) % WORD = b.addr + HDR + b.size := by
    rw [WORD_eq, HDR_eq] at *
    rw [ADDR_LIMIT_eq] at hbrk
    omega
  have htest : ¬ (some (b.addr + HDR + b.size) = some s.brk) := fun h => hnl (Option.some.inj h)
  cases bl with
  | nil => simp at hb
  | cons b0 r0 =>
    obtain ⟨b0', r, hsf, hb0⟩ := setFlag_cons_form b.addr true b0 r0
    have hlen : r.length = r0.length := by
      have := length_setFlag b.addr true (b0 :: r0)
      rw [hsf] at this
      simpa using this
    have hh : s.head = some b0.addr := hch.1
    have hch3 := Chain.chain_setFlag b.addr true ht hch
    have ht3 := ht.tiles_setFlag b.addr true
    rw [hsf] at hch3 ht3
    rw [hh, ← hb0] at hch3
    have ha0 : b0'.addr = a0 := ht3.1
    rw [← ha0] at ht3
    obtain ⟨m', t', hrun, hch', hfr, htl⟩ := coalesce_loop_spec r b0'
      (Heap.store { s with locked := true } b.addr { s.mem b.addr with is_free := true })
      fuel s.brk hch3 ht3 (lt_trans hbrk ADDR_LIMIT_lt) (by simp at hfuel; omega)
    have htl' : t' = lastAddr (mergeL b0' r) := by
      apply htl
      show s.tail = lastAddr (b0' :: r)
      rw [hwf.tail_eq, ← hsf, lastAddr_setFlag]
    refine ⟨m', ?_, ?_, ?_⟩
    · have htest' : ¬ (some ((b.addr + HDR + (s.mem b.addr).size) % WORD) = some s.brk) := by
        rw [hsz, hend]
        exact htest
      have hh' : s.head = some b0'.addr := by rw [hb0]; exact hh
      unfold free
      simp only [hlock, hhdr, sbrk_zero, if_neg htest', coalesce_free_blocks, Heap.store]
      simp only [Heap.store] at hrun
      rw [← hh'] at hrun
      rw [hrun, hsf, htl']
      cases s
      simp only at hl
      subst hl
      rfl
    · rw [hsf, hh, ← hb0]
      exact hch'
    · intro x hx
      rw [hsf] at hx
      exact hfr x hx

/-! ## More fuel does not change a result -/

theorem min_pass_mono (mem : Nat → header_t) (size : Nat) (k : Nat) :
    ∀ (fuel : Nat) (p : Option Nat) (t r : Nat), min_pass mem size fuel p t = some r →
      min_pass mem size (fuel + k) p t = some r
  | fuel, none, t, r, h => by
    cases fuel <;> cases k <;> simpa [min_pass] using h
  | 0, some _, _, _, h => by simp [min_pass] at h
  | fuel + 1, some curr, t, r, h => by
    rw [Nat.add_right_comm]
    simp only [min_pass] at h ⊢
    exact min_pass_mono mem size k fuel _ _ r h

theorem find_pass_mono (mem : Nat → header_t) (t : Nat) (k : Nat) :
    ∀ (fuel : Nat) (p : Option Nat) (r : Option Nat), find_pass mem t fuel p = some r →
      find_pass mem t (fuel + k) p = some r
  | fuel, none, r, h => by
    cases fuel <;> cases k <;> simpa [find_pass] using h
  | 0, some _, _, h => by simp [find_pass] at h
  | fuel + 1, some curr, r, h => by
    rw [Nat.add_right_comm]
    simp only [find_pass] at h ⊢
    split_ifs at h ⊢ with hc
    · exact h
    · exact find_pass_mono mem t k fuel _ r h

theorem get_free_block_mono {fuel : Nat} {s : Heap} {size : Nat} {r : Option Nat} (k : Nat)
    (h : get_free_block fuel s size = some r) : get_free_block (fuel + k) s size = some r := by
  unfold get_free_block at h ⊢
  cases hm : min_pass s.mem size fuel s.head INT_MAX with
  | none => simp [hm] at h
  | some t =>
    rw [hm] at h
    rw [min_pass_mono s.mem size k fuel _ _ t hm]
    exact find_pass_mono s.mem t k fuel _ r h

theorem coalesce_loop_mono (k : Nat) :
    ∀ (fuel : Nat) (s : Heap) (p : Option Nat) (r : Heap), coalesce_loop fuel s p = some r →
      coalesce_loop (fuel + k) s p = some r
  | fuel, s, none, r, h => by
    cases fuel <;> cases k <;> simpa [coalesce_loop] using h
  | 0, _, some _, _, h => by simp [coalesce_loop] at h
  | fuel + 1, s, some curr, r, h => by
    rw [Nat.add_right_comm]
    simp only [coalesce_loop] at h ⊢
    cases hn : (s.mem curr).next with
    | none =>
      rw [hn] at h
      exact h
    | some nxt =>
      rw [hn] at h
      simp only at h ⊢
      by_cases hc : (s.mem curr).is_free = true ∧ (s.mem nxt).is_free = true
      · rw [if_pos hc] at h ⊢
        exact coalesce_loop_mono k fuel _ _ r h
      · rw [if_neg hc] at h ⊢
        exact coalesce_loop_mono k fuel _ _ r h

theorem unlink_loop_mono (k : Nat) :
    ∀ (fuel : Nat) (s : Heap) (p : Option Nat) (r : Heap), unlink_loop fuel s p = some r →
      unlink_loop (fuel + k) s p = some r
  | fuel, s, none, r, h => by
    cases fuel <;> cases k <;> simpa [unlink_loop] using h
  | 0, _, some _, _, h => by simp [unlink_loop] at h
  | fuel + 1, s, some tmp, r, h => by
    rw [Nat.add_right_comm]
    simp only [unlink_loop] at h ⊢
    exact unlink_loop_mono k fuel _ _ r h

theorem malloc_mono {fuel : Nat} {s : Heap} {size : Nat} {grant : Bool}
    {r : Option Nat × Heap} (k : Nat) (h : malloc fuel s size grant = some r) :
    malloc (fuel + k) s size grant = some r := by
  unfold malloc at h ⊢
  split_ifs at h ⊢ with h0
  · exact h
  · cases hl : pthread_mutex_lock s with
    | none => simp [hl] at h
    | some s1 =>
      rw [hl] at h
      simp only at h ⊢
      cases hg : get_free_block fuel s1 size with
      | none => simp [hg] at h
      | some x =>
        rw [hg] at h
        rw [get_free_block_mono k hg]
        exact h

theorem free_mono {fuel : Nat} {s : Heap} {block : Option Nat} {r : Heap} (k : Nat)
    (h : free fuel s block = some r) : free (fuel + k) s block = some r := by
  unfold free at h ⊢
  cases block with
  | none => exact h
  | some block =>
    simp only at h ⊢
    cases hl : pthread_mutex_lock s with
    | none => simp [hl] at h
    | some s1 =>
      rw [hl] at h
      simp only at h ⊢
      split_ifs at h ⊢ with hc hht
      · exact h
      · cases hu : unlink_loop fuel (sbrk s1 0 true).2 (sbrk s1 0 true).2.head with
        | none => simp [hu] at h
        | some s3 =>
          rw [hu] at h
          rw [unlink_loop_mono k _ _ _ _ hu]
          exact h
      · unfold coalesce_free_blocks at h ⊢
        cases hu : coalesce_loop fuel
            ((sbrk s1 0 true).2.store ((block + WORD - HDR) % WORD)
              { (sbrk s1 0 true).2.mem ((block + WORD - HDR) % WORD) with is_free := true })
            ((sbrk s1 0 true).2.store ((block + WORD - HDR) % WORD)
              { (sbrk s1 0 true).2.mem ((block + WORD - HDR) % WORD) with
                is_free := true }).head with
        | none => simp [hu] at h
        | some s4 =>
          rw [hu] at h
          rw [coalesce_loop_mono k _ _ _ _ hu]
          exact h


/-! ## Reachable heaps are well formed -/

theorem malloc_refused_eq {fuel : Nat} {s : Heap} {size : Nat} {grant : Bool}
    (hsize : 0 < size) (hlock : s.locked = false)
    (hmiss : get_free_block fuel s size = some none)
    (hrefused : (sbrk s ((HDR + size) % WORD) grant).1 = none) :
    malloc fuel s size grant = some (none, s) := by
  have h1 : get_free_block fuel { s with locked := true } size = some none := hmiss
  have h2 : sbrk { s with locked := true } ((HDR + size) % WORD) grant =
      (none, { s with locked := true }) :=
    sbrk_fail _ _ _ (by rw [sbrk_fst_locked]; exact hrefused)
  have h3 : pthread_mutex_unlock { s with locked := true } = s := by
    cases s
    simp_all [pthread_mutex_unlock]
  simp [malloc, Nat.pos_iff_ne_zero.mp hsize, pthread_mutex_lock, hlock, h1, h2, h3]

theorem WF.wf_empty {b0 : Nat} (h : b0 < ADDR_LIMIT) : WF (Heap.empty b0) [] :=
  ⟨rfl, rfl, ⟨b0, rfl⟩, h, fun _ hb => absurd hb (List.not_mem_nil _), trivial, rfl,
    Nat.le_refl _, fun _ hb => absurd hb (List.not_mem_nil _)⟩

theorem Tiles.last_of_end : ∀ {bl : List Blk} {a e : Nat} {b : Blk}, Tiles a bl e → b ∈ bl →
    b.addr + HDR + b.size = e → ∃ pre, bl = pre ++ [b]
  | [], _, _, _, _, hb, _ => by simp at hb
  | [c], a, e, b, _, hb, _ => by
    have : b = c := by simpa using hb
    exact ⟨[], by rw [this]; rfl⟩
  | c :: d :: r, a, e, b, ht, hb, he => by
    rcases List.mem_cons.mp hb with rfl | hb
    · exfalso
      have h1 : d.addr = a + HDR + b.size := ht.2.1
      have h2 := (ht.2.bounds d (List.mem_cons_self _ _)).2
      have h3 : b.addr = a := ht.1
      have := HDR_pos
      omega
    · obtain ⟨pre, hpre⟩ := Tiles.last_of_end ht.2 hb he
      exact ⟨c :: pre, by rw [hpre]; rfl⟩

theorem WF.mark_free {s : Heap} {bl : List Blk} (hwf : WF s bl) (a : Nat) {m' : Nat → header_t}
    (tf cu : Nat) (hch : Chain m' s.head (coalesceL (setFlag a true bl))) :
    WF { s with
        mem := m'
        tail := lastAddr (coalesceL (setFlag a true bl))
        total_freed := tf
        current_usage := cu } (coalesceL (setFlag a true bl)) := by
  obtain ⟨a0, ht⟩ := hwf.tiles
  have ht2 := ht.tiles_setFlag a true
  refine ⟨hch, rfl, ⟨a0, ?_⟩, hwf.brk_lt, ?_, ?_, hwf.unlocked, hwf.start_le_brk, ?_⟩
  · cases h : setFlag a true bl with
    | nil => rw [h] at ht2; exact ht2
    | cons c r => rw [h] at ht2; exact ht2.tiles_mergeL
  · intro c hc
    cases h : setFlag a true bl with
    | nil => rw [h] at hc; simp [coalesceL] at hc
    | cons d r =>
      rw [h] at hc
      obtain ⟨x, hx, -, -, hsz⟩ := mem_mergeL hc
      rw [← h] at hx
      obtain ⟨y, hy, -, hys, -⟩ := mem_setFlag hx
      have := hwf.size_pos y hy
      omega
  · cases h : setFlag a true bl with
    | nil => trivial
    | cons d r => exact NoAdjFree.noAdj_mergeL r d
  · intro c hc
    cases h : setFlag a true bl with
    | nil => rw [h] at hc; simp [coalesceL] at hc
    | cons d r =>
      rw [h] at hc
      obtain ⟨x, hx, hxa, -, -⟩ := mem_mergeL hc
      rw [← h] at hx
      obtain ⟨y, hy, hya, -, -⟩ := mem_setFlag hx
      rw [hxa, hya]
      exact hwf.start_le y hy

theorem malloc_WF {s : Heap} {bl : List Blk} (hwf : WF s bl) {fuel size : Nat} {grant : Bool}
    {r : Option Nat × Heap} (hsize : 0 < size) (hsane : HDR + size < 2 ^ 63)
    (h : malloc fuel s size grant = some r) : ∃ bl', WF r.2 bl' := by
  have h' := malloc_mono bl.length h
  have hfuel : bl.length ≤ fuel + bl.length := Nat.le_add_left _ _
  cases hg : gfbL size bl with
  | some a =>
    rw [malloc_reuse_eq hwf grant hsize hfuel hg] at h'
    have hr : r = (some (a + HDR), reuse_state s a size) := (Option.some.inj h').symm
    rw [hr]
    exact ⟨_, hwf.wf_reuse a size⟩
  | none =>
    by_cases hok : grant = true ∧ s.brk + (HDR + size) < ADDR_LIMIT
    · obtain ⟨hgr, hroom⟩ := hok
      subst hgr
      rw [malloc_grow_eq hwf hsize hfuel hg hroom] at h'
      have hr : r = (some (s.brk + HDR), grow_state s size) := (Option.some.inj h').symm
      rw [hr]
      exact ⟨_, hwf.wf_grow hsize hroom⟩
    · have hmod : (HDR + size) % WORD = HDR + size :=
        Nat.mod_eq_of_lt (by rw [WORD_eq]; omega)
      have hfail : (sbrk s ((HDR + size) % WORD) grant).1 = none := by
        have h0 : HDR + size ≠ 0 := by omega
        unfold sbrk
        rw [hmod, if_pos hsane, if_neg h0, if_neg hok]
      have hmiss : get_free_block (fuel + bl.length) s size = some none := by
        rw [get_free_block_chain size hwf.chain hfuel, hg]
      rw [malloc_refused_eq hsize hwf.unlocked hmiss hfail] at h'
      have hr : r = (none, s) := (Option.some.inj h').symm
      rw [hr]
      exact ⟨bl, hwf⟩

theorem free_WF {s : Heap} {bl : List Blk} (hwf : WF s bl) {fuel : Nat} {b : Blk} {s' : Heap}
    (hb : b ∈ bl) (h : free fuel s (some (b.addr + HDR)) = some s') : ∃ bl', WF s' bl' := by
  have h' := free_mono bl.length h
  have hfuel : bl.length ≤ fuel + bl.length := Nat.le_add_left _ _
  obtain ⟨a0, ht⟩ := hwf.tiles
  by_cases he : b.addr + HDR + b.size = s.brk
  · obtain ⟨pre, hpre⟩ := ht.last_of_end hb he
    subst hpre
    rw [free_shrink_eq hwf hfuel] at h'
    split_ifs at h'
    rw [← Option.some.inj h']
    exact ⟨pre, hwf.wf_shrink⟩
  · obtain ⟨m', heq, hch, -⟩ := free_mark_spec hwf hb he hfuel
    rw [heq] at h'
    rw [← Option.some.inj h']
    exact ⟨_, hwf.mark_free b.addr _ _ hch⟩

theorem Reachable.wf {s : Heap} (h : Reachable s) : ∃ bl, WF s bl := by
  induction h with
  | empty b0 h => exact ⟨[], WF.wf_empty h⟩
  | alloc fuel size grant r _ hsize hsane hm ih =>
    obtain ⟨bl, hwf⟩ := ih
    exact malloc_WF hwf hsize hsane hm
  | release fuel bl b s' _ hch hb _ hf ih =>
    obtain ⟨bl0, hwf⟩ := ih
    have : bl0 = bl := Chain.unique hwf.chain hch
    subst this
    exact free_WF hwf hb hf


theorem Chain.last_next {mem : Nat → header_t} :
    ∀ {bl : List Blk} {p : Option Nat} {l : Nat}, Chain mem p bl → lastAddr bl = some l →
      (mem l).next = none
  | [], _, _, _, h => by simp [lastAddr] at h
  | [b], _, l, hc, h => by
    have hl : b.addr = l := by simpa [lastAddr] using h
    rw [← hl]
    exact hc.2.2.2
  | b :: c :: bl, _, l, hc, h => by
    rw [lastAddr_cons_cons] at h
    exact Chain.last_next hc.2.2.2 h


/-! ## Round trips -/

theorem Tiles.eq_of_addr : ∀ {bl : List Blk} {a e : Nat} {b c : Blk}, Tiles a bl e →
    b ∈ bl → c ∈ bl → b.addr = c.addr → b = c
  | [], _, _, _, _, _, hb, _, _ => by simp at hb
  | d :: bl, a, e, b, c, ht, hb, hc, h => by
    rcases List.mem_cons.mp hb with hbd | hb
    · rcases List.mem_cons.mp hc with hcd | hc
      · rw [hbd, hcd]
      · have := ht.lt_of_mem c hc
        rw [hbd] at h
        omega
    · rcases List.mem_cons.mp hc with hcd | hc
      · have := ht.lt_of_mem b hb
        rw [hcd] at h
        omega
      · exact Tiles.eq_of_addr ht.2 hb hc h

theorem mem_setFlag_self (f : Bool) : ∀ {bl : List Blk} {a e : Nat} {b : Blk}, Tiles a bl e →
    b ∈ bl → ({ b with free := f } : Blk) ∈ setFlag b.addr f bl
  | [], _, _, _, _, hb => by simp at hb
  | c :: bl, a, e, b, ht, hb => by
    unfold setFlag
    split_ifs with hc
    · have : b = c := ht.eq_of_addr hb (List.mem_cons_self _ _) hc.symm
      rw [this]
      exact List.mem_cons_self _ _
    · rcases List.mem_cons.mp hb with rfl | hb
      · exact absurd rfl hc
      · exact List.mem_cons_of_mem _ (mem_setFlag_self f ht.2 hb)

theorem setFlag_setFlag : ∀ {bl : List Blk} {a e : Nat} {b : Blk}, Tiles a bl e →
    b ∈ bl → setFlag b.addr b.free (setFlag b.addr (!b.free) bl) = bl
  | [], _, _, _, _, hb => by simp at hb
  | c :: bl, a, e, b, ht, hb => by
    by_cases hc : c.addr = b.addr
    · have hbc : b = c := ht.eq_of_addr hb (List.mem_cons_self _ _) hc.symm
      subst hbc
      simp [setFlag]
    · rcases List.mem_cons.mp hb with rfl | hb
      · exact absurd rfl hc
      · have ih := setFlag_setFlag ht.2 hb
        simp only [setFlag, if_neg hc]
        rw [ih]

theorem coalesceL_of_noAdjFree {bl : List Blk} (h : NoAdjFree bl) : coalesceL bl = bl := by
  cases bl with
  | nil => rfl
  | cons b bl => exact mergeL_of_noAdjFree h

theorem malloc_total {s : Heap} {bl : List Blk} (hwf : WF s bl) {fuel size : Nat}
    (grant : Bool) (hsize : 0 < size) (hsane : HDR + size < 2 ^ 63)
    (hfuel : bl.length ≤ fuel) : ∃ r, malloc fuel s size grant = some r := by
  cases hg : gfbL size bl with
  | some a => exact ⟨_, malloc_reuse_eq hwf grant hsize hfuel hg⟩
  | none =>
    by_cases hok : grant = true ∧ s.brk + (HDR + size) < ADDR_LIMIT
    · obtain ⟨hgr, hroom⟩ := hok
      subst hgr
      exact ⟨_, malloc_grow_eq hwf hsize hfuel hg hroom⟩
    · have hmod : (HDR + size) % WORD = HDR + size :=
        Nat.mod_eq_of_lt (by rw [WORD_eq]; omega)
      have hfail : (sbrk s ((HDR + size) % WORD) grant).1 = none := by
        have h0 : HDR + size ≠ 0 := by omega
        unfold sbrk
        rw [hmod, if_pos hsane, if_neg h0, if_neg hok]
      have hmiss : get_free_block fuel s size = some none := by
        rw [get_free_block_chain size hwf.chain hfuel, hg]
      exact ⟨_, malloc_refused_eq hsize hwf.unlocked hmiss hfail⟩

theorem malloc_some_of_miss {s : Heap} {bl : List Blk} (hwf : WF s bl) {fuel size : Nat}
    {grant : Bool} {p : Nat} {s1 : Heap} (hsize : 0 < size) (hsane : HDR + size < 2 ^ 63)
    (hfuel : bl.length ≤ fuel) (hg : gfbL size bl = none)
    (h : malloc fuel s size grant = some (some p, s1)) :
    s.brk + (HDR + size) < ADDR_LIMIT ∧ p = s.brk + HDR ∧ s1 = grow_state s size := by
  by_cases hok : grant = true ∧ s.brk + (HDR + size) < ADDR_LIMIT
  · obtain ⟨hgr, hroom⟩ := hok
    subst hgr
    rw [malloc_grow_eq hwf hsize hfuel hg hroom] at h
    have h1 := Option.some.inj h
    have h2 := (Prod.mk.inj h1).1
    exact ⟨hroom, (Option.some.inj h2).symm, (Prod.mk.inj h1).2.symm⟩
  · exfalso
    have hmod : (HDR + size) % WORD = HDR + size :=
      Nat.mod_eq_of_lt (by rw [WORD_eq]; omega)
    have hfail : (sbrk s ((HDR + size) % WORD) grant).1 = none := by
      have h0 : HDR + size ≠ 0 := by omega
      unfold sbrk
      rw [hmod, if_pos hsane, if_neg h0, if_neg hok]
    have hmiss : get_free_block fuel s size = some none := by
      rw [get_free_block_chain size hwf.chain hfuel, hg]
    rw [malloc_refused_eq hsize hwf.unlocked hmiss hfail] at h
    have h1 := (Prod.mk.inj (Option.some.inj h)).1
    cases h1


/-! ## Releasing two neighbours -/

theorem setFlag_append_of_ne (a : Nat) (f : Bool) :
    ∀ (l1 l2 : List Blk), (∀ c ∈ l1, c.addr ≠ a) →
      setFlag a f (l1 ++ l2) = l1 ++ setFlag a f l2
  | [], _, _ => rfl
  | c :: l1, l2, h => by
    have hc : c.addr ≠ a := h c (List.mem_cons_self _ _)
    have ih := setFlag_append_of_ne a f l1 l2 (fun d hd => h d (List.mem_cons_of_mem _ hd))
    show setFlag a f (c :: (l1 ++ l2)) = c :: (l1 ++ setFlag a f l2)
    rw [setFlag, if_neg hc, ih]

theorem setFlag_cons_self (f : Bool) (b : Blk) (l : List Blk) :
    setFlag b.addr f (b :: l) = { b with free := f } :: l := by
  simp [setFlag]

theorem coalesceL_append_used : ∀ (pre l : List Blk), NoAdjFree pre →
    (∀ w, pre.getLast? = some w → w.free = false) →
    coalesceL (pre ++ l) = pre ++ coalesceL l
  | [], _, _, _ => rfl
  | [w], l, _, hw => by
    have hwf : w.free = false := hw w rfl
    cases l with
    | nil => rfl
    | cons c l =>
      show mergeL w (c :: l) = w :: mergeL c l
      rw [mergeL, if_neg (by simp [hwf])]
  | w :: v :: pre, l, h, hw => by
    have ih := coalesceL_append_used (v :: pre) l h.2
      (fun x hx => hw x (by rw [List.getLast?_cons_cons]; exact hx))
    show mergeL w (v :: (pre ++ l)) = w :: v :: (pre ++ coalesceL l)
    rw [mergeL, if_neg h.1]
    have : mergeL v (pre ++ l) = coalesceL (v :: pre ++ l) := rfl
    rw [this, ih]
    rfl

theorem NoAdjFree.of_append_right : ∀ {l1 l2 : List Blk}, NoAdjFree (l1 ++ l2) → NoAdjFree l2
  | [], _, h => h
  | [_], [], _ => trivial
  | [_], _ :: _, h => h.2
  | _ :: c :: l1, l2, h => @NoAdjFree.of_append_right (c :: l1) l2 h.2

theorem NoAdjFree.cons_used {b : Blk} {l : List Blk} (hb : b.free = false) (h : NoAdjFree l) :
    NoAdjFree (b :: l) := by
  cases l with
  | nil => trivial
  | cons c l => exact ⟨by simp [hb], h⟩

theorem NoAdjFree.cons_before_used {b : Blk} {l : List Blk}
    (hl : ∀ z, l.head? = some z → z.free = false) (h : NoAdjFree l) : NoAdjFree (b :: l) := by
  cases l with
  | nil => trivial
  | cons c l => exact ⟨by simp [hl c rfl], h⟩

theorem NoAdjFree.tail {b : Blk} {l : List Blk} (h : NoAdjFree (b :: l)) : NoAdjFree l := by
  cases l with
  | nil => trivial
  | cons c l => exact h.2

theorem minL_ge (size : Nat) : ∀ (bl : List Blk) (t : Nat), size ≤ t → size ≤ minL size bl t
  | [], _, h => h
  | b :: bl, t, h => by
    unfold minL
    apply minL_ge size bl
    split_ifs with h1 h2
    · exact h1.2
    · exact h
    · exact h

theorem minL_le_init (size : Nat) : ∀ (bl : List Blk) (t : Nat), minL size bl t ≤ t
  | [], _ => le_refl _
  | b :: bl, t => by
    unfold minL
    refine le_trans (minL_le_init size bl _) ?_
    split_ifs with h1 h2
    · exact le_of_lt h2
    · exact le_refl _
    · exact le_refl _

theorem minL_le_of_mem (size : Nat) : ∀ (bl : List Blk) (t : Nat) (c : Blk), c ∈ bl →
    c.free = true → size ≤ c.size → minL size bl t ≤ c.size
  | [], _, c, hc, _, _ => by simp at hc
  | b :: bl, t, c, hc, hf, hs => by
    unfold minL
    rcases List.mem_cons.mp hc with hcb | hc
    · subst hcb
      refine le_trans (minL_le_init size bl _) ?_
      rw [if_pos ⟨hf, hs⟩]
      split_ifs with h2
      · exact le_refl _
      · exact not_lt.mp h2
    · exact minL_le_of_mem size bl _ c hc hf hs

theorem gfbL_exact {bl : List Blk} {c : Blk} (hc : c ∈ bl) (hf : c.free = true)
    (hle : c.size ≤ INT_MAX) : ∃ a, gfbL c.size bl = some a := by
  have h1 : minL c.size bl INT_MAX = c.size :=
    le_antisymm (minL_le_of_mem c.size bl INT_MAX c hc hf (le_refl _))
      (minL_ge c.size bl INT_MAX hle)
  unfold gfbL
  rw [h1]
  cases h : findL c.size bl with
  | some a => exact ⟨a, rfl⟩
  | none => exact absurd ⟨hf, rfl⟩ (findL_none h c hc)

theorem Chain.agree {m1 m2 : Nat → header_t} :
    ∀ {bl : List Blk} {p q : Option Nat}, Chain m1 p bl → Chain m2 q bl →
      ∀ c ∈ bl, m1 c.addr = m2 c.addr
  | [], _, _, _, _, c, hc => by simp at hc
  | b :: bl, p, q, h1, h2, c, hc => by
    rcases List.mem_cons.mp hc with hcb | hc
    · subst hcb
      obtain ⟨-, hs1, hf1, hn1⟩ := h1
      obtain ⟨-, hs2, hf2, hn2⟩ := h2
      have e1 := hn1.head_eq
      have e2 := hn2.head_eq
      cases h : m1 c.addr
      cases h' : m2 c.addr
      rw [h] at hs1 hf1 e1
      rw [h'] at hs2 hf2 e2
      simp only at hs1 hf1 e1 hs2 hf2 e2
      rw [hs1, hf1, e1, hs2, hf2, e2]
    · exact Chain.agree h1.2.2.2 h2.2.2.2 c hc

theorem Chain.header_at {m : Nat → header_t} :
    ∀ {l1 : List Blk} {p : Option Nat} {c : Blk} {l2 : List Blk}, Chain m p (l1 ++ c :: l2) →
      m c.addr = ⟨c.size, c.free, firstAddr l2⟩
  | [], _, c, l2, h => by
    obtain ⟨-, hs, hf, hn⟩ := h
    have e := hn.head_eq
    cases h' : m c.addr
    rw [h'] at hs hf e
    simp only at hs hf e
    rw [hs, hf, e]
  | _ :: l1, _, _, _, h => @Chain.header_at m l1 _ _ _ h.2.2.2

/-! ## `get_free_block` and the reference best fit -/

theorem minL_eq_foldl (size : Nat) : ∀ (bl : List Blk) (t : Nat),
    minL size bl t = ((qualifying size bl).map Blk.size).foldl min t
  | [], _ => rfl
  | b :: bl, t => by
    unfold minL qualifying
    by_cases hq : b.free = true ∧ b.size ≥ size
    · have hf : (b.free && decide (size ≤ b.size)) = true := by simp [hq.1, hq.2]
      rw [if_pos hq, minL_eq_foldl size bl]
      simp only [List.filter_cons, hf, if_true, List.map_cons, List.foldl_cons]
      unfold qualifying
      congr 1
      split_ifs with h
      · exact (Nat.min_eq_right (le_of_lt h)).symm
      · exact (Nat.min_eq_left (not_lt.mp h)).symm
    · have hf : (b.free && decide (size ≤ b.size)) = false := by
        rw [Bool.eq_false_iff]
        simp only [ne_eq, Bool.and_eq_true, decide_eq_true_eq]
        exact hq
      rw [if_neg hq, minL_eq_foldl size bl]
      simp only [List.filter_cons, hf]
      rfl

theorem findL_eq_filter (m : Nat) : ∀ (bl : List Blk),
    findL m bl = ((bl.filter fun b => b.free && decide (b.size = m)).head?).map Blk.addr
  | [] => rfl
  | b :: bl => by
    unfold findL
    by_cases hq : b.free = true ∧ b.size = m
    · have hf : (b.free && decide (b.size = m)) = true := by simp [hq.1, hq.2]
      rw [if_pos hq]
      simp only [List.filter_cons, hf, if_true, List.head?_cons, Option.map_some']
    · have hf : (b.free && decide (b.size = m)) = false := by
        rw [Bool.eq_false_iff]
        simp only [ne_eq, Bool.and_eq_true, decide_eq_true_eq]
        exact hq
      rw [if_neg hq, findL_eq_filter m bl]
      simp only [List.filter_cons, hf]
      rfl

theorem foldl_min_mem : ∀ (xs : List Nat) (x : Nat), xs.foldl min x ∈ x :: xs
  | [], x => List.mem_cons_self _ _
  | y :: xs, x => by
    rw [List.foldl_cons]
    have ih := foldl_min_mem xs (min x y)
    rcases List.mem_cons.mp ih with h | h
    · rw [h]
      rcases Nat.le_total x y with hxy | hxy
      · rw [Nat.min_eq_left hxy]
        exact List.mem_cons_self _ _
      · rw [Nat.min_eq_right hxy]
        exact List.mem_cons_of_mem _ (List.mem_cons_self _ _)
    · exact List.mem_cons_of_mem _ (List.mem_cons_of_mem _ h)

theorem mem_qualifying {size : Nat} {bl : List Blk} {b : Blk} :
    b ∈ qualifying size bl ↔ b ∈ bl ∧ b.free = true ∧ size ≤ b.size := by
  simp [qualifying]

theorem gfbL_eq_best_fit {size : Nat} {bl : List Blk}
    (hbound : ∀ b ∈ bl, b.free = true → b.size < INT_MAX) : gfbL size bl = best_fit size bl := by
  unfold gfbL best_fit
  rw [minL_eq_foldl]
  cases hq : (qualifying size bl).map Blk.size with
  | nil =>
    simp only [List.foldl_nil, least]
    cases hf : findL INT_MAX bl with
    | none => rfl
    | some a =>
      obtain ⟨b, hb, -, hbf, hbs⟩ := findL_some hf
      have := hbound b hb hbf
      omega
  | cons x xs =>
    have hx : x < INT_MAX := by
      have hmem : x ∈ (qualifying size bl).map Blk.size := by
        rw [hq]
        exact List.mem_cons_self _ _
      obtain ⟨b, hb, hbx⟩ := List.mem_map.mp hmem
      obtain ⟨hbl, hbf, -⟩ := mem_qualifying.mp hb
      rw [← hbx]
      exact hbound b hbl hbf
    simp only [List.foldl_cons, least, Nat.min_eq_right (le_of_lt hx)]
    exact findL_eq_filter _ bl

theorem best_fit_eq_none {size : Nat} {bl : List Blk} :
    best_fit size bl = none ↔ ∀ b ∈ bl, ¬ (b.free = true ∧ size ≤ b.size) := by
  constructor
  · intro h b hb hq
    have hbq : b ∈ qualifying size bl := mem_qualifying.mpr ⟨hb, hq.1, hq.2⟩
    unfold best_fit at h
    cases hl : (qualifying size bl).map Blk.size with
    | nil =>
      have : b.size ∈ (qualifying size bl).map Blk.size := List.mem_map_of_mem _ hbq
      rw [hl] at this
      simp at this
    | cons x xs =>
      rw [hl] at h
      simp only [least] at h
      have hm : xs.foldl min x ∈ (qualifying size bl).map Blk.size := by
        rw [hl]
        exact foldl_min_mem xs x
      obtain ⟨c, hc, hcs⟩ := List.mem_map.mp hm
      obtain ⟨hcl, hcf, -⟩ := mem_qualifying.mp hc
      have hcm : c ∈ bl.filter fun b => b.free && decide (b.size = xs.foldl min x) := by
        simp [hcl, hcf, hcs]
      cases hh : (bl.filter fun b => b.free && decide (b.size = xs.foldl min x)) with
      | nil =>
        rw [hh] at hcm
        simp at hcm
      | cons d r =>
        rw [hh] at h
        simp at h
  · intro h
    have hq : qualifying size bl = [] := by
      apply List.eq_nil_iff_forall_not_mem.mpr
      intro b hb
      obtain ⟨hbl, hbf, hbs⟩ := mem_qualifying.mp hb
      exact h b hbl ⟨hbf, hbs⟩
    unfold best_fit
    rw [hq]
    rfl




/-! ## `coalesce_free_blocks` on any chain -/

theorem Chain.of_append {mem : Nat → header_t} :
    ∀ {l1 l2 : List Blk} {p : Option Nat}, Chain mem p (l1 ++ l2) → ∃ q, Chain mem q l2
  | [], _, p, h => ⟨p, h⟩
  | _ :: l1, l2, _, h => @Chain.of_append mem l1 l2 _ h.2.2.2

theorem Chain.addr_ne {mem : Nat → header_t} {p : Option Nat} {b : Blk} {bl : List Blk}
    (h : Chain mem p (b :: bl)) : ∀ c ∈ bl, c.addr ≠ b.addr := by
  intro c hc hcb
  obtain ⟨l1, l2, hl⟩ := List.append_of_mem hc
  have h2 : Chain mem (mem b.addr).next (l1 ++ c :: l2) := hl ▸ h.2.2.2
  obtain ⟨q, hq⟩ := h2.of_append
  have hq1 : q = some c.addr := hq.1
  have hp : p = some b.addr := h.1
  rw [hq1, hcb, ← hp] at hq
  have := Chain.unique h hq
  have hlen := congrArg List.length this
  rw [hl] at hlen
  simp at hlen
  omega

theorem mergeW_head : ∀ (bl : List Blk) (b : Blk),
    ∃ sz r, mergeW b bl = ⟨b.addr, sz, b.free⟩ :: r
  | [], b => ⟨b.size, [], rfl⟩
  | c :: bl, b => by
    unfold mergeW
    split_ifs
    · exact mergeW_head bl _
    · exact ⟨b.size, mergeW c bl, rfl⟩

theorem mem_mergeW : ∀ {bl : List Blk} {b c : Blk}, c ∈ mergeW b bl →
    ∃ d ∈ b :: bl, c.addr = d.addr ∧ c.free = d.free
  | [], b, c, h => by
    have : c = b := by simpa [mergeW] using h
    exact ⟨b, List.mem_cons_self _ _, by rw [this], by rw [this]⟩
  | d :: bl, b, c, h => by
    unfold mergeW at h
    split_ifs at h
    · obtain ⟨x, hx, h1, h2⟩ := mem_mergeW h
      rcases List.mem_cons.mp hx with hxb | hx
      · exact ⟨b, List.mem_cons_self _ _, by rw [h1, hxb], by rw [h2, hxb]⟩
      · exact ⟨x, List.mem_cons_of_mem _ (List.mem_cons_of_mem _ hx), h1, h2⟩
    · rcases List.mem_cons.mp h with hcb | h
      · exact ⟨b, List.mem_cons_self _ _, by rw [hcb], by rw [hcb]⟩
      · obtain ⟨x, hx, hx2⟩ := mem_mergeW h
        exact ⟨x, List.mem_cons_of_mem _ hx, hx2⟩

theorem NoAdjFree.noAdj_mergeW : ∀ (bl : List Blk) (b : Blk), NoAdjFree (mergeW b bl)
  | [], _ => trivial
  | c :: bl, b => by
    unfold mergeW
    split_ifs with h
    · exact NoAdjFree.noAdj_mergeW bl _
    · obtain ⟨sz, r, hr⟩ := mergeW_head bl c
      have ih := NoAdjFree.noAdj_mergeW bl c
      rw [hr] at ih ⊢
      exact ⟨h, ih⟩

theorem coalesce_loop_chain : ∀ (bl : List Blk) (b : Blk) (s : Heap) (fuel : Nat),
    Chain s.mem (some b.addr) (b :: bl) → bl.length + 1 ≤ fuel →
    ∃ m' t', coalesce_loop fuel s (some b.addr) = some { s with mem := m', tail := t' } ∧
      Chain m' (some b.addr) (mergeW b bl) ∧
      (∀ x, (∀ c ∈ mergeW b bl, c.addr ≠ x) → m' x = s.mem x) ∧
      (s.tail = lastAddr (b :: bl) → t' = lastAddr (mergeW b bl))
  | _, _, _, 0, _, hf => by simp at hf
  | [], b, s, fuel + 1, hc, _ => by
    have hnext : (s.mem b.addr).next = none := hc.2.2.2
    refine ⟨s.mem, s.tail, ?_, hc, fun _ _ => rfl, fun h => h⟩
    simp only [coalesce_loop, hnext]
  | c :: bl, b, s, fuel + 1, hc, hf => by
    have hne : ∀ d ∈ c :: bl, d.addr ≠ b.addr := hc.addr_ne
    obtain ⟨-, hbs, hbf, hn⟩ := hc
    have hnext : (s.mem b.addr).next = some c.addr := hn.1
    obtain ⟨hcs, hcf, hcn⟩ := hn.2
    have hcb : c.addr ≠ b.addr := hne c (List.mem_cons_self _ _)
    have hf' : bl.length + 1 ≤ fuel := by simpa using hf
    by_cases hm : b.free = true ∧ c.free = true
    · have hcond : (s.mem b.addr).is_free = true ∧ (s.mem c.addr).is_free = true := by
        rw [hbf, hcf]
        exact hm
      obtain ⟨m3, t3, hstep, hm3b, hm3o, ht3def⟩ :
          ∃ (m3 : Nat → header_t) (t3 : Option Nat),
          coalesce_loop (fuel + 1) s (some b.addr) =
            coalesce_loop fuel { s with mem := m3, tail := t3 } (some b.addr) ∧
          m3 b.addr = ⟨(b.size + (HDR + c.size) % WORD) % WORD, b.free,
            (s.mem c.addr).next⟩ ∧
          (∀ x, x ≠ b.addr → m3 x = s.mem x) ∧
          t3 = (if (s.mem c.addr).next = none then some b.addr else s.tail) := by
        by_cases hC : (s.mem c.addr).next = none
        · simp only [coalesce_loop, hnext, hcond, and_self, if_true, store_mem, if_neg hcb,
            hbs, hcs, hC]
          refine ⟨_, _, rfl, ?_, ?_, rfl⟩
          · simp only [store_mem, if_true]
            rw [← hm.1]
          · intro x hx
            simp only [store_mem, if_neg hx]
        · simp only [coalesce_loop, hnext, hcond, and_self, if_true, store_mem, if_neg hcb,
            hbs, hcs, hC, if_false]
          refine ⟨_, _, rfl, ?_, ?_, rfl⟩
          · simp only [store_mem, if_true]
            rw [← hm.1]
          · intro x hx
            simp only [store_mem, if_neg hx]
      have hch3 : Chain m3 (some b.addr)
          ({ b with size := (b.size + (HDR + c.size) % WORD) % WORD } :: bl) := by
        refine ⟨rfl, by rw [hm3b], by rw [hm3b], ?_⟩
        have : (m3 b.addr).next = (s.mem c.addr).next := by rw [hm3b]
        show Chain m3 (m3 b.addr).next bl
        rw [this]
        exact Chain.congr
          (fun d hd => hm3o _ (hne d (List.mem_cons_of_mem _ hd))) hcn
      obtain ⟨m', t', hrun, hch', hfr, htl⟩ :=
        coalesce_loop_chain bl { b with size := (b.size + (HDR + c.size) % WORD) % WORD }
          { s with mem := m3, tail := t3 } fuel hch3 hf'
      have hmerge : mergeW b (c :: bl)
          = mergeW { b with size := (b.size + (HDR + c.size) % WORD) % WORD } bl := by
        rw [mergeW, if_pos hm]
      refine ⟨m', t', ?_, ?_, ?_, ?_⟩
      · rw [hstep, hrun]
      · rw [hmerge]
        exact hch'
      · intro x hx
        rw [hmerge] at hx
        rw [hfr x hx]
        obtain ⟨sz, r, hr⟩ :=
          mergeW_head bl { b with size := (b.size + (HDR + c.size) % WORD) % WORD }
        have hxb : b.addr ≠ x := hx ⟨b.addr, sz, b.free⟩ (by rw [hr]; exact List.mem_cons_self _ _)
        exact hm3o x (Ne.symm hxb)
      · intro hst
        rw [hmerge]
        apply htl
        show t3 = lastAddr ({ b with size := (b.size + (HDR + c.size) % WORD) % WORD } :: bl)
        cases bl with
        | nil =>
          have : (s.mem c.addr).next = none := hcn
          rw [ht3def, this, if_pos rfl]
          rfl
        | cons d bl =>
          have : (s.mem c.addr).next = some d.addr := hcn.1
          rw [ht3def, this, if_neg (by simp), hst, lastAddr_cons_cons, lastAddr_cons_cons,
            lastAddr_cons_cons]
    · have hcond : ¬ ((s.mem b.addr).is_free = true ∧ (s.mem c.addr).is_free = true) := by
        rw [hbf, hcf]
        exact hm
      have hstep : coalesce_loop (fuel + 1) s (some b.addr) =
          coalesce_loop fuel s (some c.addr) := by
        simp only [coalesce_loop, hnext, if_neg hcond]
      obtain ⟨m', t', hrun, hch', hfr, htl⟩ :=
        coalesce_loop_chain bl c s fuel ⟨rfl, hcs, hcf, hcn⟩ hf'
      have hmerge : mergeW b (c :: bl) = b :: mergeW c bl := by
        rw [mergeW, if_neg hm]
      have hb' : m' b.addr = s.mem b.addr := by
        apply hfr
        intro d hd
        obtain ⟨x, hx, hx1, -⟩ := mem_mergeW hd
        rw [hx1]
        exact hne x hx
      have hnn : mergeW c bl ≠ [] := by
        obtain ⟨sz, r, hr⟩ := mergeW_head bl c
        rw [hr]
        exact List.cons_ne_nil _ _
      refine ⟨m', t', ?_, ?_, ?_, ?_⟩
      · rw [hstep, hrun]
      · rw [hmerge]
        refine ⟨rfl, by rw [hb']; exact hbs, by rw [hb']; exact hbf, ?_⟩
        rw [hb', hnext]
        exact hch'
      · intro x hx
        rw [hmerge] at hx
        exact hfr x (fun d hd => hx d (List.mem_cons_of_mem _ hd))
      · intro hst
        rw [hmerge, lastAddr_cons_of_ne_nil b hnn]
        apply htl
        rw [hst, lastAddr_cons_cons]

theorem Chain.chain_setFlag_any {mem : Nat → header_t} (x : Nat) (f : Bool) :
    ∀ {bl : List Blk} {p : Option Nat}, Chain mem p bl →
      Chain (fun y => if y = x then { mem x with is_free := f } else mem y) p (setFlag x f bl)
  | [], _, h => h
  | b :: bl, p, h => by
    have hne := h.addr_ne
    obtain ⟨hp, hs, hf, hn⟩ := h
    unfold setFlag
    split_ifs with hb
    · subst hb
      refine ⟨hp, by simpa using hs, by simp, ?_⟩
      simp only [if_true]
      exact Chain.store_other _ _ hne hn
    · refine ⟨hp, by simpa [hb] using hs, by simpa [hb] using hf, ?_⟩
      simp only [if_neg hb]
      exact Chain.chain_setFlag_any x f hn

theorem noAdj_coalesceW (bl : List Blk) : NoAdjFree (coalesceW bl) := by
  cases bl with
  | nil => trivial
  | cons b bl => exact NoAdjFree.noAdj_mergeW bl b

theorem coalesce_free_blocks_chain {s : Heap} {bl : List Blk} {fuel : Nat}
    (hch : Chain s.mem s.head bl) (hfuel : bl.length ≤ fuel) :
    ∃ m' t', coalesce_free_blocks fuel s = some { s with mem := m', tail := t' } ∧
      Chain m' s.head (coalesceW bl) ∧
      (∀ x, (∀ c ∈ coalesceW bl, c.addr ≠ x) → m' x = s.mem x) ∧
      (s.tail = lastAddr bl → t' = lastAddr (coalesceW bl)) := by
  unfold coalesce_free_blocks
  cases bl with
  | nil =>
    have hh : s.head = none := hch
    have hrun : coalesce_loop fuel s s.head = some s := by
      rw [hh]
      cases fuel <;> rfl
    exact ⟨s.mem, s.tail, hrun, hch, fun _ _ => rfl, fun h => h⟩
  | cons b bl =>
    have hh : s.head = some b.addr := hch.1
    have hch2 : Chain s.mem (some b.addr) (b :: bl) := hh ▸ hch
    obtain ⟨m', t', hrun, hch', hfr, htl⟩ :=
      coalesce_loop_chain bl b s fuel hch2 (by simpa using hfuel)
    have e : coalesce_loop fuel s s.head = coalesce_loop fuel s (some b.addr) := by rw [hh]
    refine ⟨m', t', e.trans hrun, ?_, hfr, htl⟩
    rw [hh]
    exact hch'

theorem free_mark_chain {s : Heap} {bl : List Blk} {fuel : Nat}
    (hch : Chain s.mem s.head bl) (hfuel : bl.length ≤ fuel) {b : Blk} (hb : b ∈ bl)
    (hlock : s.locked = false) (hptr : b.addr + HDR < WORD)
    (hnl : (b.addr + HDR + b.size) % WORD ≠ s.brk) :
    ∃ s', free fuel s (some (b.addr + HDR)) = some s' ∧
      Chain s'.mem s'.head (coalesceW (setFlag b.addr true bl)) := by
  have hsz : (s.mem b.addr).size = b.size := (hch.header_of_mem b hb).1
  have hl : pthread_mutex_lock s = some { s with locked := true } := by
    simp [pthread_mutex_lock, hlock]
  have hhdr : (b.addr + HDR + WORD - HDR) % WORD = b.addr := by
    rw [WORD_eq, HDR_eq] at *
    omega
  have htest : ¬ (some ((b.addr + HDR + (s.mem b.addr).size) % WORD) = some s.brk) := by
    rw [hsz]
    exact fun h => hnl (Option.some.inj h)
  have hch3 : Chain (Heap.store { s with locked := true } b.addr
      { s.mem b.addr with is_free := true }).mem
      (Heap.store { s with locked := true } b.addr
        { s.mem b.addr with is_free := true }).head (setFlag b.addr true bl) :=
    Chain.chain_setFlag_any b.addr true hch
  have hfuel3 : (setFlag b.addr true bl).length ≤ fuel := by
    rw [length_setFlag]
    exact hfuel
  obtain ⟨m', t', hrun, hch', -, -⟩ := @coalesce_free_blocks_chain _ _ fuel hch3 hfuel3
  unfold free
  simp only [hl, hhdr, sbrk_zero, if_neg htest, coalesce_free_blocks, Heap.store]
  simp only [coalesce_free_blocks, Heap.store] at hrun
  rw [hrun]
  exact ⟨_, rfl, hch'⟩


/-! ## What `coalesce_free_blocks` preserves -/

theorem span_cons (b : Blk) (bl : List Blk) : span (b :: bl) = HDR + b.size + span bl := by
  simp [span]

theorem mergeW_eq_mergeL : ∀ (bl : List Blk) (b : Blk), span (b :: bl) < WORD →
    mergeW b bl = mergeL b bl
  | [], _, _ => rfl
  | c :: bl, b, h => by
    rw [span_cons, span_cons] at h
    unfold mergeW mergeL
    split_ifs with hm
    · have h1 : (HDR + c.size) % WORD = HDR + c.size := Nat.mod_eq_of_lt (by omega)
      have h2 : (b.size + (HDR + c.size)) % WORD = b.size + (HDR + c.size) :=
        Nat.mod_eq_of_lt (by omega)
      rw [h1, h2]
      apply mergeW_eq_mergeL
      rw [span_cons]
      show HDR + (b.size + (HDR + c.size)) + span bl < WORD
      omega
    · rw [mergeW_eq_mergeL bl c (by rw [span_cons]; omega)]

theorem span_mergeL : ∀ (bl : List Blk) (b : Blk), span (mergeL b bl) = span (b :: bl)
  | [], _ => rfl
  | c :: bl, b => by
    unfold mergeL
    split_ifs with hm
    · rw [span_mergeL bl, span_cons, span_cons, span_cons]
      show HDR + (b.size + (HDR + c.size)) + span bl = HDR + b.size + (HDR + c.size + span bl)
      omega
    · rw [span_cons, span_mergeL bl c, span_cons, span_cons, span_cons]

theorem in_use_cons_free {b : Blk} (bl : List Blk) (h : b.free = true) :
    in_use (b :: bl) = in_use bl := by
  simp [in_use, h]

theorem in_use_mergeL : ∀ (bl : List Blk) (b : Blk), in_use (mergeL b bl) = in_use (b :: bl)
  | [], _ => rfl
  | c :: bl, b => by
    unfold mergeL
    split_ifs with hm
    · rw [in_use_mergeL bl, in_use_cons_free bl (by exact hm.1), in_use_cons_free _ hm.1,
        in_use_cons_free _ hm.2]
    · have ih := in_use_mergeL bl c
      unfold in_use at ih ⊢
      rw [List.filter_cons, ih]
      simp only [List.filter_cons]

theorem coalesce_preserves_aux {s : Heap} {bl : List Blk} {fuel : Nat}
    (hch : Chain s.mem s.head bl) (htail : s.tail = lastAddr bl) (hspan : span bl < WORD)
    (hfuel : bl.length ≤ fuel) :
    ∃ m', coalesce_free_blocks fuel s
        = some { s with mem := m', tail := lastAddr (coalesceL bl) } ∧
      Chain m' s.head (coalesceL bl) ∧
      span (coalesceL bl) = span bl ∧
      in_use (coalesceL bl) = in_use bl ∧
      (∀ x, (m' x).is_free = (s.mem x).is_free) := by
  obtain ⟨m', t', hrun, hch', hfr, htl⟩ := coalesce_free_blocks_chain hch hfuel
  have hW : coalesceW bl = coalesceL bl := by
    cases bl with
    | nil => rfl
    | cons b bl => exact mergeW_eq_mergeL bl b hspan
  rw [hW] at hch' hfr htl
  rw [htl htail] at hrun
  refine ⟨m', hrun, hch', ?_, ?_, ?_⟩
  · cases bl with
    | nil => rfl
    | cons b bl => exact span_mergeL bl b
  · cases bl with
    | nil => rfl
    | cons b bl => exact in_use_mergeL bl b
  · intro x
    by_cases hx : ∃ c ∈ coalesceL bl, c.addr = x
    · obtain ⟨c, hc, hcx⟩ := hx
      have h1 := (hch'.header_of_mem c hc).2
      cases bl with
      | nil => simp [coalesceL] at hc
      | cons b bl =>
        obtain ⟨d, hd, hda, hdf, -⟩ := mem_mergeL hc
        have h2 := (hch.header_of_mem d hd).2
        rw [← hcx, h1, hda, h2, hdf]
    · rw [hfr x (fun c hc hcx => hx ⟨c, hc, hcx⟩)]

/-! ## `realloc` to a larger size -/

theorem setFlag_between {pre post : List Blk} {b : Blk} {a0 e : Nat}
    (ht : Tiles a0 (pre ++ b :: post) e) (f : Bool) :
    setFlag b.addr f (pre ++ b :: post) = pre ++ { b with free := f } :: post := by
  obtain ⟨m, htp, htb⟩ := Tiles.append.mp ht
  have hbm : b.addr = m := htb.1
  have hpre : ∀ c ∈ pre, c.addr ≠ b.addr := by
    intro c hc
    have := htp.lt_brk c hc
    omega
  rw [setFlag_append_of_ne _ _ _ _ hpre, setFlag_cons_self]

theorem span_append (l1 l2 : List Blk) : span (l1 ++ l2) = span l1 + span l2 := by
  simp [span]

theorem fuse_free (run : List Blk) : (fuse run).free = true := by
  cases run <;> rfl

theorem mergeL_run : ∀ (run : List Blk) (b : Blk) (Q : List Blk), b.free = true →
    (∀ r ∈ run, r.free = true) → (∀ z, Q.head? = some z → z.free = false) → NoAdjFree Q →
    mergeL b (run ++ Q) = ⟨b.addr, b.size + span run, true⟩ :: Q
  | [], b, Q, hb, _, hQ, hna => by
    have h := mergeL_of_noAdjFree (NoAdjFree.cons_before_used hQ hna : NoAdjFree (b :: Q))
    rw [List.nil_append, h]
    cases b
    simp_all [span]
  | r :: rs, b, Q, hb, hr, hQ, hna => by
    have hrf : r.free = true := hr r (List.mem_cons_self _ _)
    have ih := mergeL_run rs ({ b with size := b.size + (HDR + r.size) }) Q hb
      (fun x hx => hr x (List.mem_cons_of_mem _ hx)) hQ hna
    rw [List.cons_append, mergeL, if_pos ⟨hb, hrf⟩, ih, span_cons]
    simp [Nat.add_assoc]

theorem coalesceL_run (P run Q : List Blk) (hP : NoAdjFree P)
    (hPl : ∀ w, P.getLast? = some w → w.free = false) (hne : run ≠ [])
    (hr : ∀ r ∈ run, r.free = true) (hQ : ∀ z, Q.head? = some z → z.free = false)
    (hna : NoAdjFree Q) : coalesceL (P ++ (run ++ Q)) = P ++ fuse run :: Q := by
  rw [coalesceL_append_used _ _ hP hPl]
  cases run with
  | nil => exact absurd rfl hne
  | cons r rs =>
    show P ++ mergeL r (rs ++ Q) = _
    rw [mergeL_run rs r Q (hr r (List.mem_cons_self _ _))
      (fun x hx => hr x (List.mem_cons_of_mem _ hx)) hQ hna]
    rfl

theorem Tiles.tiles_coalesceL {bl : List Blk} {a e : Nat} (h : Tiles a bl e) :
    Tiles a (coalesceL bl) e := by
  cases bl with
  | nil => exact h
  | cons b bl => exact h.tiles_mergeL

theorem fuse_flag (Wl : List Blk) (X : Blk) (f : Bool) (l : List Blk) :
    fuse (Wl ++ { X with free := f } :: l) = fuse (Wl ++ X :: l) := by
  cases Wl with
  | nil => rfl
  | cons w ws => simp [fuse, span_append, span_cons]

theorem fuse_fuse_left (Wl : List Blk) (X : Blk) (l : List Blk) :
    fuse (fuse (Wl ++ [X]) :: l) = fuse (Wl ++ X :: l) := by
  cases Wl with
  | nil => simp [fuse, span]
  | cons w ws =>
    simp only [fuse, List.cons_append, span_append, span_cons, Blk.mk.injEq, true_and, and_true]
    simp only [span, List.map_nil, List.sum_nil]
    omega

theorem fuse_fuse_right (Wl : List Blk) (X Y : Blk) (Zl : List Blk) :
    fuse (Wl ++ [X, fuse (Y :: Zl)]) = fuse (Wl ++ X :: Y :: Zl) := by
  cases Wl with
  | nil =>
    simp only [fuse, List.nil_append, span_cons, Blk.mk.injEq, true_and, and_true]
    simp only [span, List.map_nil, List.sum_nil]
    omega
  | cons w ws =>
    simp only [fuse, List.cons_append, span_append, span_cons, Blk.mk.injEq, true_and, and_true]
    simp only [span, List.map_nil, List.sum_nil]
    omega

theorem pair_lists_around {P Wl Zl Q : List Blk} {X Y : Blk} {a0 e : Nat}
    (ht : Tiles a0 (P ++ Wl ++ X :: Y :: (Zl ++ Q)) e)
    (hna : NoAdjFree (P ++ Wl ++ X :: Y :: (Zl ++ Q)))
    (hX : X.free = false) (hY : Y.free = false)
    (hW : ∀ w ∈ Wl, w.free = true) (hZ : ∀ z ∈ Zl, z.free = true)
    (hPl : ∀ w, P.getLast? = some w → w.free = false)
    (hQh : ∀ z, Q.head? = some z → z.free = false) :
    coalesceL (setFlag X.addr true (P ++ Wl ++ X :: Y :: (Zl ++ Q)))
        = P ++ fuse (Wl ++ [X]) :: Y :: (Zl ++ Q) ∧
    coalesceL (setFlag Y.addr true (P ++ fuse (Wl ++ [X]) :: Y :: (Zl ++ Q)))
        = P ++ fuse (Wl ++ X :: Y :: Zl) :: Q ∧
    coalesceL (setFlag Y.addr true (P ++ Wl ++ X :: Y :: (Zl ++ Q)))
        = P ++ Wl ++ X :: fuse (Y :: Zl) :: Q ∧
    coalesceL (setFlag X.addr true (P ++ Wl ++ X :: fuse (Y :: Zl) :: Q))
        = P ++ fuse (Wl ++ X :: Y :: Zl) :: Q := by
  have hnP : NoAdjFree P := by
    have h : NoAdjFree (P ++ (Wl ++ X :: Y :: (Zl ++ Q))) := by
      rw [← List.append_assoc]
      exact hna
    exact h.of_append_left
  have hnYZQ : NoAdjFree (Y :: (Zl ++ Q)) := (hna.of_append_right).tail
  have hnQ : NoAdjFree Q := by
    have h : NoAdjFree (Zl ++ Q) := hnYZQ.tail
    exact h.of_append_right
  have hYhead : ∀ z, (Y :: (Zl ++ Q)).head? = some z → z.free = false := by
    intro z hz
    have : z = Y := by simpa using hz.symm
    rw [this]
    exact hY
  -- release of X first
  have h1 : coalesceL (setFlag X.addr true (P ++ Wl ++ X :: Y :: (Zl ++ Q)))
      = P ++ fuse (Wl ++ [X]) :: Y :: (Zl ++ Q) := by
    rw [setFlag_between ht true]
    have e1 : P ++ Wl ++ ({ X with free := true } : Blk) :: Y :: (Zl ++ Q)
        = P ++ ((Wl ++ [({ X with free := true } : Blk)]) ++ Y :: (Zl ++ Q)) := by simp
    rw [e1, coalesceL_run P _ _ hnP hPl (by simp) (by
      intro r hr
      rcases List.mem_append.mp hr with h | h
      · exact hW r h
      · have : r = { X with free := true } := by simpa using h
        rw [this]) hYhead hnYZQ]
    have e2 := fuse_flag Wl X true []
    rw [e2]
  -- release of Y first
  have hnPWX : NoAdjFree (P ++ Wl ++ [X]) := by
    have h : NoAdjFree ((P ++ Wl ++ [X]) ++ Y :: (Zl ++ Q)) := by
      have e : (P ++ Wl ++ [X]) ++ Y :: (Zl ++ Q) = P ++ Wl ++ X :: Y :: (Zl ++ Q) := by simp
      rw [e]
      exact hna
    exact h.of_append_left
  have hXlast : ∀ w, (P ++ Wl ++ [X]).getLast? = some w → w.free = false := by
    intro w hw
    have : w = X := by simpa using hw.symm
    rw [this]
    exact hX
  have h3 : coalesceL (setFlag Y.addr true (P ++ Wl ++ X :: Y :: (Zl ++ Q)))
      = P ++ Wl ++ X :: fuse (Y :: Zl) :: Q := by
    have e0 : P ++ Wl ++ X :: Y :: (Zl ++ Q) = (P ++ Wl ++ [X]) ++ Y :: (Zl ++ Q) := by simp
    have ht' : Tiles a0 ((P ++ Wl ++ [X]) ++ Y :: (Zl ++ Q)) e := e0 ▸ ht
    rw [e0, setFlag_between ht' true]
    have e1 : (P ++ Wl ++ [X]) ++ ({ Y with free := true } : Blk) :: (Zl ++ Q)
        = (P ++ Wl ++ [X]) ++ ((({ Y with free := true } : Blk) :: Zl) ++ Q) := by simp
    rw [e1, coalesceL_run _ _ _ hnPWX hXlast (by simp) (by
      intro r hr
      rcases List.mem_cons.mp hr with h | h
      · rw [h]
      · exact hZ r h) hQh hnQ]
    have e2 : fuse (({ Y with free := true } : Blk) :: Zl) = fuse (Y :: Zl) := rfl
    rw [e2]
    simp
  refine ⟨h1, ?_, h3, ?_⟩
  · have ht1 : Tiles a0 (P ++ fuse (Wl ++ [X]) :: Y :: (Zl ++ Q)) e := by
      rw [← h1]
      exact (ht.tiles_setFlag X.addr true).tiles_coalesceL
    have e0 : P ++ fuse (Wl ++ [X]) :: Y :: (Zl ++ Q)
        = (P ++ [fuse (Wl ++ [X])]) ++ Y :: (Zl ++ Q) := by simp
    have ht1' : Tiles a0 ((P ++ [fuse (Wl ++ [X])]) ++ Y :: (Zl ++ Q)) e := e0 ▸ ht1
    rw [e0, setFlag_between ht1' true]
    have e1 : (P ++ [fuse (Wl ++ [X])]) ++ ({ Y with free := true } : Blk) :: (Zl ++ Q)
        = P ++ ((fuse (Wl ++ [X]) :: ({ Y with free := true } : Blk) :: Zl) ++ Q) := by simp
    rw [e1, coalesceL_run P _ _ hnP hPl (by simp) (by
      intro r hr
      rcases List.mem_cons.mp hr with h | h
      · rw [h]
        exact fuse_free _
      · rcases List.mem_cons.mp h with h | h
        · rw [h]
        · exact hZ r h) hQh hnQ]
    have e2 : fuse (Wl ++ X :: ({ Y with free := true } : Blk) :: Zl)
        = fuse (Wl ++ X :: Y :: Zl) := by
      have := fuse_flag (Wl ++ [X]) Y true Zl
      simpa using this
    rw [fuse_fuse_left Wl X, e2]
  · have ht2 : Tiles a0 (P ++ Wl ++ X :: fuse (Y :: Zl) :: Q) e := by
      rw [← h3]
      exact (ht.tiles_setFlag Y.addr true).tiles_coalesceL
    rw [setFlag_between ht2 true]
    have e1 : P ++ Wl ++ ({ X with free := true } : Blk) :: fuse (Y :: Zl) :: Q
        = P ++ ((Wl ++ [({ X with free := true } : Blk), fuse (Y :: Zl)]) ++ Q) := by simp
    rw [e1, coalesceL_run P _ _ hnP hPl (by simp) (by
      intro r hr
      rcases List.mem_append.mp hr with h | h
      · exact hW r h
      · rcases List.mem_cons.mp h with h | h
        · rw [h]
        · have : r = fuse (Y :: Zl) := by simpa using h
          rw [this]
          exact fuse_free _) hQh hnQ]
    rw [fuse_flag Wl X true [fuse (Y :: Zl)], fuse_fuse_right]

theorem NoAdjFree.last_pair : ∀ {L : List Blk} {b v : Blk}, NoAdjFree (L ++ [b]) →
    L.getLast? = some v → ¬ (v.free = true ∧ b.free = true)
  | [], _, _, _, h => by simp at h
  | [x], b, v, h, hv => by
    have : v = x := by simpa using hv.symm
    rw [this]
    exact h.1
  | _ :: y :: L, b, v, h, hv => by
    rw [List.getLast?_cons_cons] at hv
    exact @NoAdjFree.last_pair (y :: L) b v h.2 hv

theorem free_suffix_split (pre : List Blk) (h : NoAdjFree pre) :
    ∃ P Wl, pre = P ++ Wl ∧ Wl.length ≤ 1 ∧ (∀ w ∈ Wl, w.free = true) ∧
      (∀ w, P.getLast? = some w → w.free = false) := by
  rcases List.eq_nil_or_concat' pre with hnil | ⟨L, b, hL⟩
  · exact ⟨[], [], by simp [hnil], by simp, by simp, by simp⟩
  · subst hL
    by_cases hb : b.free = true
    · refine ⟨L, [b], rfl, by simp, by simpa using hb, ?_⟩
      intro v hv
      have := h.last_pair hv
      cases hvf : v.free with
      | false => rfl
      | true => exact absurd ⟨hvf, hb⟩ this
    · refine ⟨L ++ [b], [], by simp, by simp, by simp, ?_⟩
      intro v hv
      have : v = b := by simpa using hv.symm
      rw [this]
      simpa using hb

theorem free_prefix_split (post : List Blk) (h : NoAdjFree post) :
    ∃ Zl Q, post = Zl ++ Q ∧ Zl.length ≤ 1 ∧ (∀ z ∈ Zl, z.free = true) ∧
      (∀ z, Q.head? = some z → z.free = false) := by
  cases post with
  | nil => exact ⟨[], [], rfl, by simp, by simp, by simp⟩
  | cons z Q =>
    by_cases hz : z.free = true
    · refine ⟨[z], Q, rfl, by simp, by simpa using hz, ?_⟩
      intro c hc
      cases Q with
      | nil => simp at hc
      | cons d Q =>
        have hcd : c = d := by simpa using hc.symm
        rw [hcd]
        have := h.1
        cases hdf : d.free with
        | false => rfl
        | true => exact absurd ⟨hz, hdf⟩ this
    · refine ⟨[], z :: Q, rfl, by simp, by simp, ?_⟩
      intro c hc
      have : c = z := by simpa using hc.symm
      rw [this]
      simpa using hz

theorem minL_eq_or_mem (size : Nat) : ∀ (bl : List Blk) (t : Nat),
    minL size bl t = t ∨ ∃ d ∈ bl, d.free = true ∧ size ≤ d.size ∧ d.size = minL size bl t
  | [], _ => Or.inl rfl
  | b :: bl, t => by
    unfold minL
    split_ifs with h1 h2
    · right
      rcases minL_eq_or_mem size bl b.size with h | ⟨d, hd, hdf, hds, hdm⟩
      · exact ⟨b, List.mem_cons_self _ _, h1.1, h1.2, h.symm⟩
      · exact ⟨d, List.mem_cons_of_mem _ hd, hdf, hds, hdm⟩
    · rcases minL_eq_or_mem size bl t with h | ⟨d, hd, hdf, hds, hdm⟩
      · exact Or.inl h
      · exact Or.inr ⟨d, List.mem_cons_of_mem _ hd, hdf, hds, hdm⟩
    · rcases minL_eq_or_mem size bl t with h | ⟨d, hd, hdf, hds, hdm⟩
      · exact Or.inl h
      · exact Or.inr ⟨d, List.mem_cons_of_mem _ hd, hdf, hds, hdm⟩

theorem gfbL_some_of_fit {n : Nat} {bl : List Blk} {c : Blk} (hc : c ∈ bl)
    (hf : c.free = true) (hn : n ≤ c.size) (hle : c.size ≤ INT_MAX) :
    ∃ a, gfbL n bl = some a := by
  have hd : ∃ d ∈ bl, d.free = true ∧ d.size = minL n bl INT_MAX := by
    rcases minL_eq_or_mem n bl INT_MAX with h | ⟨d, hd, hdf, -, hdm⟩
    · have h1 := minL_le_of_mem n bl INT_MAX c hc hf hn
      exact ⟨c, hc, hf, by omega⟩
    · exact ⟨d, hd, hdf, hdm⟩
  obtain ⟨d, hd, hdf, hdm⟩ := hd
  unfold gfbL
  cases h : findL (minL n bl INT_MAX) bl with
  | some a => exact ⟨a, rfl⟩
  | none => exact absurd ⟨hdf, hdm⟩ (findL_none h d hd)

theorem Tiles.split_lt {l1 l2 : List Blk} {c : Blk} {a e : Nat}
    (h : Tiles a (l1 ++ c :: l2) e) :
    (∀ d ∈ l1, d.addr < c.addr) ∧ (∀ d ∈ l2, c.addr < d.addr) := by
  obtain ⟨m, htp, htc⟩ := Tiles.append.mp h
  have hcm : c.addr = m := htc.1
  refine ⟨fun d hd => ?_, fun d hd => htc.lt_of_mem d hd⟩
  have := htp.lt_brk d hd
  omega

theorem fuse_addr (Wl : List Blk) (X : Blk) (l1 l2 : List Blk) :
    (fuse (Wl ++ X :: l1)).addr = (fuse (Wl ++ X :: l2)).addr := by
  cases Wl <;> rfl
theorem add_mod_swap (a x y : Nat) :
    ((a + x) % WORD + y) % WORD = ((a + y) % WORD + x) % WORD := by
  rw [WORD_eq]
  omega

theorem sub_mod_swap (a x y : Nat) (hx : x < WORD) (hy : y < WORD) :
    ((a + WORD - x) % WORD + WORD - y) % WORD = ((a + WORD - y) % WORD + WORD - x) % WORD := by
  rw [WORD_eq] at *
  omega

/-! ## The claims -/

/-- C1 (fails on the code): after `a = malloc(2147483647); malloc(1); free(a)`
on the empty heap, `malloc(2147483648)` returns `a` again (4120 = 4096 + 24):
the block at 4096 was free before the call and is in use after it, but its
recorded size is 2147483647, one less than requested, and the header of the
next block, which is in use, lies at 2147487767 = 4120 + 2147483647, inside
the 2147483648 bytes handed out. -/
theorem malloc_returns_undersized_block :
    ((free_first_of_two 2147483647 1).bind fun s =>
      (malloc 8 s 2147483648 true).map fun r =>
        (r.1, (s.mem 4096).is_free, (r.2.mem 4096).is_free, (r.2.mem 4096).size,
          decide (Chain r.2.mem r.2.head
            [⟨4096, 2147483647, false⟩, ⟨2147487767, 1, false⟩])))
      = some (some 4120, true, false, 2147483647, true) := by
  decide

/-- C2 (fails on the code): after `a = malloc(2147483648); malloc(1); free(a)`
on the empty heap the list holds a free block of size 2147483648 followed by
a block in use, and `get_free_block(1)` returns `NULL` although the free
block qualifies. -/
theorem get_free_block_misses_large_block :
    ((free_first_of_two 2147483648 1).map fun s =>
      (get_free_block 8 s 1,
        decide (Chain s.mem s.head [⟨4096, 2147483648, true⟩, ⟨2147487768, 1, false⟩])))
      = some (some none, true) := by
  decide

/-- C3 (fails on the code): after `a = malloc(2147483647); malloc(1); free(a)`
on the empty heap the only free block has size 2147483647, and
`get_free_block(2147483648)` returns this block instead of `NULL`. -/
theorem get_free_block_returns_sentinel_sized_block :
    ((free_first_of_two 2147483647 1).map fun s =>
      (get_free_block 8 s 2147483648,
        decide (Chain s.mem s.head [⟨4096, 2147483647, true⟩, ⟨2147487767, 1, false⟩])))
      = some (some (some 4096), true) := by
  decide

/-- C4: `malloc(0)`, `calloc(0, x)` and `calloc(x, 0)` return `NULL` and
leave the whole state (counters, headers, list, break, guard) as it was. -/
theorem zero_requests_return_null (fuel : Nat) (s : Heap) (x : Nat) (grant : Bool) :
    malloc fuel s 0 grant = some (none, s) ∧
    calloc fuel s 0 x grant = some (none, s) ∧
    calloc fuel s x 0 grant = some (none, s) := by
  simp [malloc, calloc]

/-- C5: for non-zero words `num` and `nsize`, the test `nsize != size / num`
of `calloc`, with `size = num * nsize` computed modulo `2^64`, rejects
exactly when the product is at least `2^64`; then `calloc` returns `NULL`
with the state untouched, and otherwise it is `malloc` of the exact product
followed by the zero fill. -/
theorem calloc_overflow_check (fuel : Nat) (s : Heap) (num nsize : Nat) (grant : Bool)
    (hnum : num ≠ 0) (hnsize : nsize ≠ 0) :
    (nsize ≠ (num * nsize % WORD) / num ↔ WORD ≤ num * nsize) ∧
    (WORD ≤ num * nsize → calloc fuel s num nsize grant = some (none, s)) ∧
    (num * nsize < WORD → calloc fuel s num nsize grant =
      match malloc fuel s (num * nsize) grant with
      | none => none
      | some (none, s1) => some (none, s1)
      | some (some block, s1) => some (some block, memset_zero s1 block (num * nsize))) := by
  have hpos : 0 < num := Nat.pos_of_ne_zero hnum
  have key : nsize ≠ (num * nsize % WORD) / num ↔ WORD ≤ num * nsize := by
    constructor
    · intro h
      by_contra hlt
      rw [Nat.mod_eq_of_lt (not_le.mp hlt), Nat.mul_div_cancel_left _ hpos] at h
      exact h rfl
    · intro hov heq
      have hmod : num * nsize % WORD < num * nsize :=
        lt_of_lt_of_le (Nat.mod_lt _ (by decide)) hov
      have hdiv : (num * nsize % WORD) / num < nsize :=
        (Nat.div_lt_iff_lt_mul hpos).mpr (by rw [Nat.mul_comm nsize num]; exact hmod)
      omega
  refine ⟨key, ?_, ?_⟩
  · intro hov
    have := key.mpr hov
    simp [calloc, hnum, hnsize, this]
  · intro hlt
    have hno : ¬ nsize ≠ num * nsize / num := by
      rw [Nat.mul_div_cancel_left _ hpos]
      exact fun h => h rfl
    simp only [calloc, hnum, hnsize, or_self, if_false, Nat.mod_eq_of_lt hlt, if_neg hno]

/-- Witness of `calloc_overflow_check`: three elements of five bytes. -/
theorem calloc_overflow_check_witness :
    ((5 : Nat) ≠ (3 * 5 % WORD) / 3 ↔ WORD ≤ 3 * 5) ∧
    (WORD ≤ 3 * 5 → calloc 1 (Heap.empty 4096) 3 5 true = some (none, Heap.empty 4096)) ∧
    (3 * 5 < WORD → calloc 1 (Heap.empty 4096) 3 5 true =
      match malloc 1 (Heap.empty 4096) (3 * 5) true with
      | none => none
      | some (none, s1) => some (none, s1)
      | some (some block, s1) => some (some block, memset_zero s1 block (3 * 5))) :=
  calloc_overflow_check 1 (Heap.empty 4096) 3 5 true (by decide) (by decide)

/-- C6: when the guard is free at the call, `size > 0`, the search finds no
block to reuse (so that growth is requested) and `sbrk` returns its failure
value, `malloc(size)` returns `NULL` and the state after the call is the
state before it: head, tail, headers, break and counters are unchanged and
the guard is released. -/
theorem malloc_growth_refused (fuel : Nat) (s : Heap) (size : Nat) (grant : Bool)
    (hsize : 0 < size) (hlock : s.locked = false)
    (hmiss : get_free_block fuel s size = some none)
    (hrefused : (sbrk s ((HDR + size) % WORD) grant).1 = none) :
    malloc fuel s size grant = some (none, s) := by
  have h1 : get_free_block fuel { s with locked := true } size = some none := hmiss
  have h2 : sbrk { s with locked := true } ((HDR + size) % WORD) grant =
      (none, { s with locked := true }) :=
    sbrk_fail _ _ _ (by rw [sbrk_fst_locked]; exact hrefused)
  have h3 : pthread_mutex_unlock { s with locked := true } = s := by
    cases s
    simp_all [pthread_mutex_unlock]
  simp [malloc, Nat.pos_iff_ne_zero.mp hsize, pthread_mutex_lock, hlock, h1, h2, h3]

/-- Witness of `malloc_growth_refused`: a request of 8 bytes on the empty
heap, refused by the kernel. -/
theorem malloc_growth_refused_witness :
    0 < 8 ∧ (Heap.empty 4096).locked = false ∧
    get_free_block 1 (Heap.empty 4096) 8 = some none ∧
    (sbrk (Heap.empty 4096) ((HDR + 8) % WORD) false).1 = none ∧
    malloc 1 (Heap.empty 4096) 8 false = some (none, Heap.empty 4096) :=
  ⟨by decide, rfl, rfl, rfl,
    malloc_growth_refused 1 (Heap.empty 4096) 8 false (by decide) rfl rfl rfl⟩

/-- C7 (fails on the code): `malloc(2^64 - 1)`, that is
`malloc(18446744073709551615)`, on the empty heap with break 4096 computes
`total_size = 23`, so that the granted request moves the break by 23 bytes
only, to 4119, while the new tail block at 4096 records the size `2^64 - 1`
and the returned pointer 4120 lies above the break. -/
theorem malloc_total_size_wraps :
    ((malloc 8 (Heap.empty 4096) 18446744073709551615 true).map fun r =>
      (r.1, r.2.brk, (r.2.mem 4096).size, r.2.head, r.2.tail))
      = some (some 4120, 4119, 18446744073709551615, some 4096, some 4096) := by
  decide

/-- The heap-shrink path of `free` when the released header stays mapped: in
a reachable heap, `free` of a block in use whose payload ends at the program
break (the last block of the list) unlinks it, so that head and tail become
`NULL` when it was the only block and otherwise the block before it becomes
the tail, with `next = NULL`, and lowers the break by `sizeof(header_t)` plus
the recorded size.  A `malloc` of that size made next is served by a fresh
growth at the address of the released block, which brings back the list and
the break of before the release, when the search finds no free block; when
the search finds a free block among the remaining ones, `malloc` reuses it
and the break stays where the release left it. -/
theorem free_last_block_then_malloc {s : Heap} (hreach : Reachable s) {bl : List Blk}
    (hch : Chain s.mem s.head bl) {b : Blk} (hb : b ∈ bl) (hused : b.free = false)
    (hend : b.addr + HDR + b.size = s.brk) (hmap : b.addr + 8 ≤ page_end b.addr)
    {fuel : Nat} (hfuel : bl.length ≤ fuel) :
    ∃ pre s1, bl = pre ++ [b] ∧ free fuel s (some (b.addr + HDR)) = some s1 ∧
      Chain s1.mem s1.head pre ∧ s1.tail = lastAddr pre ∧
      (pre = [] → s1.head = none ∧ s1.tail = none) ∧
      (∀ l, lastAddr pre = some l → s1.tail = some l ∧ (s1.mem l).next = none) ∧
      s1.brk + (HDR + b.size) = s.brk ∧
      (get_free_block fuel s1 b.size = some none →
        ∃ s2, malloc fuel s1 b.size true = some (some (b.addr + HDR), s2) ∧
          s2.brk = s.brk ∧ Chain s2.mem s2.head bl ∧ s2.tail = some b.addr) ∧
      (∀ a, get_free_block fuel s1 b.size = some (some a) →
        ∃ s2, malloc fuel s1 b.size true = some (some (a + HDR), s2) ∧
          s2.brk = s1.brk ∧ ∃ c ∈ pre, c.addr = a ∧ c.free = true) := by
  obtain ⟨bl0, hwf⟩ := hreach.wf
  have hbl : bl0 = bl := Chain.unique hwf.chain hch
  subst hbl
  obtain ⟨a0, ht⟩ := hwf.tiles
  obtain ⟨pre, hpre⟩ := ht.last_of_end hb hend
  subst hpre
  have hwf1 : WF (shrink_state s b.addr (lastAddr pre)) pre := hwf.wf_shrink
  have hlen : pre.length ≤ fuel := by
    simp at hfuel
    omega
  have hpos : 0 < b.size := hwf.size_pos b hb
  have hbrk1 : (shrink_state s b.addr (lastAddr pre)).brk = b.addr := rfl
  refine ⟨pre, _, rfl, (free_shrink_eq hwf hfuel).trans (if_pos hmap), hwf1.chain,
    hwf1.tail_eq, ?_, ?_, ?_, ?_, ?_⟩
  · intro hnil
    subst hnil
    exact ⟨hwf1.chain, hwf1.tail_eq⟩
  · intro l hl
    exact ⟨hwf1.tail_eq.trans hl, hwf1.chain.last_next hl⟩
  · rw [hbrk1]
    omega
  · intro hmiss
    have hg : gfbL b.size pre = none := by
      rw [get_free_block_chain b.size hwf1.chain hlen] at hmiss
      exact Option.some.inj hmiss
    have hroom : (shrink_state s b.addr (lastAddr pre)).brk + (HDR + b.size) < ADDR_LIMIT := by
      rw [hbrk1]
      have := hwf.brk_lt
      omega
    have hwf2 := hwf1.wf_grow hpos hroom
    have hb' : (⟨(shrink_state s b.addr (lastAddr pre)).brk, b.size, false⟩ : Blk) = b := by
      cases b
      simp_all
    rw [hb'] at hwf2
    refine ⟨_, malloc_grow_eq hwf1 hpos hlen hg hroom, ?_, hwf2.chain, ?_⟩
    · show b.addr + (HDR + b.size) = s.brk
      omega
    · rw [hwf2.tail_eq, lastAddr_append_singleton]
  · intro a hhit
    have hg : gfbL b.size pre = some a := by
      rw [get_free_block_chain b.size hwf1.chain hlen] at hhit
      exact Option.some.inj hhit
    obtain ⟨c, hc, hca, hcf, -⟩ := findL_some hg
    exact ⟨_, malloc_reuse_eq hwf1 true hpos hlen hg, rfl, c, hc, hca, hcf⟩

/-- After `a = malloc(64); malloc(64); c = malloc(64); free(a)` the block of
`c` (at 4272) is in use and ends at the break 4360; `free(c)` lowers the
break to 4272, and the `malloc(64)` made next returns `a` (4120), the free
block at the head of the list, and leaves the break at 4272: `malloc` tries
to reuse a block before it grows the heap. -/
theorem free_last_block_then_malloc_reuses :
    ((free_first_of_three 64 64 64).bind fun s =>
      (free 8 s (some 4296)).bind fun s1 =>
        (malloc 8 s1 64 true).map fun r =>
          (decide (Chain s.mem s.head [⟨4096, 64, true⟩, ⟨4184, 64, false⟩, ⟨4272, 64, false⟩]),
            s.brk, s1.brk, r.1, r.2.brk))
      = some (true, 4360, 4272, some 4120, 4272) := by
  decide

/-- Witness of `free_last_block_then_malloc`: the heap after `malloc(8);
malloc(64)` on the empty heap, whose second block, at 4128, is in use and
ends at the break. -/
theorem free_last_block_then_malloc_witness :
    ∃ pre s1, [(⟨4096, 8, false⟩ : Blk), ⟨4128, 64, false⟩] = pre ++ [⟨4128, 64, false⟩] ∧
      free 8 (grow_state (grow_state (Heap.empty 4096) 8) 64) (some (4128 + HDR)) = some s1 ∧
      Chain s1.mem s1.head pre ∧ s1.tail = lastAddr pre ∧
      (pre = [] → s1.head = none ∧ s1.tail = none) ∧
      (∀ l, lastAddr pre = some l → s1.tail = some l ∧ (s1.mem l).next = none) ∧
      s1.brk + (HDR + 64) = 4216 ∧
      (get_free_block 8 s1 64 = some none →
        ∃ s2, malloc 8 s1 64 true = some (some (4128 + HDR), s2) ∧
          s2.brk = 4216 ∧
          Chain s2.mem s2.head [⟨4096, 8, false⟩, ⟨4128, 64, false⟩] ∧
          s2.tail = some 4128) ∧
      (∀ a, get_free_block 8 s1 64 = some (some a) →
        ∃ s2, malloc 8 s1 64 true = some (some (a + HDR), s2) ∧
          s2.brk = s1.brk ∧ ∃ c ∈ pre, c.addr = a ∧ c.free = true) :=
  @free_last_block_then_malloc (grow_state (grow_state (Heap.empty 4096) 8) 64)
    (Reachable.alloc 8 64 true (some 4152, grow_state (grow_state (Heap.empty 4096) 8) 64)
      (Reachable.alloc 8 8 true (some 4120, grow_state (Heap.empty 4096) 8)
        (Reachable.empty 4096 (by decide)) (by decide) (by decide) rfl)
      (by decide) (by decide) rfl)
    [⟨4096, 8, false⟩, ⟨4128, 64, false⟩] (by decide) ⟨4128, 64, false⟩ (by simp) rfl rfl
    (by decide) 8 (by decide)

/-- C8 (fails on the code): `p = malloc(64)` on the empty heap with break
4096 returns 4120 and leaves one block, in use, whose payload ends at the
break 4184.  `free(p)` takes the guard, sets `head` and `tail` to `NULL`,
lowers the break to 4096 by `sbrk` and releases the guard; the update of
`total_freed` then reads `header->s.size` at 4096, in the page that `sbrk`
has just returned to the kernel, and the call never returns, whatever the
fuel.  When the header of the released block does not start a page the same
path returns: after `malloc(8); q = malloc(64)`, `free(q)` unlinks the block
at 4128 and leaves the break there. -/
theorem free_last_block_reads_released_header :
    malloc 8 (Heap.empty 4096) 64 true = some (some 4120, grow_state (Heap.empty 4096) 64) ∧
    (Chain (grow_state (Heap.empty 4096) 64).mem (grow_state (Heap.empty 4096) 64).head
        [⟨4096, 64, false⟩] ∧
      4096 + HDR + 64 = (grow_state (Heap.empty 4096) 64).brk) ∧
    free_events 8 (grow_state (Heap.empty 4096) 64) (some 4120)
      = some [Event.lock, Event.sbrk_call, Event.list_write, Event.list_write,
          Event.sbrk_call, Event.unlock, Event.fault] ∧
    (∀ fuel, free fuel (grow_state (Heap.empty 4096) 64) (some 4120) = none) ∧
    ((malloc 8 (grow_state (Heap.empty 4096) 8) 64 true).bind fun r =>
      (free 8 r.2 r.1).map fun s =>
        (r.1, r.2.brk, s.brk, s.tail, decide (Chain s.mem s.head [⟨4096, 8, false⟩])))
      = some (some 4152, 4216, 4128, some 4096, true) :=
  ⟨rfl, by decide, by decide, fun _ => rfl, by decide⟩

/-- C9 (amended): in a reachable heap, when `p = malloc(n)` succeeds,
`free(p)` followed by `malloc(n)`, the kernel granting any growth request,
returns `p` again, except when the first `malloc` had reused the last block
of the list (a free block ending at the break): the release then returns that
block to the kernel, and the next `malloc` gives `p` back when the block
covered `n` bytes and the search finds no other free block.  The statement is
about the releases that return: when the block of `p` is the last block, the
first word of its header is taken to stay mapped once the break has been
lowered to it. -/
theorem malloc_free_malloc_round_trip {s : Heap} (hreach : Reachable s) {bl : List Blk}
    (hch : Chain s.mem s.head bl) {n : Nat} (hn : 0 < n) (hsane : HDR + n < 2 ^ 63)
    {fuel : Nat} (hfuel : bl.length + 1 ≤ fuel) {grant : Bool} {p : Nat} {s1 : Heap}
    (hm : malloc fuel s n grant = some (some p, s1))
    (hmap : p + (s1.mem (p - HDR)).size = s1.brk → p - HDR + 8 ≤ page_end (p - HDR)) :
    ∃ s2 r, free fuel s1 (some p) = some s2 ∧ malloc fuel s2 n true = some r ∧
      ((∀ a, s.tail = some a → get_free_block fuel s n = some (some a) →
          n ≤ (s.mem a).size ∧ get_free_block fuel s2 n = some none) → r.1 = some p) := by
  obtain ⟨bl0, hwf⟩ := hreach.wf
  have hbl : bl0 = bl := Chain.unique hwf.chain hch
  subst hbl
  have hfuel0 : bl0.length ≤ fuel := by omega
  obtain ⟨a0, ht⟩ := hwf.tiles
  cases hg : gfbL n bl0 with
  | some a =>
    rw [malloc_reuse_eq hwf grant hn hfuel0 hg] at hm
    have h1 := Prod.mk.inj (Option.some.inj hm)
    have hp : p = a + HDR := (Option.some.inj h1.1).symm
    have hs1 : s1 = reuse_state s a n := h1.2.symm
    subst hp hs1
    obtain ⟨b, hb, hba, hbf, -⟩ := findL_some hg
    subst hba
    have hwf1 : WF (reuse_state s b.addr n) (setFlag b.addr false bl0) := hwf.wf_reuse _ n
    have hb1 : ({ b with free := false } : Blk) ∈ setFlag b.addr false bl0 :=
      mem_setFlag_self false ht hb
    have hlen1 : (setFlag b.addr false bl0).length ≤ fuel := by
      rw [length_setFlag]
      exact hfuel0
    have hsz1 : ((reuse_state s b.addr n).mem b.addr).size = b.size :=
      (hwf1.chain.header_of_mem _ hb1).1
    by_cases hend : b.addr + HDR + b.size = s.brk
    · -- the reused block is the last one: the release shrinks the heap
      have hread : b.addr + 8 ≤ page_end b.addr := by
        have h := hmap (by
          rw [Nat.add_sub_cancel, hsz1]
          exact hend)
        rwa [Nat.add_sub_cancel] at h
      obtain ⟨pre, hpre⟩ := (ht.tiles_setFlag b.addr false).last_of_end hb1 hend
      rw [hpre] at hwf1 hlen1
      have hfree := (free_shrink_eq hwf1 hlen1).trans (if_pos hread)
      have hwf2 := hwf1.wf_shrink
      have hlen2 : pre.length ≤ fuel := by
        simp at hlen1
        omega
      obtain ⟨r, hr⟩ := malloc_total hwf2 true hn hsane hlen2
      refine ⟨_, r, hfree, hr, ?_⟩
      intro hprem
      have htail : s.tail = some b.addr := by
        rw [hwf.tail_eq, ← lastAddr_setFlag b.addr false bl0, hpre, lastAddr_append_singleton]
      have hgfb : get_free_block fuel s n = some (some b.addr) := by
        rw [get_free_block_chain n hwf.chain hfuel0, hg]
      obtain ⟨hcover, hmiss⟩ := hprem b.addr htail hgfb
      have hsz : (s.mem b.addr).size = b.size := (hwf.chain.header_of_mem b hb).1
      have hg2 : gfbL n pre = none := by
        rw [get_free_block_chain n hwf2.chain hlen2] at hmiss
        exact Option.some.inj hmiss
      have hroom : (shrink_state (reuse_state s b.addr n) b.addr (lastAddr pre)).brk
          + (HDR + n) < ADDR_LIMIT := by
        show b.addr + (HDR + n) < ADDR_LIMIT
        have := hwf.brk_lt
        omega
      rw [malloc_grow_eq hwf2 hn hlen2 hg2 hroom] at hr
      rw [← Option.some.inj hr]
      rfl
    · -- the reused block is marked free again and nothing is merged
      have hnl : ({ b with free := false } : Blk).addr + HDR
          + ({ b with free := false } : Blk).size ≠ (reuse_state s b.addr n).brk := hend
      obtain ⟨m', hfree, hch', -⟩ := free_mark_spec hwf1 hb1 hnl hlen1
      have hback : setFlag b.addr true (setFlag b.addr false bl0) = bl0 := by
        have := setFlag_setFlag ht hb
        rw [hbf] at this
        exact this
      have hL : coalesceL (setFlag b.addr true (setFlag b.addr false bl0)) = bl0 := by
        rw [hback, coalesceL_of_noAdjFree hwf.no_adj_free]
      have hwf2 := hwf1.mark_free b.addr
        (((reuse_state s b.addr n).total_freed + (m' b.addr).size) % WORD)
        (((reuse_state s b.addr n).current_usage + WORD - (m' b.addr).size) % WORD) hch'
      rw [hL] at hwf2 hfree
      have hr := malloc_reuse_eq hwf2 true hn hfuel0 hg
      exact ⟨_, _, hfree, hr, fun _ => rfl⟩
  | none =>
    obtain ⟨hroom, hp, hs1⟩ := malloc_some_of_miss hwf hn hsane hfuel0 hg hm
    subst hp hs1
    have hwf1 := hwf.wf_grow hn hroom
    have hlen1 : (bl0 ++ [(⟨s.brk, n, false⟩ : Blk)]).length ≤ fuel := by
      simp
      omega
    have hsz1 : ((grow_state s n).mem s.brk).size = n :=
      (hwf1.chain.header_of_mem (⟨s.brk, n, false⟩ : Blk) (by simp)).1
    have hread : s.brk + 8 ≤ page_end s.brk := by
      have h := hmap (by
        rw [Nat.add_sub_cancel, hsz1]
        show s.brk + HDR + n = s.brk + (HDR + n)
        omega)
      rwa [Nat.add_sub_cancel] at h
    have hfree := (free_shrink_eq hwf1 hlen1).trans (if_pos hread)
    have hwf2 := hwf1.wf_shrink
    have hroom2 : (shrink_state (grow_state s n) s.brk (lastAddr bl0)).brk + (HDR + n)
        < ADDR_LIMIT := hroom
    have hr := malloc_grow_eq hwf2 hn hfuel0 hg hroom2
    exact ⟨_, _, hfree, hr, fun _ => rfl⟩

/-- C9 (the claim as stated fails): in the heap `free_tail_trace`, whose list
is [free 100 at 4096, in use 8 at 4220, free 50 at 4252] with the break at
4326, `p = malloc(50)` reuses the last block (`p = 4276`); `free(p)` returns
it to the kernel, and the `malloc(50)` made next reuses the free block of 100
bytes and returns 4120, not `p`. -/
theorem malloc_free_malloc_other_block :
    (free_tail_trace.bind fun s =>
      (malloc 8 s 50 true).bind fun r1 =>
        (free 8 r1.2 r1.1).bind fun s2 =>
          (malloc 8 s2 50 true).map fun r2 =>
            (decide (Chain s.mem s.head
                [⟨4096, 100, true⟩, ⟨4220, 8, false⟩, ⟨4252, 50, true⟩]),
              s.brk, r1.1, s2.brk, r2.1))
      = some (true, 4326, some 4276, 4252, some 4120) := by
  decide

/-- Witness of `malloc_free_malloc_round_trip`: after `malloc(16)` on the
empty heap, `p = malloc(8)` grows the heap and returns 4160; the header of
its block, at 4136, stays mapped when `free(p)` lowers the break to it, and
the `malloc(8)` made next returns 4160 again. -/
theorem malloc_free_malloc_round_trip_witness :
    malloc 8 (grow_state (Heap.empty 4096) 16) 8 true
      = some (some 4160, grow_state (grow_state (Heap.empty 4096) 16) 8) ∧
    4160 - HDR + 8 ≤ page_end (4160 - HDR) ∧
    ∃ s2 r, free 8 (grow_state (grow_state (Heap.empty 4096) 16) 8) (some 4160) = some s2 ∧
      malloc 8 s2 8 true = some r ∧
      ((∀ a, (grow_state (Heap.empty 4096) 16).tail = some a →
          get_free_block 8 (grow_state (Heap.empty 4096) 16) 8 = some (some a) →
          8 ≤ ((grow_state (Heap.empty 4096) 16).mem a).size ∧
            get_free_block 8 s2 8 = some none) →
        r.1 = some 4160) :=
  ⟨rfl, by decide,
    @malloc_free_malloc_round_trip (grow_state (Heap.empty 4096) 16)
      (Reachable.alloc 8 16 true (some 4120, grow_state (Heap.empty 4096) 16)
        (Reachable.empty 4096 (by decide)) (by decide) (by decide) rfl)
      [⟨4096, 16, false⟩] (by decide) 8 (by decide) (by decide) 8 (by decide) true 4160
      (grow_state (grow_state (Heap.empty 4096) 16) 8) rfl (fun _ => by decide)⟩

/-- C10 (amended): in a reachable heap, let `X` and `Y` be two blocks in use,
`Y` right after `X` and not the last block of the list.  Let `Wl` hold the
block before `X` when it is free and `Zl` the block after `Y` when it is free
(each list is empty otherwise), `P` and `Q` being the blocks before and after
them.  Then `free(X); free(Y)` and `free(Y); free(X)` both return and leave
the same list, `P`, one free block, `Q`: the free block `fuse` of `Wl`, `X`,
`Y`, `Zl` starts at the first of these blocks and its size is the sum of
their sizes plus `sizeof(header_t)` for every block after the first, so that
with both neighbours in use it is the block at the address of `X` of size
`X.size + sizeof(header_t) + Y.size`.  The break has not moved.  The two
states agree on everything but the headers and the counters `total_freed`
and `current_usage`; they agree on the headers too when the block after `Y`
is in use, and they are equal when moreover the block before `X` is free.
A `malloc` of `X.size + sizeof(header_t) + Y.size` bytes made next returns
the same block in both states without moving the break, when the list holds a
free block of at least that size and at most `INT_MAX` bytes. -/
theorem free_adjacent_pair {s : Heap} (hreach : Reachable s) {pre post : List Blk}
    {X Y : Blk} (hch : Chain s.mem s.head (pre ++ X :: Y :: post))
    (hX : X.free = false) (hY : Y.free = false) (hpost : post ≠ [])
    {fuel : Nat} (hfuel : (pre ++ X :: Y :: post).length ≤ fuel) :
    ∃ P Wl Zl Q sx sxy sy syx,
      (pre = P ++ Wl ∧ post = Zl ++ Q ∧ Wl.length ≤ 1 ∧ Zl.length ≤ 1 ∧
        (∀ w ∈ Wl, w.free = true) ∧ (∀ z ∈ Zl, z.free = true) ∧
        (∀ w, P.getLast? = some w → w.free = false) ∧
        (∀ z, Q.head? = some z → z.free = false)) ∧
      (free fuel s (some (X.addr + HDR)) = some sx ∧
        free fuel sx (some (Y.addr + HDR)) = some sxy ∧
        free fuel s (some (Y.addr + HDR)) = some sy ∧
        free fuel sy (some (X.addr + HDR)) = some syx) ∧
      (Chain sxy.mem sxy.head (P ++ fuse (Wl ++ X :: Y :: Zl) :: Q) ∧
        Chain syx.mem syx.head (P ++ fuse (Wl ++ X :: Y :: Zl) :: Q) ∧
        (Wl = [] → Zl = [] →
          fuse (Wl ++ X :: Y :: Zl) = ⟨X.addr, X.size + (HDR + Y.size), true⟩) ∧
        sxy.brk = s.brk) ∧
      ({ sxy with mem := s.mem, total_freed := 0, current_usage := 0 }
          = { syx with mem := s.mem, total_freed := 0, current_usage := 0 } ∧
        (Zl = [] → { sxy with total_freed := 0, current_usage := 0 }
          = { syx with total_freed := 0, current_usage := 0 }) ∧
        (Wl ≠ [] → Zl = [] → sxy = syx)) ∧
      ((∃ c ∈ P ++ fuse (Wl ++ X :: Y :: Zl) :: Q, c.free = true ∧
          X.size + (HDR + Y.size) ≤ c.size ∧ c.size ≤ INT_MAX) →
        ∀ grant : Bool, ∃ a s3 s4,
          malloc fuel sxy (X.size + (HDR + Y.size)) grant = some (some a, s3) ∧
          malloc fuel syx (X.size + (HDR + Y.size)) grant = some (some a, s4) ∧
          s3.brk = s.brk ∧ s4.brk = s.brk) := by
  obtain ⟨bl0, hwf⟩ := hreach.wf
  have hbl : bl0 = pre ++ X :: Y :: post := Chain.unique hwf.chain hch
  subst hbl
  obtain ⟨a0, ht⟩ := hwf.tiles
  have hna := hwf.no_adj_free
  have hH := HDR_pos
  -- `Y` is not the last block
  have hYend : Y.addr + HDR + Y.size < s.brk := by
    obtain ⟨m, htp, htx⟩ := Tiles.append.mp ht
    cases post with
    | nil => exact absurd rfl hpost
    | cons z post =>
      have h1 : z.addr = m + HDR + X.size + HDR + Y.size := htx.2.2.1
      have h2 := htx.lt_brk z (by simp)
      have h3 : Y.addr = m + HDR + X.size := htx.2.1
      omega
  -- the free neighbours
  obtain ⟨P, Wl, hpre, hWlen, hW, hPl⟩ := free_suffix_split pre hna.of_append_left
  obtain ⟨Zl, Q, hpostd, hZlen, hZ, hQh⟩ :=
    free_prefix_split post ((hna.of_append_right).tail.tail)
  subst hpre hpostd
  obtain ⟨hLx, hLxy, hLy, hLyx⟩ := pair_lists_around ht hna hX hY hW hZ hPl hQh
  -- addresses
  obtain ⟨hltX, hgtX⟩ := Tiles.split_lt ht
  have hXY : X.addr < Y.addr := hgtX Y (List.mem_cons_self _ _)
  have hgtY : ∀ d ∈ Zl ++ Q, Y.addr < d.addr := by
    have e0 : P ++ Wl ++ X :: Y :: (Zl ++ Q) = (P ++ Wl ++ [X]) ++ Y :: (Zl ++ Q) := by simp
    have ht' : Tiles a0 ((P ++ Wl ++ [X]) ++ Y :: (Zl ++ Q)) s.brk := e0 ▸ ht
    exact (Tiles.split_lt ht').2
  have hXend : X.addr + HDR + X.size < s.brk := by
    obtain ⟨m, htp, htx⟩ := Tiles.append.mp ht
    have h3 : Y.addr = m + HDR + X.size := htx.2.1
    have h4 : X.addr = m := htx.1
    omega
  have hXmem : X ∈ P ++ Wl ++ X :: Y :: (Zl ++ Q) := by simp
  have hYmem : Y ∈ P ++ Wl ++ X :: Y :: (Zl ++ Q) := by simp
  -- release X, then Y
  obtain ⟨mx, hfx, hchx, hfrx⟩ := free_mark_spec hwf hXmem (by omega) hfuel
  rw [hLx] at hfx hchx hfrx
  have hwfx := hwf.mark_free X.addr ((s.total_freed + (mx X.addr).size) % WORD)
    ((s.current_usage + WORD - (mx X.addr).size) % WORD)
    (by rw [hLx]; exact hchx)
  rw [hLx] at hwfx
  have hYmemx : Y ∈ P ++ fuse (Wl ++ [X]) :: Y :: (Zl ++ Q) := by simp
  have hfuelx : (P ++ fuse (Wl ++ [X]) :: Y :: (Zl ++ Q)).length ≤ fuel := by
    simp at hfuel ⊢
    omega
  obtain ⟨mxy, hfxy, hchxy, hfrxy⟩ := free_mark_spec hwfx hYmemx
    (by show Y.addr + HDR + Y.size ≠ s.brk; omega) hfuelx
  rw [hLxy] at hfxy hchxy hfrxy
  -- release Y, then X
  obtain ⟨my, hfy, hchy, hfry⟩ := free_mark_spec hwf hYmem (by omega) hfuel
  rw [hLy] at hfy hchy hfry
  have hwfy := hwf.mark_free Y.addr ((s.total_freed + (my Y.addr).size) % WORD)
    ((s.current_usage + WORD - (my Y.addr).size) % WORD)
    (by rw [hLy]; exact hchy)
  rw [hLy] at hwfy
  have hXmemy : X ∈ P ++ Wl ++ X :: fuse (Y :: Zl) :: Q := by simp
  have hfuely : (P ++ Wl ++ X :: fuse (Y :: Zl) :: Q).length ≤ fuel := by
    simp at hfuel ⊢
    omega
  obtain ⟨myx, hfyx, hchyx, hfryx⟩ := free_mark_spec hwfy hXmemy
    (by show X.addr + HDR + X.size ≠ s.brk; omega) hfuely
  rw [hLyx] at hfyx hchyx hfryx
  have hwfxy := hwfx.mark_free Y.addr
    (((s.total_freed + (mx X.addr).size) % WORD + (mxy Y.addr).size) % WORD)
    (((s.current_usage + WORD - (mx X.addr).size) % WORD + WORD - (mxy Y.addr).size) % WORD)
    (by rw [hLxy]; exact hchxy)
  rw [hLxy] at hwfxy
  have hwfyx := hwfy.mark_free X.addr
    (((s.total_freed + (my Y.addr).size) % WORD + (myx X.addr).size) % WORD)
    (((s.current_usage + WORD - (my Y.addr).size) % WORD + WORD - (myx X.addr).size) % WORD)
    (by rw [hLyx]; exact hchyx)
  rw [hLyx] at hwfyx
  -- the address of the merged block
  have hMaddr : (fuse (Wl ++ [X])).addr = (fuse (Wl ++ X :: Y :: Zl)).addr :=
    fuse_addr Wl X [] (Y :: Zl)
  have hWM : ∀ w ∈ Wl, w.addr = (fuse (Wl ++ X :: Y :: Zl)).addr := by
    intro w hw
    cases Wl with
    | nil => simp at hw
    | cons w1 ws =>
      cases ws with
      | nil =>
        have : w = w1 := by simpa using hw
        rw [this]
        rfl
      | cons _ _ => simp at hWlen
  have hMleX : (fuse (Wl ++ X :: Y :: Zl)).addr ≤ X.addr := by
    cases Wl with
    | nil => exact le_refl _
    | cons w1 ws => exact le_of_lt (hltX w1 (by simp))
  have hMltX : Wl ≠ [] → (fuse (Wl ++ X :: Y :: Zl)).addr < X.addr := by
    intro hne
    cases Wl with
    | nil => exact absurd rfl hne
    | cons w1 ws => exact hltX w1 (by simp)
  have hPltX : ∀ c ∈ P, c.addr < X.addr := fun c hc => hltX c (List.mem_append_left _ hc)
  have hQgtY : ∀ c ∈ Q, Y.addr < c.addr := fun c hc => hgtY c (List.mem_append_right _ hc)
  -- headers read off the chains
  have hsX : s.mem X.addr = ⟨X.size, X.free, some Y.addr⟩ := by
    have := @Chain.header_at s.mem (P ++ Wl) _ X (Y :: (Zl ++ Q)) hwf.chain
    simpa [firstAddr] using this
  have hmxY : mx Y.addr = ⟨Y.size, Y.free, firstAddr (Zl ++ Q)⟩ :=
    @Chain.header_at mx (P ++ [fuse (Wl ++ [X])]) _ Y (Zl ++ Q) (by simpa using hchx)
  have hmyX : my X.addr = ⟨X.size, X.free, some Y.addr⟩ := by
    have := @Chain.header_at my (P ++ Wl) _ X (fuse (Y :: Zl) :: Q) hchy
    simpa [firstAddr, fuse] using this
  have hmyY : my Y.addr = ⟨Y.size + span Zl, true, firstAddr Q⟩ :=
    @Chain.header_at my (P ++ Wl ++ [X]) _ (fuse (Y :: Zl)) Q (by simpa using hchy)
  -- addresses outside the lists
  have notL1 : ∀ x, (∀ c ∈ P, c.addr ≠ x) → (fuse (Wl ++ X :: Y :: Zl)).addr ≠ x →
      Y.addr ≠ x → (∀ c ∈ Zl ++ Q, c.addr ≠ x) →
      ∀ c ∈ P ++ fuse (Wl ++ [X]) :: Y :: (Zl ++ Q), c.addr ≠ x := by
    intro x h1 h2 h3 h4 c hc
    rcases List.mem_append.mp hc with hc | hc
    · exact h1 c hc
    · rcases List.mem_cons.mp hc with hc | hc
      · rw [hc, hMaddr]
        exact h2
      · rcases List.mem_cons.mp hc with hc | hc
        · rw [hc]
          exact h3
        · exact h4 c hc
  have notL2 : ∀ x, (∀ c ∈ P, c.addr ≠ x) → (fuse (Wl ++ X :: Y :: Zl)).addr ≠ x →
      X.addr ≠ x → Y.addr ≠ x → (∀ c ∈ Q, c.addr ≠ x) →
      ∀ c ∈ P ++ Wl ++ X :: fuse (Y :: Zl) :: Q, c.addr ≠ x := by
    intro x h1 h2 h3 h4 h5 c hc
    rcases List.mem_append.mp hc with hc | hc
    · rcases List.mem_append.mp hc with hc | hc
      · exact h1 c hc
      · rw [hWM c hc]
        exact h2
    · rcases List.mem_cons.mp hc with hc | hc
      · rw [hc]
        exact h3
      · rcases List.mem_cons.mp hc with hc | hc
        · rw [hc]
          exact h4
        · exact h5 c hc
  -- the two memories agree when the block after `Y` is in use
  have hmem : Zl = [] → mxy = myx := by
    intro hz
    subst hz
    funext x
    by_cases hx : ∃ c ∈ P ++ fuse (Wl ++ X :: Y :: []) :: Q, c.addr = x
    · obtain ⟨c, hc, hcx⟩ := hx
      rw [← hcx]
      exact Chain.agree hchxy hchyx c hc
    · have hx' : ∀ c ∈ P ++ fuse (Wl ++ X :: Y :: []) :: Q, c.addr ≠ x :=
        fun c hc hcx => hx ⟨c, hc, hcx⟩
      have hxP : ∀ c ∈ P, c.addr ≠ x := fun c hc => hx' c (by simp [hc])
      have hxQ : ∀ c ∈ Q, c.addr ≠ x := fun c hc => hx' c (by simp [hc])
      have hxM : (fuse (Wl ++ X :: Y :: [])).addr ≠ x := hx' _ (by simp)
      have hxQ' : ∀ c ∈ [] ++ Q, c.addr ≠ x := by simpa using hxQ
      rw [hfrxy x hx', hfryx x hx']
      by_cases hxY : x = Y.addr
      · subst hxY
        have hne : ¬ (Y.addr = X.addr) := by omega
        show (if Y.addr = Y.addr then ({ mx Y.addr with is_free := true } : header_t)
          else mx Y.addr)
          = (if Y.addr = X.addr then ({ my X.addr with is_free := true } : header_t)
            else my Y.addr)
        rw [if_pos rfl, if_neg hne, hmxY, hmyY]
        simp [span]
      · by_cases hxX : x = X.addr
        · subst hxX
          have h1 := hfrx X.addr (notL1 X.addr hxP hxM (by omega) hxQ')
          show (if X.addr = Y.addr then ({ mx Y.addr with is_free := true } : header_t)
            else mx X.addr)
            = (if X.addr = X.addr then ({ my X.addr with is_free := true } : header_t)
              else my X.addr)
          rw [if_neg hxY, if_pos rfl, h1, if_pos rfl, hmyX, hsX]
        · have h1 := hfrx x (notL1 x hxP hxM (fun h => hxY h.symm) hxQ')
          have h2 := hfry x
            (notL2 x hxP hxM (fun h => hxX h.symm) (fun h => hxY h.symm) hxQ)
          show (if x = Y.addr then ({ mx Y.addr with is_free := true } : header_t)
            else mx x)
            = (if x = X.addr then ({ my X.addr with is_free := true } : header_t)
              else my x)
          rw [if_neg hxY, if_neg hxX, h1, h2, if_neg hxX, if_neg hxY]
  -- the sizes that the counters add
  have hL := ADDR_LIMIT_lt
  have hbrk := hwf.brk_lt
  have hXW : X.size < WORD := by omega
  have hYW : Y.size < WORD := by omega
  have hszxyY : (mxy Y.addr).size = Y.size := by
    have h := hfrxy Y.addr (by
      intro c hc
      rcases List.mem_append.mp hc with hc | hc
      · have := hPltX c hc
        omega
      · rcases List.mem_cons.mp hc with hc | hc
        · rw [hc]
          omega
        · have := hQgtY c hc
          omega)
    rw [h]
    show (if Y.addr = Y.addr then ({ mx Y.addr with is_free := true } : header_t)
      else mx Y.addr).size = Y.size
    rw [if_pos rfl, hmxY]
  have hszxX : Wl ≠ [] → (mx X.addr).size = X.size := by
    intro hne
    have hM := hMltX hne
    have h := hfrx X.addr (notL1 X.addr (fun c hc => Nat.ne_of_lt (hPltX c hc))
      (Nat.ne_of_lt hM) (by omega) (fun c hc => by have := hgtY c hc; omega))
    rw [h, if_pos rfl, hsX]
  have hszyxX : Wl ≠ [] → (myx X.addr).size = X.size := by
    intro hne
    have hM := hMltX hne
    have h := hfryx X.addr (by
      intro c hc
      rcases List.mem_append.mp hc with hc | hc
      · exact Nat.ne_of_lt (hPltX c hc)
      · rcases List.mem_cons.mp hc with hc | hc
        · rw [hc]
          exact Nat.ne_of_lt hM
        · have := hQgtY c hc
          omega)
    rw [h]
    show (if X.addr = X.addr then ({ my X.addr with is_free := true } : header_t)
      else my X.addr).size = X.size
    rw [if_pos rfl, hmyX]
  refine ⟨P, Wl, Zl, Q, _, _, _, _, ⟨rfl, rfl, hWlen, hZlen, hW, hZ, hPl, hQh⟩,
    ⟨hfx, hfxy, hfy, hfyx⟩, ⟨hchxy, hchyx, ?_, rfl⟩, ⟨rfl, ?_, ?_⟩, ?_⟩
  · intro h1 h2
    subst h1 h2
    simp [fuse, span]
  · intro hz
    rw [hmem hz]
  · intro hne hz
    have hm := hmem hz
    have h1 := hszxX hne
    have h4 := hszyxX hne
    have h3 : (my Y.addr).size = Y.size := by
      rw [hmyY, hz]
      simp [span]
    have htf : ((s.total_freed + (mx X.addr).size) % WORD + (mxy Y.addr).size) % WORD
        = ((s.total_freed + (my Y.addr).size) % WORD + (myx X.addr).size) % WORD := by
      rw [h1, hszxyY, h3, h4]
      exact add_mod_swap _ _ _
    have hcu : ((s.current_usage + WORD - (mx X.addr).size) % WORD + WORD
          - (mxy Y.addr).size) % WORD
        = ((s.current_usage + WORD - (my Y.addr).size) % WORD + WORD
          - (myx X.addr).size) % WORD := by
      rw [h1, hszxyY, h3, h4]
      exact sub_mod_swap _ _ _ hXW hYW
    show ({ s with
        mem := mxy
        tail := lastAddr (P ++ fuse (Wl ++ X :: Y :: Zl) :: Q)
        total_freed := ((s.total_freed + (mx X.addr).size) % WORD + (mxy Y.addr).size) % WORD
        current_usage := ((s.current_usage + WORD - (mx X.addr).size) % WORD + WORD
          - (mxy Y.addr).size) % WORD } : Heap)
      = { s with
        mem := myx
        tail := lastAddr (P ++ fuse (Wl ++ X :: Y :: Zl) :: Q)
        total_freed := ((s.total_freed + (my Y.addr).size) % WORD + (myx X.addr).size) % WORD
        current_usage := ((s.current_usage + WORD - (my Y.addr).size) % WORD + WORD
          - (myx X.addr).size) % WORD }
    rw [htf, hcu, hm]
  · rintro ⟨c, hc, hcf, hcn, hcle⟩ grant
    obtain ⟨a, ha⟩ := gfbL_some_of_fit hc hcf hcn hcle
    have hpos : 0 < X.size + (HDR + Y.size) := by omega
    have hlen : (P ++ fuse (Wl ++ X :: Y :: Zl) :: Q).length ≤ fuel := by
      simp at hfuel ⊢
      omega
    exact ⟨a + HDR, _, _, malloc_reuse_eq hwfxy grant hpos hlen ha,
      malloc_reuse_eq hwfyx grant hpos hlen ha, rfl, rfl⟩

/-- Witness of `free_adjacent_pair`: four blocks of sizes 16, 32, 48, 16 of
which the first has been released, `X` and `Y` the second and the third: the
block before `X` is free, the block after `Y` in use. -/
theorem free_adjacent_pair_witness :
    ∃ s, free 8 (grow_state (grow_state (grow_state (grow_state (Heap.empty 4096) 16) 32) 48) 16)
        (some 4120) = some s ∧
      Chain s.mem s.head
        ([⟨4096, 16, true⟩] ++ ⟨4136, 32, false⟩ :: ⟨4192, 48, false⟩ :: [⟨4264, 16, false⟩]) ∧
      ∃ P Wl Zl Q sx sxy sy syx,
        (([⟨4096, 16, true⟩] : List Blk) = P ++ Wl ∧ ([⟨4264, 16, false⟩] : List Blk) = Zl ++ Q ∧
          Wl.length ≤ 1 ∧ Zl.length ≤ 1 ∧
          (∀ w ∈ Wl, w.free = true) ∧ (∀ z ∈ Zl, z.free = true) ∧
          (∀ w, P.getLast? = some w → w.free = false) ∧
          (∀ z, Q.head? = some z → z.free = false)) ∧
        (free 8 s (some (4136 + HDR)) = some sx ∧
          free 8 sx (some (4192 + HDR)) = some sxy ∧
          free 8 s (some (4192 + HDR)) = some sy ∧
          free 8 sy (some (4136 + HDR)) = some syx) ∧
        (Chain sxy.mem sxy.head
            (P ++ fuse (Wl ++ ⟨4136, 32, false⟩ :: ⟨4192, 48, false⟩ :: Zl) :: Q) ∧
          Chain syx.mem syx.head
            (P ++ fuse (Wl ++ ⟨4136, 32, false⟩ :: ⟨4192, 48, false⟩ :: Zl) :: Q) ∧
          (Wl = [] → Zl = [] →
            fuse (Wl ++ ⟨4136, 32, false⟩ :: ⟨4192, 48, false⟩ :: Zl)
              = ⟨4136, 32 + (HDR + 48), true⟩) ∧
          sxy.brk = s.brk) ∧
        ({ sxy with mem := s.mem, total_freed := 0, current_usage := 0 }
            = { syx with mem := s.mem, total_freed := 0, current_usage := 0 } ∧
          (Zl = [] → { sxy with total_freed := 0, current_usage := 0 }
            = { syx with total_freed := 0, current_usage := 0 }) ∧
          (Wl ≠ [] → Zl = [] → sxy = syx)) ∧
        ((∃ c ∈ P ++ fuse (Wl ++ ⟨4136, 32, false⟩ :: ⟨4192, 48, false⟩ :: Zl) :: Q,
            c.free = true ∧ 32 + (HDR + 48) ≤ c.size ∧ c.size ≤ INT_MAX) →
          ∀ grant : Bool, ∃ a s3 s4,
            malloc 8 sxy (32 + (HDR + 48)) grant = some (some a, s3) ∧
            malloc 8 syx (32 + (HDR + 48)) grant = some (some a, s4) ∧
            s3.brk = s.brk ∧ s4.brk = s.brk) := by
  have hsome : (free 8
      (grow_state (grow_state (grow_state (grow_state (Heap.empty 4096) 16) 32) 48) 16)
      (some 4120)).map (fun s => decide (Chain s.mem s.head
        ([⟨4096, 16, true⟩] ++ ⟨4136, 32, false⟩ :: ⟨4192, 48, false⟩ :: [⟨4264, 16, false⟩])))
      = some true := by decide
  cases h : free 8
      (grow_state (grow_state (grow_state (grow_state (Heap.empty 4096) 16) 32) 48) 16)
      (some 4120) with
  | none =>
    rw [h] at hsome
    cases hsome
  | some s =>
    rw [h] at hsome
    have hch : Chain s.mem s.head
        ([⟨4096, 16, true⟩] ++ ⟨4136, 32, false⟩ :: ⟨4192, 48, false⟩ :: [⟨4264, 16, false⟩]) :=
      of_decide_eq_true (Option.some.inj hsome)
    exact ⟨s, rfl, hch,
      free_adjacent_pair
        (Reachable.release 8
          [⟨4096, 16, false⟩, ⟨4136, 32, false⟩, ⟨4192, 48, false⟩, ⟨4264, 16, false⟩]
          ⟨4096, 16, false⟩ s
          (Reachable.alloc 8 16 true
            (some 4288,
              grow_state (grow_state (grow_state (grow_state (Heap.empty 4096) 16) 32) 48) 16)
            (Reachable.alloc 8 48 true
              (some 4216, grow_state (grow_state (grow_state (Heap.empty 4096) 16) 32) 48)
              (Reachable.alloc 8 32 true
                (some 4160, grow_state (grow_state (Heap.empty 4096) 16) 32)
                (Reachable.alloc 8 16 true (some 4120, grow_state (Heap.empty 4096) 16)
                  (Reachable.empty 4096 (by decide)) (by decide) (by decide) rfl)
                (by decide) (by decide) rfl)
              (by decide) (by decide) rfl)
            (by decide) (by decide) rfl)
          (by decide) (by simp) rfl h)
        hch rfl rfl (by simp) (by decide)⟩

/-- C10 (the claim as stated fails), on heaps built by four calls of `malloc`
from the empty heap with break 4096.
(1) Blocks of sizes 16, 64, 64, 8 of which the last one has been released, so
that `X` and `Y`, the second and the third, are in use and `Y` ends at the
break 4312: `free(X); free(Y)` leaves the list [in use 16, free 64 at 4136]
with the break at 4224, `free(Y); free(X)` leaves the list [in use 16] with
the break at 4136.
(2) Blocks of sizes 16, 32, 48, 16 with the first one free, `X` and `Y` the
second and third: after `free(X); free(Y)` the free block starts at 4096, the
address of the first block, and has size 144, not 104.
(3) Blocks of sizes 32, 48, 16, 16 with the third one free, `X` and `Y` the
first two: the free block at the address of `X` has size 144, not 104.
(4) Blocks of sizes 16, 32, 48, 16 all in use, `X` and `Y` the second and
third: both orders give the list [in use 16, free 104 at 4136, in use 16],
but `total_freed` is 80 after `free(X); free(Y)` and 152 after
`free(Y); free(X)`. -/
theorem free_adjacent_pair_differs :
    ((four_blocks 16 64 64 8).bind fun r =>
      (free 8 r.2.2.2.2 r.2.2.2.1).bind fun s =>
        (free_two s r.2.1 r.2.2.1).bind fun sxy =>
          (free_two s r.2.2.1 r.2.1).map fun syx =>
            (s.brk, decide (Chain sxy.mem sxy.head [⟨4096, 16, false⟩, ⟨4136, 64, true⟩]),
              sxy.brk, decide (Chain syx.mem syx.head [⟨4096, 16, false⟩]), syx.brk))
      = some (4312, true, 4224, true, 4136) ∧
    ((four_blocks 16 32 48 16).bind fun r =>
      (free 8 r.2.2.2.2 r.1).bind fun s =>
        (free_two s r.2.1 r.2.2.1).map fun sxy =>
          decide (Chain sxy.mem sxy.head [⟨4096, 144, true⟩, ⟨4264, 16, false⟩]))
      = some true ∧
    ((four_blocks 32 48 16 16).bind fun r =>
      (free 8 r.2.2.2.2 r.2.2.1).bind fun s =>
        (free_two s r.1 r.2.1).map fun sxy =>
          decide (Chain sxy.mem sxy.head [⟨4096, 144, true⟩, ⟨4264, 16, false⟩]))
      = some true ∧
    ((four_blocks 16 32 48 16).bind fun r =>
      (free_two r.2.2.2.2 r.2.1 r.2.2.1).bind fun sxy =>
        (free_two r.2.2.2.2 r.2.2.1 r.2.1).map fun syx =>
          (decide (Chain sxy.mem sxy.head
              [⟨4096, 16, false⟩, ⟨4136, 104, true⟩, ⟨4264, 16, false⟩]),
            decide (Chain syx.mem syx.head
              [⟨4096, 16, false⟩, ⟨4136, 104, true⟩, ⟨4264, 16, false⟩]),
            sxy.total_freed, syx.total_freed))
      = some (true, true, 80, 152) := by
  decide

/-- C11: for a block `b` of the list (in use or not) and a size
`0 < size <= b.size`, `realloc(p, size)` on the payload pointer `p` of `b`
returns `p` and leaves the whole state as it was: headers, list, break,
payload bytes, counters and guard. -/
theorem realloc_within_size (fuel : Nat) (s : Heap) (bl : List Blk) (b : Blk) (size : Nat)
    (grant : Bool) (hch : Chain s.mem s.head bl) (hb : b ∈ bl) (hptr : b.addr + HDR < WORD)
    (hsize : 0 < size) (hle : size ≤ b.size) :
    realloc fuel s (some (b.addr + HDR)) size grant = some (some (b.addr + HDR), s) := by
  have hhdr : (b.addr + HDR + WORD - HDR) % WORD = b.addr := by
    rw [WORD_eq, HDR_eq] at *
    omega
  have hsz : (s.mem b.addr).size = b.size := (hch.header_of_mem b hb).1
  unfold realloc
  simp only [Nat.pos_iff_ne_zero.mp hsize, if_false, hhdr, hsz, ge_iff_le, hle, if_true]

/-- Witness of `realloc_within_size`: after `malloc(64)` on the empty heap,
`realloc` of the block to 32 bytes. -/
theorem realloc_within_size_witness :
    Chain (grow_state (Heap.empty 4096) 64).mem (grow_state (Heap.empty 4096) 64).head
      [⟨4096, 64, false⟩] ∧
    realloc 8 (grow_state (Heap.empty 4096) 64) (some (4096 + HDR)) 32 true
      = some (some (4096 + HDR), grow_state (Heap.empty 4096) 64) :=
  ⟨by decide,
    realloc_within_size 8 (grow_state (Heap.empty 4096) 64) [⟨4096, 64, false⟩]
      ⟨4096, 64, false⟩ 32 true (by decide) (List.mem_cons_self _ _) (by decide) (by decide)
      (by decide)⟩

/-- C13: on the empty heap with break 4096, the kernel granting every
growth request, `A = malloc(64)`, `B = malloc(128)`, `free(A)` lead to a heap
in which `malloc(32)` returns `A` (4120) without moving the break (4336), and
the following `malloc(1000)` grows the heap: the break rises by
`sizeof(header_t) + 1000` to 5360 and the new block, at the old break 4336,
is the new tail. -/
theorem scenario_reuse_then_grow :
    ((malloc 8 (Heap.empty 4096) 64 true).bind fun ra =>
      (malloc 8 ra.2 128 true).bind fun rb =>
        (free 8 rb.2 ra.1).bind fun s =>
          (malloc 8 s 32 true).map fun r1 =>
            (ra.1, s.brk, r1.1, r1.2.brk))
      = some (some 4120, 4336, some 4120, 4336) ∧
    ((malloc 8 (Heap.empty 4096) 64 true).bind fun ra =>
      (malloc 8 ra.2 128 true).bind fun rb =>
        (free 8 rb.2 ra.1).bind fun s =>
          (malloc 8 s 32 true).bind fun r1 =>
            (malloc 8 r1.2 1000 true).map fun r2 =>
              (decide (get_free_block 8 r1.2 1000 = some none), r2.1, r2.2.brk, r2.2.tail,
                decide (Chain r2.2.mem r2.2.head
                  [⟨4096, 64, false⟩, ⟨4184, 128, false⟩, ⟨4336, 1000, false⟩])))
      = some (true, some 4360, 5360, some 4336, true) :=
  ⟨by decide, by decide⟩

/-- C19: on a block list whose free blocks all have a recorded size below
`__INT_MAX__`, `get_free_block(size)` returns what the reference definition
`best_fit` gives, the first block in list order among the free blocks of
minimal size among those with size at least `size`; in particular it returns
`NULL` exactly when no free block has size at least `size`. -/
theorem get_free_block_best_fit (fuel : Nat) (s : Heap) (bl : List Blk) (size : Nat)
    (hch : Chain s.mem s.head bl) (hfuel : bl.length ≤ fuel)
    (hbound : ∀ b ∈ bl, b.free = true → b.size < INT_MAX) :
    get_free_block fuel s size = some (best_fit size bl) ∧
    (get_free_block fuel s size = some none ↔
      ∀ b ∈ bl, ¬ (b.free = true ∧ size ≤ b.size)) := by
  have h := get_free_block_chain size hch hfuel
  rw [gfbL_eq_best_fit hbound] at h
  refine ⟨h, ?_⟩
  rw [h]
  constructor
  · intro hn
    exact best_fit_eq_none.mp (Option.some.inj hn)
  · intro hn
    rw [best_fit_eq_none.mpr hn]

/-- Witness of `get_free_block_best_fit`: a request of 32 bytes on the heap
`two_blocks_first_free`, answered by the free block at 4096. -/
theorem get_free_block_best_fit_witness :
    best_fit 32 [⟨4096, 64, true⟩, ⟨4184, 128, false⟩] = some 4096 ∧
    get_free_block 8 two_blocks_first_free 32
      = some (best_fit 32 [⟨4096, 64, true⟩, ⟨4184, 128, false⟩]) ∧
    (get_free_block 8 two_blocks_first_free 32 = some none ↔
      ∀ b ∈ [(⟨4096, 64, true⟩ : Blk), ⟨4184, 128, false⟩],
        ¬ (b.free = true ∧ 32 ≤ b.size)) :=
  ⟨by decide,
    get_free_block_best_fit 8 two_blocks_first_free [⟨4096, 64, true⟩, ⟨4184, 128, false⟩] 32
      (by decide) (by decide) (by decide)⟩

/-- C14 (fails on the code): `malloc(8); malloc(2^64 - 24); malloc(8)` on the
empty heap with break 4096.  The second call computes `total_size = 0`, so
its header is written at the break 4128 and the break does not move; the
third call receives the same address 4128 from `sbrk`, overwrites that
header and links the tail, which is this very block, to itself.  In the
resulting heap the tail's `next` is the tail, not `NULL`: the walk from
`head` goes 4096, 4128, 4128, ... and `get_free_block` never returns (it
runs out of any fuel, here 64). -/
theorem list_becomes_cyclic :
    (wrapped_size_trace.map fun s =>
      (s.head, s.tail, (s.mem 4096).next, (s.mem 4128).next,
        decide (get_free_block 64 s 1 = none)))
      = some (some 4096, some 4128, some 4128, some 4128, true) := by
  decide

/-- C16 (fails on the code): four blocks of sizes 16, 32, 48, 16 in use on
the empty heap with break 4096; after `free` of the third block,
`total_freed` is 48 and the second block, at 4136, is in use with recorded
size 32; `free` of the second block then merges the third into it and adds
the size read after the merge, 104 = 32 + 24 + 48, so that `total_freed`
becomes 152 instead of 80. -/
theorem total_freed_counts_merged_size :
    ((four_blocks 16 32 48 16).bind fun r =>
      (free 8 r.2.2.2.2 r.2.2.1).bind fun sy =>
        (free 8 sy r.2.1).map fun syx =>
          ((sy.mem 4136).size, (sy.mem 4136).is_free, sy.total_freed, syx.total_freed))
      = some (32, false, 48, 152) := by
  decide

/-- C17 (fails on the code): `A = malloc(64); malloc(8); free(A)` on the
empty heap leaves `current_usage = 8`; `C = malloc(32)` reuses the block of
`A` and adds the requested 32 (`current_usage = 40`); `free(C)` subtracts
the recorded size 64 of the block, and `current_usage` wraps around to
`2^64 - 24` while one allocation of 8 bytes is outstanding. -/
theorem current_usage_wraps :
    ((free_first_of_two 64 8).bind fun s =>
      (malloc 8 s 32 true).bind fun r =>
        (free 8 r.2 r.1).map fun s2 =>
          (r.1, s.current_usage, r.2.current_usage, s2.current_usage,
            decide (Chain s2.mem s2.head [⟨4096, 64, true⟩, ⟨4184, 8, false⟩])))
      = some (some 4120, 8, 40, 18446744073709551592, true) := by
  decide

/-- C18 (fails on the code): `malloc(8)` on the empty heap takes the guard,
calls `sbrk`, writes the new header and the list pointers, releases the guard
once, and only then updates `total_allocated`, `current_usage` and
`allocation_count`: the three counter updates lie outside the guard.  The
same holds for the reuse path of `malloc` (here `malloc(32)` after
`A = malloc(64); malloc(128); free(A)`) and for the path of `free` that
shrinks the heap (here `free(B)` after `malloc(64); B = malloc(128)`, the
header of `B` at 4184 staying mapped), whereas the path of `free` that marks
the block free (here `free(A)` in that heap) updates the counters under the
guard. -/
theorem counters_updated_after_unlock :
    (malloc_events 8 (Heap.empty 4096) 8 true
        = some [Event.lock, Event.sbrk_call, Event.header_write, Event.header_write,
            Event.header_write, Event.list_write, Event.list_write, Event.unlock,
            Event.counter_update, Event.counter_update, Event.counter_update] ∧
      (malloc_events 8 (Heap.empty 4096) 8 true).map (guarded false) = some false) ∧
    (malloc_events 8 two_blocks_first_free 32 true
        = some [Event.lock, Event.header_write, Event.unlock,
            Event.counter_update, Event.counter_update] ∧
      (malloc_events 8 two_blocks_first_free 32 true).map (guarded false) = some false) ∧
    (free_events 8 (grow_state (grow_state (Heap.empty 4096) 64) 128) (some 4208)
        = some [Event.lock, Event.sbrk_call, Event.header_write, Event.list_write,
            Event.sbrk_call, Event.unlock, Event.counter_update, Event.counter_update] ∧
      (free_events 8 (grow_state (grow_state (Heap.empty 4096) 64) 128) (some 4208)).map
        (guarded false) = some false) ∧
    (free_events 8 (grow_state (grow_state (Heap.empty 4096) 64) 128) (some 4120)
        = some [Event.lock, Event.sbrk_call, Event.header_write,
            Event.counter_update, Event.counter_update, Event.unlock] ∧
      (free_events 8 (grow_state (grow_state (Heap.empty 4096) 64) 128) (some 4120)).map
        (guarded false) = some true) := by
  decide

/-- C15: on every chain from `head` that reaches `NULL` (with enough fuel
for its length), `coalesce_free_blocks` returns and leaves a chain in which
no two neighbours are both free, whatever the number of consecutive free
blocks before the call; hence the chain that `free` leaves when it does not
shrink the heap (the payload of the released block does not end at the
break) has no two neighbours that are both free. -/
theorem coalesce_leaves_no_adjacent_free (fuel : Nat) (s : Heap) (bl : List Blk)
    (hch : Chain s.mem s.head bl) (hfuel : bl.length ≤ fuel) :
    (∃ s' bl', coalesce_free_blocks fuel s = some s' ∧ Chain s'.mem s'.head bl' ∧
      NoAdjFree bl') ∧
    (∀ b ∈ bl, s.locked = false → b.addr + HDR < WORD →
      (b.addr + HDR + b.size) % WORD ≠ s.brk →
      ∃ s' bl', free fuel s (some (b.addr + HDR)) = some s' ∧ Chain s'.mem s'.head bl' ∧
        NoAdjFree bl') := by
  constructor
  · obtain ⟨m', t', hrun, hch', -, -⟩ := coalesce_free_blocks_chain hch hfuel
    exact ⟨_, _, hrun, hch', noAdj_coalesceW bl⟩
  · intro b hb hlock hptr hnl
    obtain ⟨s', hfree, hch'⟩ := free_mark_chain hch hfuel hb hlock hptr hnl
    exact ⟨s', _, hfree, hch', noAdj_coalesceW _⟩

/-- Witness of `coalesce_leaves_no_adjacent_free`: a list that starts with
three consecutive free blocks of 16 bytes; one call merges them into one
block of 96 bytes. -/
theorem coalesce_leaves_no_adjacent_free_witness :
    (coalesce_free_blocks 8 three_free_blocks).map
        (fun s' => decide (Chain s'.mem s'.head [⟨4096, 96, true⟩, ⟨4216, 16, false⟩]))
      = some true ∧
    (∃ s' bl', coalesce_free_blocks 8 three_free_blocks = some s' ∧
      Chain s'.mem s'.head bl' ∧ NoAdjFree bl') ∧
    (∀ b ∈ [(⟨4096, 16, true⟩ : Blk), ⟨4136, 16, true⟩, ⟨4176, 16, true⟩, ⟨4216, 16, false⟩],
      three_free_blocks.locked = false → b.addr + HDR < WORD →
      (b.addr + HDR + b.size) % WORD ≠ three_free_blocks.brk →
      ∃ s' bl', free 8 three_free_blocks (some (b.addr + HDR)) = some s' ∧
        Chain s'.mem s'.head bl' ∧ NoAdjFree bl') :=
  ⟨by decide,
    coalesce_leaves_no_adjacent_free 8 three_free_blocks
      [⟨4096, 16, true⟩, ⟨4136, 16, true⟩, ⟨4176, 16, true⟩, ⟨4216, 16, false⟩]
      (by decide) (by decide)⟩

/-- C20: on a well-formed list (a chain from `head` that reaches `NULL`,
whose last block is `tail` and whose blocks span less than `2^64` bytes, as
every list laid out in memory does) `coalesce_free_blocks` returns, and the
list `bl'` it leaves spans the same number of bytes (the sum of
`sizeof(header_t) + size` over the blocks), `head` is unchanged, the blocks in
use are the same with the same addresses and sizes in the same order, no
header of the memory has changed its `is_free` flag, and `tail` is the last
block of `bl'`. -/
theorem coalesce_preserves_span_and_used (fuel : Nat) (s : Heap) (bl : List Blk)
    (hch : Chain s.mem s.head bl) (htail : s.tail = lastAddr bl) (hspan : span bl < WORD)
    (hfuel : bl.length ≤ fuel) :
    ∃ s' bl', coalesce_free_blocks fuel s = some s' ∧ Chain s'.mem s'.head bl' ∧
      span bl' = span bl ∧ s'.head = s.head ∧ in_use bl' = in_use bl ∧
      (∀ x, (s'.mem x).is_free = (s.mem x).is_free) ∧ s'.tail = lastAddr bl' := by
  obtain ⟨m', hrun, hch', hsp, hus, hfl⟩ := coalesce_preserves_aux hch htail hspan hfuel
  exact ⟨_, coalesceL bl, hrun, hch', hsp, rfl, hus, hfl, rfl⟩

/-- Witness of `coalesce_preserves_span_and_used`: the list of three
consecutive free blocks of 16 bytes followed by a block in use. -/
theorem coalesce_preserves_span_and_used_witness :
    span [⟨4096, 16, true⟩, ⟨4136, 16, true⟩, ⟨4176, 16, true⟩, ⟨4216, 16, false⟩] = 160 ∧
    ∃ s' bl', coalesce_free_blocks 8 three_free_blocks = some s' ∧
      Chain s'.mem s'.head bl' ∧
      span bl' = span [⟨4096, 16, true⟩, ⟨4136, 16, true⟩, ⟨4176, 16, true⟩,
        ⟨4216, 16, false⟩] ∧
      s'.head = three_free_blocks.head ∧
      in_use bl' = in_use [⟨4096, 16, true⟩, ⟨4136, 16, true⟩, ⟨4176, 16, true⟩,
        ⟨4216, 16, false⟩] ∧
      (∀ x, (s'.mem x).is_free = (three_free_blocks.mem x).is_free) ∧
      s'.tail = lastAddr bl' :=
  ⟨by decide,
    coalesce_preserves_span_and_used 8 three_free_blocks
      [⟨4096, 16, true⟩, ⟨4136, 16, true⟩, ⟨4176, 16, true⟩, ⟨4216, 16, false⟩]
      (by decide) (by decide) (by decide) (by decide)⟩

end MyMem
